import Mathlib

/-!
# Custom memory allocator (`my_allocator.c`): embedding and verification

The allocator keeps a singly linked chain of `block_meta` headers inside an
arena obtained from `sbrk`.  The embedding is a typed-heap view of the C
program:

* addresses are natural numbers, a C pointer is an `Option Nat` (`none` is
  `NULL`), and pointer arithmetic is addition of byte counts;
* `hdr a` is the `block_meta` record stored at address `a` (a total map: a
  record that has dropped out of the chain stays readable, as in C), `mem a`
  is the payload byte stored at address `a`; the two maps are kept apart, so
  the model is exact as long as no payload byte is written over a header;
* `size_t` arithmetic is arithmetic on `Nat` reduced modulo `2 ^ 64`, and the
  argument of `sbrk` is reinterpreted as a signed 64-bit number;
* `sizeof(block_meta)` is 24 (LP64);
* `sbrk` is the one primitive taken from the environment: it moves the break
  by the signed increment when the operating system grants it, and never to
  an address at or above `2 ^ 63`;
* loops that follow `next` links take a fuel argument and return `none` when
  it runs out, so a loop that never ends in C returns `none` for every fuel.
* a store to an address at or above the break is an ordinary store in the
  model; in a process it faults unless the page is mapped, which it is once the
  break has been moved, so the example runs with a wrapped increment all start
  after a first successful `my_malloc`.

The file has three parts: the program and the abstract view of the chain
(definitions), the lemmas that tie the two together, and the properties of
the specification, each with a run on a concrete state.
-/

namespace Allocator

/-- The value of `sizeof(block_meta)` on an LP64 target: `size_t`, padded `int`, pointer. -/
def META_SIZE : Nat := 24

/-- Number of values of a `size_t`. -/
def WORD : Nat := 18446744073709551616

/-- First address the operating system never hands out as a program break
(the user half of a 64-bit address space). -/
def ADDR_TOP : Nat := 9223372036854775808

/-- The record `struct block_meta`. -/
structure block_meta where
  size : Nat
  free : Bool
  next : Option Nat
  deriving DecidableEq

/-- The process state the allocator reads and writes: the two globals
`global_base` and `last_alloc`, the program break, and the heap. -/
structure State where
  global_base : Option Nat
  last_alloc : Option Nat
  brk : Nat
  hdr : Nat → block_meta
  mem : Nat → Nat

/-- Build configuration and environment: the `ALLOC_STRATEGY` flag and the
decision of the operating system on a request to move the break. -/
structure Config where
  ALLOC_STRATEGY : Nat
  grant : Nat → Int → Bool

/-- Store a header record at one address. -/
def upd (h : Nat → block_meta) (a : Nat) (v : block_meta) : Nat → block_meta :=
  fun x => if x = a then v else h x

/-- The assignment `a->size = v`. -/
def State.setSize (st : State) (a v : Nat) : State :=
  { st with hdr := upd st.hdr a { st.hdr a with size := v } }

/-- The assignment `a->free = v`. -/
def State.setFree (st : State) (a : Nat) (v : Bool) : State :=
  { st with hdr := upd st.hdr a { st.hdr a with free := v } }

/-- The assignment `a->next = v`. -/
def State.setNext (st : State) (a : Nat) (v : Option Nat) : State :=
  { st with hdr := upd st.hdr a { st.hdr a with next := v } }

/-- Unsigned subtraction of `size_t` values. -/
def sub64 (a b : Nat) : Nat := (a + (WORD - b % WORD)) % WORD

/-- Conversion of a `size_t` to the `intptr_t` parameter of `sbrk`. -/
def to_intptr (x : Nat) : Int := if x < ADDR_TOP then (x : Int) else (x : Int) - (WORD : Int)

/-- The heap-growth primitive `sbrk(increment)` of the C library: it moves
the break by a signed increment and returns the old break, or fails.  The
break stays inside `[0, ADDR_TOP)`; inside that range the operating system
decides through `cfg.grant`. -/
def sbrk (cfg : Config) (st : State) (increment : Int) : Option (State × Nat) :=
  let nb : Int := (st.brk : Int) + increment
  if 0 ≤ nb ∧ nb < (ADDR_TOP : Int) ∧ cfg.grant st.brk increment = true then
    some ({ st with brk := nb.toNat }, st.brk)
  else none

/-- The function `extend_heap(last, size)`: returns the state and the new block, or
`NULL` with the state untouched when `sbrk` fails. -/
def extend_heap (cfg : Config) (st : State) (last : Option Nat) (size : Nat) :
    State × Option Nat :=
  let block := st.brk
  match sbrk cfg st (to_intptr ((size + META_SIZE) % WORD)) with
  | none => (st, none)
  | some (st1, _) =>
    let st2 := st1.setSize block size
    let st3 := st2.setFree block false
    let st4 := st3.setNext block none
    match last with
    | some l => (st4.setNext l (some block), some block)
    | none => (st4, some block)

/-- The function `split_block(block, size)`. -/
def split_block (st : State) (block size : Nat) : State :=
  if (size + META_SIZE + 8) % WORD ≤ (st.hdr block).size then
    let new_block := block + META_SIZE + size
    let st1 := st.setSize new_block (sub64 (sub64 (st.hdr block).size size) META_SIZE)
    let st2 := st1.setFree new_block true
    let st3 := st2.setNext new_block (st2.hdr block).next
    let st4 := st3.setSize block size
    st4.setNext block (some new_block)
  else st

/-- The loop of `merge_free_blocks`, one iteration per unit of fuel. -/
def merge_loop : Nat → State → Option Nat → Option State
  | 0, _, _ => none
  | fuel + 1, st, current =>
    match current with
    | none => some st
    | some c =>
      match (st.hdr c).next with
      | none => some st
      | some n =>
        if (st.hdr c).free = true ∧ (st.hdr n).free = true then
          let st1 := st.setSize c (((st.hdr c).size + (META_SIZE + (st.hdr n).size) % WORD) % WORD)
          let st2 :=
            match (st1.hdr c).next with
            | some n1 => st1.setNext c (st1.hdr n1).next
            | none => st1
          merge_loop fuel st2 (some c)
        else merge_loop fuel st (some n)

/-- The function `merge_free_blocks()`. -/
def merge_free_blocks (fuel : Nat) (st : State) : Option State :=
  merge_loop fuel st st.global_base

/-- The loop of `find_free_block_first_fit`; the result is the pair of the
returned block and the final value of `*last`. -/
def first_fit_loop (st : State) (size : Nat) :
    Nat → Option Nat → Option Nat → Option (Option Nat × Option Nat)
  | 0, _, _ => none
  | fuel + 1, current, last =>
    match current with
    | none => some (none, last)
    | some c =>
      if (st.hdr c).free = true ∧ size ≤ (st.hdr c).size then some (some c, last)
      else first_fit_loop st size fuel (st.hdr c).next (some c)

/-- The function `find_free_block_first_fit(&last, size)`. -/
def find_free_block_first_fit (fuel : Nat) (st : State) (last : Option Nat) (size : Nat) :
    Option (Option Nat × Option Nat) :=
  first_fit_loop st size fuel st.global_base last

/-- The loop of `find_free_block_best_fit`, with the running `best`. -/
def best_fit_loop (st : State) (size : Nat) :
    Nat → Option Nat → Option Nat → Option Nat → Option (Option Nat × Option Nat)
  | 0, _, _, _ => none
  | fuel + 1, current, best, last =>
    match current with
    | none => some (best, last)
    | some c =>
      let best1 :=
        if (st.hdr c).free = true ∧ size ≤ (st.hdr c).size then
          match best with
          | none => some c
          | some b => if (st.hdr c).size < (st.hdr b).size then some c else some b
        else best
      best_fit_loop st size fuel (st.hdr c).next best1 (some c)

/-- The function `find_free_block_best_fit(&last, size)`. -/
def find_free_block_best_fit (fuel : Nat) (st : State) (last : Option Nat) (size : Nat) :
    Option (Option Nat × Option Nat) :=
  best_fit_loop st size fuel st.global_base none last

/-- The `do ... while (current != start)` loop of `find_free_block_next_fit`;
the result is the state (the cursor `last_alloc` moves on a hit), the returned
block and, on a miss, the block stored into `*last`. -/
def next_fit_loop (st : State) (size base start : Nat) :
    Nat → Nat → Option (State × Option Nat × Option Nat)
  | 0, _ => none
  | fuel + 1, current =>
    if (st.hdr current).free = true ∧ size ≤ (st.hdr current).size then
      some ({ st with last_alloc := (st.hdr current).next }, some current, none)
    else
      let current1 := match (st.hdr current).next with
        | some n => n
        | none => base
      if current1 ≠ start then next_fit_loop st size base start fuel current1
      else some (st, none, some current1)

/-- The function `find_free_block_next_fit(&last, size)`; `last` is left as passed in
unless the loop ends on a miss. -/
def find_free_block_next_fit (fuel : Nat) (st : State) (last : Option Nat) (size : Nat) :
    Option (State × Option Nat × Option Nat) :=
  match st.global_base with
  | none => some (st, none, last)
  | some base =>
    let current := match st.last_alloc with
      | some c => c
      | none => base
    match next_fit_loop st size base current fuel current with
    | none => none
    | some (st1, some b, _) => some (st1, some b, last)
    | some (st1, none, l) => some (st1, none, l)

/-- The strategy selection of `my_malloc` (`#if ALLOC_STRATEGY == ...`). -/
def find_free_block (cfg : Config) (fuel : Nat) (st : State) (last : Option Nat) (size : Nat) :
    Option (State × Option Nat × Option Nat) :=
  if cfg.ALLOC_STRATEGY = 1 then
    (find_free_block_first_fit fuel st last size).map (fun r => (st, r.1, r.2))
  else if cfg.ALLOC_STRATEGY = 2 then
    (find_free_block_best_fit fuel st last size).map (fun r => (st, r.1, r.2))
  else if cfg.ALLOC_STRATEGY = 3 then
    find_free_block_next_fit fuel st last size
  else
    (find_free_block_first_fit fuel st last size).map (fun r => (st, r.1, r.2))

/-- The function `my_malloc(size)`: the new state and the returned pointer. -/
def my_malloc (cfg : Config) (fuel : Nat) (st : State) (size : Nat) :
    Option (State × Option Nat) :=
  if size = 0 then some (st, none)
  else
    match find_free_block cfg fuel st st.global_base size with
    | none => none
    | some (st1, some block, _) =>
      let st2 := st1.setFree block false
      some (split_block st2 block size, some (block + META_SIZE))
    | some (st1, none, last) =>
      match st1.global_base with
      | none =>
        match extend_heap cfg st1 none size with
        | (st2, none) => some ({ st2 with global_base := none }, none)
        | (st2, some block) =>
          some ({ st2 with global_base := some block }, some (block + META_SIZE))
      | some _ =>
        match extend_heap cfg st1 last size with
        | (st2, none) => some (st2, none)
        | (st2, some block) => some (st2, some (block + META_SIZE))

/-- The function `my_free(ptr)`. -/
def my_free (fuel : Nat) (st : State) (ptr : Option Nat) : Option State :=
  match ptr with
  | none => some st
  | some p => merge_free_blocks fuel (st.setFree (p - META_SIZE) true)

/-- The call `memset(ptr, 0, n)` on the payload bytes. -/
def memset_zero (m : Nat → Nat) (ptr n : Nat) : Nat → Nat :=
  fun a => if ptr ≤ a ∧ a < ptr + n then 0 else m a

/-- The call `memcpy(dst, src, n)` on the payload bytes. -/
def memcpy (m : Nat → Nat) (dst src n : Nat) : Nat → Nat :=
  fun a => if dst ≤ a ∧ a < dst + n then m (src + (a - dst)) else m a

/-- The function `my_calloc(nmemb, size)`. -/
def my_calloc (cfg : Config) (fuel : Nat) (st : State) (nmemb size : Nat) :
    Option (State × Option Nat) :=
  let total_size := (nmemb * size) % WORD
  match my_malloc cfg fuel st total_size with
  | none => none
  | some (st1, none) => some (st1, none)
  | some (st1, some p) => some ({ st1 with mem := memset_zero st1.mem p total_size }, some p)

/-- The function `my_realloc(ptr, size)`. -/
def my_realloc (cfg : Config) (fuel : Nat) (st : State) (ptr : Option Nat) (size : Nat) :
    Option (State × Option Nat) :=
  match ptr with
  | none => my_malloc cfg fuel st size
  | some p =>
    let block_ptr := p - META_SIZE
    if size ≤ (st.hdr block_ptr).size then
      some (split_block st block_ptr size, some p)
    else
      match my_malloc cfg fuel st size with
      | none => none
      | some (st1, none) => some (st1, none)
      | some (st1, some q) =>
        let st2 := { st1 with mem := memcpy st1.mem q p (st1.hdr block_ptr).size }
        match my_free fuel st2 (some p) with
        | none => none
        | some st3 => some (st3, some q)

/-- The state of a process that has not called the allocator yet: both
globals are `NULL`; the break and the heap contents are whatever they are. -/
def init (b0 : Nat) (h : Nat → block_meta) (m : Nat → Nat) : State :=
  { global_base := none, last_alloc := none, brk := b0, hdr := h, mem := m }

/-! ## Abstract view of the chain

A chain is described by the list of its blocks in link order.  The list is
ghost data: the C program has only the headers; `Rep` ties the two together. -/

/-- One chain entry as seen from outside: header address, payload size and
free flag. -/
structure Blk where
  addr : Nat
  size : Nat
  free : Bool
  deriving DecidableEq

/-- The relation `Rep h bs p`: following `next` links from pointer `p` in the heap `h`
visits exactly the blocks `bs`, in order, and then reaches `NULL`. -/
def Rep (h : Nat → block_meta) : List Blk → Option Nat → Prop
  | [], p => p = none
  | b :: bs, p =>
    p = some b.addr ∧ (h b.addr).size = b.size ∧ (h b.addr).free = b.free ∧
      Rep h bs (h b.addr).next

/-- The relation `Tiled lo bs hi`: the blocks `bs` (header and payload) fill the address
range `[lo, hi)` back to back, in order. -/
def Tiled : Nat → List Blk → Nat → Prop
  | lo, [], hi => lo = hi
  | lo, b :: bs, hi => b.addr = lo ∧ Tiled (lo + META_SIZE + b.size) bs hi

/-- The header addresses of a chain. -/
def addrs (bs : List Blk) : List Nat := bs.map Blk.addr

/-- The chain invariant of a state whose arena starts at `b0`: the chain from
`global_base` is the finite list `bs`, it tiles the arena `[b0, brk)`, and the
break is a user address. -/
def WF (st : State) (b0 : Nat) (bs : List Blk) : Prop :=
  Rep st.hdr bs st.global_base ∧ Tiled b0 bs st.brk ∧ st.brk < ADDR_TOP

/-- The next-fit cursor `last_alloc` is `NULL` or a block of the chain. -/
def CursorOK (st : State) (bs : List Blk) : Prop :=
  ∀ c, st.last_alloc = some c → c ∈ addrs bs

/-- The header map left by a successful heap extension for `n` bytes at
break `k`, linked behind `last`. -/
def extHdr (h : Nat → block_meta) (k n : Nat) (last : Option Nat) : Nat → block_meta :=
  match last with
  | some l => upd (upd h k ⟨n, false, none⟩) l { (upd h k ⟨n, false, none⟩) l with next := some k }
  | none => upd h k ⟨n, false, none⟩

/-- The predicate `Alloc bs a`: `a` is the header address of an allocated block of the
chain `bs`. -/
def Alloc (bs : List Blk) (a : Nat) : Prop := ∃ b ∈ bs, b.addr = a ∧ b.free = false

/-- The address stored in `*last` after a full scan of the chain `bs`. -/
def lastAddr : List Blk → Option Nat → Option Nat
  | [], l => l
  | b :: bs, _ => lastAddr bs (some b.addr)

/-- The test of all three locators: free and large enough. -/
def fits (size : Nat) (b : Blk) : Bool := b.free && decide (size ≤ b.size)

/-- The running `best` of the best-fit scan, on the abstract chain. -/
def bestL (size : Nat) : List Blk → Option Blk → Option Blk
  | [], best => best
  | b :: bs, best =>
    bestL size bs
      (if fits size b = true then
        match best with
        | none => some b
        | some x => if b.size < x.size then some b else some x
      else best)

/-- The effect of `block->free = v` on the abstract chain. -/
def setFreeL (a : Nat) (v : Bool) : List Blk → List Blk
  | [] => []
  | b :: bs => if b.addr = a then { b with free := v } :: bs else b :: setFreeL a v bs

/-- The effect of `split_block(a, n)` on the abstract chain. -/
def splitL (n a : Nat) : List Blk → List Blk
  | [] => []
  | b :: bs =>
    if b.addr = a then
      if n + META_SIZE + 8 ≤ b.size then
        { b with size := n } :: ⟨a + META_SIZE + n, b.size - n - META_SIZE, true⟩ :: bs
      else b :: bs
    else b :: splitL n a bs

/-- The sweep of `merge_free_blocks` on the abstract chain, `cur` being the
block under `current`. -/
def coal (cur : Blk) : List Blk → List Blk
  | [] => [cur]
  | b :: rest =>
    if cur.free = true ∧ b.free = true then
      coal { cur with size := (cur.size + (META_SIZE + b.size) % WORD) % WORD } rest
    else cur :: coal b rest

/-- The whole sweep of `merge_free_blocks` on the abstract chain. -/
def coalesce : List Blk → List Blk
  | [] => []
  | b :: rest => coal b rest

/-- No chain block is free while its chain successor is free too. -/
def NoAdjFree : List Blk → Prop
  | [] => True
  | [_] => True
  | b1 :: b2 :: rest => ¬ (b1.free = true ∧ b2.free = true) ∧ NoAdjFree (b2 :: rest)

/-! ## Call sequences -/

/-- A request size `n` for which `n + META_SIZE`, the increment passed to
`sbrk`, is a positive `intptr_t`. -/
def SizeOK (n : Nat) : Prop := n + META_SIZE < ADDR_TOP

instance (n : Nat) : Decidable (SizeOK n) := Nat.decLt _ _

/-- The live pointers once `ptr` has been handed back. -/
def dropPtr (ptr : Option Nat) (live : List Nat) : List Nat :=
  match ptr with
  | some p => live.filter (fun q => q != p)
  | none => live

/-- The live pointers once a call has returned `r`. -/
def addPtr (r : Option Nat) (live : List Nat) : List Nat :=
  match r with
  | some q => q :: live
  | none => live

/-- The live pointers once `my_realloc(ptr, _)` has returned `r`: on `NULL`
nothing changes, otherwise `ptr` is handed back and `r` is live. -/
def resizePtr (ptr r : Option Nat) (live : List Nat) : List Nat :=
  match r with
  | some q => q :: dropPtr ptr live
  | none => live

/-- The relation `Reach ok cfg b0 st live`: the state `st` is reached from a fresh process
whose break is `b0` by a finite sequence of `my_malloc`, `my_calloc`,
`my_realloc` and `my_free` calls and of stores of the program into payloads it
owns; `live` lists the pointers returned and not yet released.  Only `NULL`
and live pointers are passed to `my_realloc` and `my_free` (the caller
obligations), and every requested size satisfies `ok`. -/
inductive Reach (ok : Nat → Prop) (cfg : Config) (b0 : Nat) : State → List Nat → Prop
  | start (h : Nat → block_meta) (m : Nat → Nat) :
      b0 < ADDR_TOP → Reach ok cfg b0 (init b0 h m) []
  | allocate {st : State} {live : List Nat} (fuel n : Nat) (st' : State) (r : Option Nat) :
      Reach ok cfg b0 st live → ok n → my_malloc cfg fuel st n = some (st', r) →
      Reach ok cfg b0 st' (addPtr r live)
  | zero_allocate {st : State} {live : List Nat} (fuel nmemb size : Nat) (st' : State)
      (r : Option Nat) :
      Reach ok cfg b0 st live → ok ((nmemb * size) % WORD) →
      my_calloc cfg fuel st nmemb size = some (st', r) →
      Reach ok cfg b0 st' (addPtr r live)
  | resize {st : State} {live : List Nat} (fuel : Nat) (ptr : Option Nat) (n : Nat)
      (st' : State) (r : Option Nat) :
      Reach ok cfg b0 st live → (∀ p, ptr = some p → p ∈ live) → ok n →
      my_realloc cfg fuel st ptr n = some (st', r) →
      Reach ok cfg b0 st' (resizePtr ptr r live)
  | release {st : State} {live : List Nat} (fuel : Nat) (ptr : Option Nat) (st' : State) :
      Reach ok cfg b0 st live → (∀ p, ptr = some p → p ∈ live) →
      my_free fuel st ptr = some st' →
      Reach ok cfg b0 st' (dropPtr ptr live)
  | store {st : State} {live : List Nat} (m : Nat → Nat) :
      Reach ok cfg b0 st live →
      (∀ a, m a ≠ st.mem a → ∃ p ∈ live, p ≤ a ∧ a < p + (st.hdr (p - META_SIZE)).size) →
      Reach ok cfg b0 { st with mem := m } live

/-- The payload ranges `[p, p + size)` of the live pointers lie inside the
arena `[b0, brk)` and are pairwise disjoint. -/
def PayloadsOK (st : State) (b0 : Nat) (live : List Nat) : Prop :=
  (∀ p ∈ live, b0 + META_SIZE ≤ p ∧ p + (st.hdr (p - META_SIZE)).size ≤ st.brk) ∧
  (∀ p ∈ live, ∀ q ∈ live, p ≠ q →
    p + (st.hdr (p - META_SIZE)).size ≤ q ∨ q + (st.hdr (q - META_SIZE)).size ≤ p)

/-- Any request size at all (the type `size_t` is enforced by the modular
arithmetic of the code). -/
def AnySize (_ : Nat) : Prop := True

/-- The live pointers are exactly the payload addresses of the allocated
blocks of the chain. -/
def LiveOK (bs : List Blk) (live : List Nat) : Prop :=
  ∀ q, q ∈ live ↔ ∃ a, Alloc bs a ∧ q = a + META_SIZE

/-! ## Concrete configurations and states of the worked examples -/

/-- A build with the given strategy on a system that grants every request
to move the break (inside the address space). -/
def ex_cfg (strategy : Nat) : Config := ⟨strategy, fun _ _ => true⟩

/-- A build with the given strategy on a system that refuses every request
to move the break. -/
def ex_oom (strategy : Nat) : Config := ⟨strategy, fun _ _ => false⟩

/-- A heap that holds only zeros. -/
def ex_hdr : Nat → block_meta := fun _ => ⟨0, false, none⟩

/-- Payload memory that holds only zeros. -/
def ex_mem : Nat → Nat := fun _ => 0

/-- A fresh process: break at 4096, heap full of zero bytes. -/
def ex_init : State := init 4096 ex_hdr ex_mem

/-- The state a call returned with (the second argument if it did not
return). -/
def stateOf (r : Option (State × Option Nat)) (dflt : State) : State :=
  match r with
  | some (s, _) => s
  | none => dflt

/-- The pointer a call returned (`NULL` if it did not return). -/
def ptrOf (r : Option (State × Option Nat)) : Option Nat :=
  match r with
  | some (_, p) => p
  | none => none

/-- The header fields at an address, as a tuple. -/
def hdrOf (st : State) (a : Nat) : Nat × Bool × Option Nat :=
  ((st.hdr a).size, (st.hdr a).free, (st.hdr a).next)

/-- First fit, one call `my_malloc(100)` in a fresh process. -/
def ex_one : State := stateOf (my_malloc (ex_cfg 1) 1 ex_init 100) ex_init

/-- Next fit, the calls `a = my_malloc(100)`, `b = my_malloc(40)`,
`c = my_malloc(200)`, `my_free(a)`, `my_free(c)`, `d = my_malloc(300)` in a
fresh process, one state per call (`a = 4120`, `b = 4244`, `c = 4308`). -/
def ex_nf1 : State := stateOf (my_malloc (ex_cfg 3) 8 ex_init 100) ex_init

/-- See `ex_nf1`: after `b = my_malloc(40)`. -/
def ex_nf2 : State := stateOf (my_malloc (ex_cfg 3) 8 ex_nf1 40) ex_nf1

/-- See `ex_nf1`: after `c = my_malloc(200)`. -/
def ex_nf3 : State := stateOf (my_malloc (ex_cfg 3) 8 ex_nf2 200) ex_nf2

/-- See `ex_nf1`: after `my_free(a)`. -/
def ex_nf4 : State := (my_free 8 ex_nf3 (some 4120)).getD ex_nf3

/-- See `ex_nf1`: after `my_free(c)`. -/
def ex_nf5 : State := (my_free 8 ex_nf4 (some 4308)).getD ex_nf4

/-- See `ex_nf1`: after `d = my_malloc(300)`. -/
def ex_nf6 : State := stateOf (my_malloc (ex_cfg 3) 8 ex_nf5 300) ex_nf5

/-- First fit, `my_realloc(4120, 200)` after `my_malloc(100)`. -/
def ex_grow : State := stateOf (my_realloc (ex_cfg 1) 2 ex_one (some 4120) 200) ex_one

/-- First fit, `my_calloc(10, 4)` in a fresh process. -/
def ex_zero : State := stateOf (my_calloc (ex_cfg 1) 1 ex_init 10 4) ex_init

/-- First fit, `my_calloc(2^32 + 1, 2^32)` in a fresh process. -/
def ex_wrap : State :=
  stateOf (my_calloc (ex_cfg 1) 1 ex_init 4294967297 4294967296) ex_init

/-- First fit, `my_free(4120)` after `my_malloc(100)`: one free block of 100
bytes at 4096. -/
def ex_freed : State := (my_free 2 ex_one (some 4120)).getD ex_one

/-- Next fit, the calls `a = my_malloc(64)`, `b = my_malloc(64)`,
`my_free(a)`, `a2 = my_malloc(64)`, `my_free(b)`, `my_free(a2)` in a fresh
process, one state per call (`a = a2 = 4120`, `b = 4208`). -/
def ex_st1 : State := stateOf (my_malloc (ex_cfg 3) 8 ex_init 64) ex_init

/-- See `ex_st1`: after `b = my_malloc(64)`. -/
def ex_st2 : State := stateOf (my_malloc (ex_cfg 3) 8 ex_st1 64) ex_st1

/-- See `ex_st1`: after `my_free(a)`. -/
def ex_st3 : State := (my_free 8 ex_st2 (some 4120)).getD ex_st2

/-- See `ex_st1`: after `a2 = my_malloc(64)`. -/
def ex_st4 : State := stateOf (my_malloc (ex_cfg 3) 8 ex_st3 64) ex_st3

/-- See `ex_st1`: after `my_free(b)`. -/
def ex_st5 : State := (my_free 8 ex_st4 (some 4208)).getD ex_st4

/-- See `ex_st1`: after `my_free(a2)`; the chain is the single free block at
4096 (152 bytes) and the cursor `last_alloc` still points at 4184. -/
def ex_stale : State := (my_free 8 ex_st5 (some 4120)).getD ex_st5

/-- First fit, `my_malloc(40)` after `my_malloc(100)`: two allocated
neighbours, at 4096 (100 bytes) and 4220 (40 bytes). -/
def ex_two : State := stateOf (my_malloc (ex_cfg 1) 2 ex_one 40) ex_one

/-- First fit, the calls `a = my_malloc(8)`, `b = my_malloc(8)`,
`c = my_malloc(8)`, `my_free(a)`, `my_free(b)`, `my_free(c)` in a fresh
process, one state per call (`a = 4120`, `b = 4152`, `c = 4184`). -/
def ex_p1 : State := stateOf (my_malloc (ex_cfg 1) 4 ex_init 8) ex_init

/-- See `ex_p1`: after `b = my_malloc(8)`. -/
def ex_p2 : State := stateOf (my_malloc (ex_cfg 1) 4 ex_p1 8) ex_p1

/-- See `ex_p1`: after `c = my_malloc(8)`. -/
def ex_p3 : State := stateOf (my_malloc (ex_cfg 1) 4 ex_p2 8) ex_p2

/-- See `ex_p1`: after `my_free(a)`; the blocks of `b` (4128) and `c` (4160)
are allocated neighbours behind the free block 4096. -/
def ex_pair : State := (my_free 4 ex_p3 (some 4120)).getD ex_p3

/-- See `ex_p1`: after `my_free(b)`. -/
def ex_pair1 : State := (my_free 4 ex_pair (some 4152)).getD ex_pair

/-- See `ex_p1`: after `my_free(c)`. -/
def ex_pair2 : State := (my_free 4 ex_pair1 (some 4184)).getD ex_pair1

/-! ## Further specification vocabulary and example runs -/

/-- The bytes a chain accounts for: header plus payload of every block. -/
def footprint (bs : List Blk) : Nat := (bs.map (fun b => META_SIZE + b.size)).sum

/-- The list `bs` is a stretch of the chain: following `next` from `p` visits
exactly the blocks of `bs` and arrives at `q`. -/
def Seg (h : Nat → block_meta) : List Blk → Option Nat → Option Nat → Prop
  | [], p, q => p = q
  | b :: bs, p, q =>
    p = some b.addr ∧ (h b.addr).size = b.size ∧ (h b.addr).free = b.free ∧
      Seg h bs (h b.addr).next q

/-- The header a pointer handed to `my_realloc` or `my_free` belongs to. -/
def blockOf (ptr : Option Nat) : Option Nat := ptr.map (fun p => p - META_SIZE)

/-- Frame of a call from `st` (chain `bs`) to `st'` (chain `bs'`): every
allocated block of `bs`, the one at header `skip` apart, is a block of `bs'`
with the same address, size and flag, and its payload bytes are the same. -/
def Untouched (st st' : State) (bs bs' : List Blk) (skip : Option Nat) : Prop :=
  Rep st'.hdr bs' st'.global_base ∧
  ∀ b ∈ bs, b.free = false → skip ≠ some b.addr →
    b ∈ bs' ∧ ∀ i, i < b.size → st'.mem (b.addr + META_SIZE + i) = st.mem (b.addr + META_SIZE + i)

/-- Best fit, the calls `a = my_malloc(100)`, `my_malloc(8)`,
`c = my_malloc(40)`, `my_malloc(8)`, `e = my_malloc(40)`, `my_malloc(8)`,
`my_free(a)`, `my_free(c)`, `my_free(e)` in a fresh process, one state per
call (`a = 4120`, `c = 4276`, `e = 4372`). -/
def ex_bf1 : State := stateOf (my_malloc (ex_cfg 2) 8 ex_init 100) ex_init

/-- See `ex_bf1`: after the first `my_malloc(8)`. -/
def ex_bf2 : State := stateOf (my_malloc (ex_cfg 2) 8 ex_bf1 8) ex_bf1

/-- See `ex_bf1`: after `c = my_malloc(40)`. -/
def ex_bf3 : State := stateOf (my_malloc (ex_cfg 2) 8 ex_bf2 40) ex_bf2

/-- See `ex_bf1`: after the second `my_malloc(8)`. -/
def ex_bf4 : State := stateOf (my_malloc (ex_cfg 2) 8 ex_bf3 8) ex_bf3

/-- See `ex_bf1`: after `e = my_malloc(40)`. -/
def ex_bf5 : State := stateOf (my_malloc (ex_cfg 2) 8 ex_bf4 40) ex_bf4

/-- See `ex_bf1`: after the third `my_malloc(8)`. -/
def ex_bf6 : State := stateOf (my_malloc (ex_cfg 2) 8 ex_bf5 8) ex_bf5

/-- See `ex_bf1`: after `my_free(a)`. -/
def ex_bf7 : State := (my_free 8 ex_bf6 (some 4120)).getD ex_bf6

/-- See `ex_bf1`: after `my_free(c)`. -/
def ex_bf8 : State := (my_free 8 ex_bf7 (some 4276)).getD ex_bf7

/-- See `ex_bf1`: after `my_free(e)`; free blocks of 100, 40 and 40 bytes at
4096, 4252 and 4348, each followed by an allocated block of 8 bytes. -/
def ex_bf9 : State := (my_free 8 ex_bf8 (some 4372)).getD ex_bf8

/-- The chain of `ex_bf9`. -/
def ex_bf_chain : List Blk :=
  [⟨4096, 100, true⟩, ⟨4220, 8, false⟩, ⟨4252, 40, true⟩, ⟨4316, 8, false⟩,
    ⟨4348, 40, true⟩, ⟨4412, 8, false⟩]

/-- First fit, `my_malloc(2^64 - 25)` after `my_malloc(100)`: the increment
handed to `sbrk` is `-1`. -/
def ex_shrink : State := stateOf (my_malloc (ex_cfg 1) 2 ex_one (WORD - 25)) ex_one

/-- Next fit, the calls `a = my_malloc(200)`, `my_malloc(8)`, `my_free(a)`,
`my_malloc(40)`, `my_malloc(40)` in a fresh process, one state per call
(`a = 4120`). -/
def ex_c1 : State := stateOf (my_malloc (ex_cfg 3) 8 ex_init 200) ex_init

/-- See `ex_c1`: after `my_malloc(8)`. -/
def ex_c2 : State := stateOf (my_malloc (ex_cfg 3) 8 ex_c1 8) ex_c1

/-- See `ex_c1`: after `my_free(a)`; a free block of 200 bytes at 4096 and an
allocated block of 8 bytes at 4320, cursor unset. -/
def ex_c3 : State := (my_free 8 ex_c2 (some 4120)).getD ex_c2

/-- See `ex_c1`: after the first `my_malloc(40)`. -/
def ex_c4 : State := stateOf (my_malloc (ex_cfg 3) 8 ex_c3 40) ex_c3

/-- See `ex_c1`: after the second `my_malloc(40)`. -/
def ex_c5 : State := stateOf (my_malloc (ex_cfg 3) 8 ex_c4 40) ex_c4

/-- First fit, `my_malloc(2^64 - 24)` after `my_malloc(100)`: the increment
handed to `sbrk` is 0, the break stays at 4220 and the header of the new
block is written there. -/
def ex_huge : State := stateOf (my_malloc (ex_cfg 1) 2 ex_one (WORD - META_SIZE)) ex_one

/-- See `ex_huge`: after a further `my_malloc(8)`, which finds the break
still at 4220. -/
def ex_huge2 : State := stateOf (my_malloc (ex_cfg 1) 3 ex_huge 8) ex_huge

/-- See `ex_huge`: after `my_free(4244)` instead; the block at 4220 is free
with size `2^64 - 24`. -/
def ex_hfree : State := (my_free 3 ex_huge (some 4244)).getD ex_huge

/-- See `ex_hfree`: after a further `my_malloc(2^64 - 30)`. -/
def ex_hsplit : State := stateOf (my_malloc (ex_cfg 1) 3 ex_hfree (WORD - 30)) ex_hfree

/-- First fit, the calls of `ex_p1` up to `c = my_malloc(8)` followed by
`d = my_malloc(8)`, `my_free(a)`, `my_free(c)`, `my_free(b)`, one state per
call (`d = 4216`). -/
def ex_s4 : State := stateOf (my_malloc (ex_cfg 1) 5 ex_p3 8) ex_p3

/-- See `ex_s4`: after `my_free(a)`. -/
def ex_s5 : State := (my_free 5 ex_s4 (some 4120)).getD ex_s4

/-- See `ex_s4`: after `my_free(c)`; the chain alternates free, allocated,
free, allocated. -/
def ex_s6 : State := (my_free 5 ex_s5 (some 4184)).getD ex_s5

/-- The chain of `ex_s6`. -/
def ex_s6_chain : List Blk :=
  [⟨4096, 8, true⟩, ⟨4128, 8, false⟩, ⟨4160, 8, true⟩, ⟨4192, 8, false⟩]

/-- See `ex_s4`: after `my_free(b)`; one free block of 72 bytes at 4096 in
front of the block of `d`. -/
def ex_s7 : State := (my_free 5 ex_s6 (some 4152)).getD ex_s6

/-- The state inside `my_free(b)` on `ex_pair`, between `block->free = 1` and
the sweep: two free neighbours at 4096 and 4128 in front of the block of
`c`. -/
def ex_mid : State := ex_pair.setFree 4128 true

/-- Next fit, `my_realloc(b, 130)` on `ex_nf5` (`b = 4244` is live, its
header 4220 is no longer in the chain). -/
def ex_nfr : State := stateOf (my_realloc (ex_cfg 3) 8 ex_nf5 (some 4244) 130) ex_nf5

theorem META_SIZE_eq : META_SIZE = 24 := rfl

theorem WORD_eq : WORD = 18446744073709551616 := rfl

theorem ADDR_TOP_eq : ADDR_TOP = 9223372036854775808 := rfl

@[simp] theorem upd_same (h : Nat → block_meta) (a : Nat) (v : block_meta) :
    upd h a v a = v := by
  simp [upd]

theorem upd_other (h : Nat → block_meta) (a : Nat) (v : block_meta) (x : Nat) (hx : x ≠ a) :
    upd h a v x = h x := by
  simp [upd, hx]

theorem mem_addrs {bs : List Blk} {a : Nat} : a ∈ addrs bs ↔ ∃ b ∈ bs, b.addr = a := by
  simp [addrs]

/-- A chain only depends on the headers of its own blocks. -/
theorem Rep_congr {h h' : Nat → block_meta} :
    ∀ (bs : List Blk) (p : Option Nat),
      (∀ b ∈ bs, h' b.addr = h b.addr) → Rep h bs p → Rep h' bs p := by
  intro bs
  induction bs with
  | nil => intro p _ hr; exact hr
  | cons b bs ih =>
    intro p hh hr
    obtain ⟨hp, hs, hf, hn⟩ := hr
    have hb : h' b.addr = h b.addr := hh b (List.mem_cons_self _ _)
    refine ⟨hp, by rw [hb]; exact hs, by rw [hb]; exact hf, ?_⟩
    rw [hb]
    exact ih _ (fun x hx => hh x (List.mem_cons_of_mem _ hx)) hn

theorem Tiled_le : ∀ (bs : List Blk) (lo hi : Nat), Tiled lo bs hi → lo ≤ hi := by
  intro bs
  induction bs with
  | nil => intro lo hi h; exact Nat.le_of_eq h
  | cons b bs ih =>
    intro lo hi h
    have := ih _ _ h.2
    omega

theorem Tiled_mem : ∀ (bs : List Blk) (lo hi : Nat), Tiled lo bs hi →
    ∀ b ∈ bs, lo ≤ b.addr ∧ b.addr + META_SIZE + b.size ≤ hi := by
  intro bs
  induction bs with
  | nil => intro lo hi _ b hb; cases hb
  | cons x bs ih =>
    intro lo hi h b hb
    obtain ⟨hx, ht⟩ := h
    rcases List.mem_cons.1 hb with rfl | hb
    · have := Tiled_le _ _ _ ht
      omega
    · have := ih _ _ ht b hb
      omega

/-- In a tiled chain the blocks lie one after the other. -/
theorem Tiled_pairwise : ∀ (bs : List Blk) (lo hi : Nat), Tiled lo bs hi →
    bs.Pairwise (fun x y => x.addr + META_SIZE + x.size ≤ y.addr) := by
  intro bs
  induction bs with
  | nil => intro lo hi _; exact List.Pairwise.nil
  | cons x bs ih =>
    intro lo hi h
    obtain ⟨hx, ht⟩ := h
    refine List.Pairwise.cons ?_ (ih _ _ ht)
    intro y hy
    have := (Tiled_mem _ _ _ ht y hy).1
    omega

/-- Any two distinct members of a list ordered by `R` are related one way or
the other. -/
theorem pairwise_sep {R : Blk → Blk → Prop} :
    ∀ (bs : List Blk), bs.Pairwise R →
      ∀ u v : Blk, u ∈ bs → v ∈ bs → u ≠ v → R u v ∨ R v u := by
  intro bs hp
  induction hp with
  | nil => intro u v hu; cases hu
  | cons hhd _ ih =>
    intro u v hu hv huv
    rcases List.mem_cons.1 hu with hu1 | hu1
    · rcases List.mem_cons.1 hv with hv1 | hv1
      · exact absurd (hu1.trans hv1.symm) huv
      · exact Or.inl (hu1 ▸ hhd _ hv1)
    · rcases List.mem_cons.1 hv with hv1 | hv1
      · exact Or.inr (hv1 ▸ hhd _ hu1)
      · exact ih u v hu1 hv1 huv

theorem Tiled_nodup (bs : List Blk) (lo hi : Nat) (h : Tiled lo bs hi) :
    (addrs bs).Nodup := by
  have hp := Tiled_pairwise bs lo hi h
  unfold addrs List.Nodup
  rw [List.pairwise_map]
  refine hp.imp ?_
  intro x y hxy
  have := META_SIZE_eq
  omega

/-- Two blocks of a tiled chain with the same address are the same block. -/
theorem Tiled_addr_inj (bs : List Blk) (lo hi : Nat) (h : Tiled lo bs hi)
    (x y : Blk) (hx : x ∈ bs) (hy : y ∈ bs) (hxy : x.addr = y.addr) : x = y := by
  by_contra hne
  have := META_SIZE_eq
  rcases pairwise_sep bs (Tiled_pairwise bs lo hi h) x y hx hy hne with h1 | h1 <;> omega

/-! ## The locators -/

theorem fits_iff (h : Nat → block_meta) (n : Nat) (b : Blk)
    (hs : (h b.addr).size = b.size) (hf : (h b.addr).free = b.free) :
    ((h b.addr).free = true ∧ n ≤ (h b.addr).size) ↔ fits n b = true := by
  simp [fits, hs, hf]

/-- First fit, any state: a returned block is free and large enough. -/
theorem first_fit_loop_hit (st : State) (n : Nat) :
    ∀ (fuel : Nat) (p last : Option Nat) (a : Nat) (l : Option Nat),
      first_fit_loop st n fuel p last = some (some a, l) →
        (st.hdr a).free = true ∧ n ≤ (st.hdr a).size := by
  intro fuel
  induction fuel with
  | zero => intro p last a l h; simp [first_fit_loop] at h
  | succ fuel ih =>
    intro p last a l h
    cases p with
    | none => simp [first_fit_loop] at h
    | some c =>
      simp only [first_fit_loop] at h
      split at h
      · next hc =>
        simp only [Option.some.injEq, Prod.mk.injEq] at h
        obtain ⟨h1, _⟩ := h
        subst h1
        exact hc
      · exact ih _ _ _ _ h

/-- First fit on a chain: the result is the first fitting block of the chain,
and on a miss `*last` is the tail (or what it was, for an empty chain). -/
theorem first_fit_loop_sound (st : State) (n : Nat) :
    ∀ (bs : List Blk) (p last : Option Nat) (fuel : Nat) (r : Option Nat × Option Nat),
      Rep st.hdr bs p → first_fit_loop st n fuel p last = some r →
        r.1 = (bs.find? (fits n)).map Blk.addr ∧ (r.1 = none → r.2 = lastAddr bs last) := by
  intro bs
  induction bs with
  | nil =>
    intro p last fuel r hr h
    cases fuel with
    | zero => simp [first_fit_loop] at h
    | succ fuel =>
      simp only [Rep] at hr
      subst hr
      simp only [first_fit_loop, Option.some.injEq] at h
      subst h
      simp [lastAddr]
  | cons b bs ih =>
    intro p last fuel r hr h
    obtain ⟨hp, hs, hf, hn⟩ := hr
    subst hp
    cases fuel with
    | zero => simp [first_fit_loop] at h
    | succ fuel =>
      simp only [first_fit_loop] at h
      by_cases hfit : fits n b = true
      · rw [if_pos ((fits_iff st.hdr n b hs hf).2 hfit)] at h
        simp only [Option.some.injEq] at h
        subst h
        simp [List.find?, hfit]
      · rw [if_neg (fun hc => hfit ((fits_iff st.hdr n b hs hf).1 hc))] at h
        have := ih _ _ _ _ hn h
        simp only [Bool.not_eq_true] at hfit
        simpa [List.find?, hfit, lastAddr] using this

theorem first_fit_loop_total (st : State) (n : Nat) :
    ∀ (bs : List Blk) (p last : Option Nat) (fuel : Nat),
      Rep st.hdr bs p → bs.length < fuel →
        ∃ r, first_fit_loop st n fuel p last = some r := by
  intro bs
  induction bs with
  | nil =>
    intro p last fuel hr hl
    cases fuel with
    | zero => simp at hl
    | succ fuel =>
      simp only [Rep] at hr
      subst hr
      exact ⟨_, rfl⟩
  | cons b bs ih =>
    intro p last fuel hr hl
    obtain ⟨hp, hs, hf, hn⟩ := hr
    subst hp
    cases fuel with
    | zero => simp at hl
    | succ fuel =>
      simp only [first_fit_loop]
      split
      · exact ⟨_, rfl⟩
      · exact ih _ _ _ hn (by simpa using hl)

/-- Best fit, any state: a returned block is free and large enough, provided
the running `best` is. -/
theorem best_fit_loop_hit (st : State) (n : Nat) :
    ∀ (fuel : Nat) (p best last : Option Nat) (a : Nat) (l : Option Nat),
      (∀ b, best = some b → (st.hdr b).free = true ∧ n ≤ (st.hdr b).size) →
      best_fit_loop st n fuel p best last = some (some a, l) →
        (st.hdr a).free = true ∧ n ≤ (st.hdr a).size := by
  intro fuel
  induction fuel with
  | zero => intro p best last a l _ h; simp [best_fit_loop] at h
  | succ fuel ih =>
    intro p best last a l hb h
    cases p with
    | none =>
      simp only [best_fit_loop, Option.some.injEq, Prod.mk.injEq] at h
      exact hb a h.1
    | some c =>
      simp only [best_fit_loop] at h
      refine ih _ _ _ _ _ ?_ h
      intro b hbb
      split at hbb
      · next hc =>
        cases best with
        | none =>
          simp only [Option.some.injEq] at hbb
          subst hbb
          exact hc
        | some x =>
          simp only at hbb
          split at hbb
          · simp only [Option.some.injEq] at hbb
            subst hbb
            exact hc
          · exact hb b hbb
      · exact hb b hbb

/-- Best fit on a chain: the result is the abstract `bestL`, and `*last` is
the tail of the chain. -/
theorem best_fit_loop_sound (st : State) (n : Nat) :
    ∀ (bs : List Blk) (p best last : Option Nat) (bestB : Option Blk) (fuel : Nat)
      (r : Option Nat × Option Nat),
      Rep st.hdr bs p → best = bestB.map Blk.addr →
      (∀ x, bestB = some x → (st.hdr x.addr).size = x.size) →
      best_fit_loop st n fuel p best last = some r →
        r = ((bestL n bs bestB).map Blk.addr, lastAddr bs last) := by
  intro bs
  induction bs with
  | nil =>
    intro p best last bestB fuel r hr hb _ h
    cases fuel with
    | zero => simp [best_fit_loop] at h
    | succ fuel =>
      simp only [Rep] at hr
      subst hr
      simp only [best_fit_loop, Option.some.injEq] at h
      subst h
      simp [lastAddr, bestL, hb]
  | cons b bs ih =>
    intro p best last bestB fuel r hr hb hsz h
    obtain ⟨hp, hs, hf, hn⟩ := hr
    subst hp
    cases fuel with
    | zero => simp [best_fit_loop] at h
    | succ fuel =>
      simp only [best_fit_loop] at h
      simp only [bestL, lastAddr]
      refine ih _ _ _ _ _ _ hn ?_ ?_ h
      · by_cases hfit : fits n b = true
        · rw [if_pos ((fits_iff st.hdr n b hs hf).2 hfit), if_pos hfit]
          subst hb
          cases bestB with
          | none => rfl
          | some x =>
            simp only [Option.map_some']
            rw [hs, hsz x rfl]
            split <;> rfl
        · rw [if_neg (fun hc => hfit ((fits_iff st.hdr n b hs hf).1 hc)), if_neg hfit]
          exact hb
      · intro x hx
        split at hx
        · cases bestB with
          | none =>
            simp only [Option.some.injEq] at hx
            subst hx
            exact hs
          | some y =>
            simp only at hx
            split at hx
            · simp only [Option.some.injEq] at hx
              subst hx
              exact hs
            · exact hsz x hx
        · exact hsz x hx

theorem best_fit_loop_total (st : State) (n : Nat) :
    ∀ (bs : List Blk) (p best last : Option Nat) (fuel : Nat),
      Rep st.hdr bs p → bs.length < fuel →
        ∃ r, best_fit_loop st n fuel p best last = some r := by
  intro bs
  induction bs with
  | nil =>
    intro p best last fuel hr hl
    cases fuel with
    | zero => simp at hl
    | succ fuel =>
      simp only [Rep] at hr
      subst hr
      exact ⟨_, rfl⟩
  | cons b bs ih =>
    intro p best last fuel hr hl
    obtain ⟨hp, hs, hf, hn⟩ := hr
    subst hp
    cases fuel with
    | zero => simp at hl
    | succ fuel =>
      simp only [best_fit_loop]
      exact ih _ _ _ _ hn (by simpa using hl)

/-- The abstract best-fit result is a fitting block of the chain (or the
initial `best`). -/
theorem bestL_mem (n : Nat) :
    ∀ (bs : List Blk) (best : Option Blk) (x : Blk), bestL n bs best = some x →
      (x ∈ bs ∧ fits n x = true) ∨ best = some x := by
  intro bs
  induction bs with
  | nil => intro best x h; exact Or.inr h
  | cons b bs ih =>
    intro best x h
    simp only [bestL] at h
    rcases ih _ _ h with h1 | h1
    · exact Or.inl ⟨List.mem_cons_of_mem _ h1.1, h1.2⟩
    · split at h1
      · next hfit =>
        cases best with
        | none =>
          simp only [Option.some.injEq] at h1
          subst h1
          exact Or.inl ⟨List.mem_cons_self _ _, hfit⟩
        | some y =>
          simp only at h1
          split at h1
          · simp only [Option.some.injEq] at h1
            subst h1
            exact Or.inl ⟨List.mem_cons_self _ _, hfit⟩
          · exact Or.inr h1
      · exact Or.inr h1

/-- The abstract best-fit scan misses only when it starts without a `best`
and no block of the chain fits. -/
theorem bestL_none (n : Nat) :
    ∀ (bs : List Blk) (best : Option Blk), bestL n bs best = none →
      best = none ∧ ∀ b ∈ bs, fits n b = false := by
  intro bs
  induction bs with
  | nil => intro best h; exact ⟨h, fun b hb => by cases hb⟩
  | cons b bs ih =>
    intro best h
    simp only [bestL] at h
    obtain ⟨h1, h2⟩ := ih _ h
    by_cases hfit : fits n b = true
    · rw [if_pos hfit] at h1
      cases best with
      | none => simp at h1
      | some y =>
        simp only at h1
        split at h1 <;> simp at h1
    · rw [if_neg hfit] at h1
      refine ⟨h1, ?_⟩
      intro x hx
      rcases List.mem_cons.1 hx with rfl | hx
      · simpa using hfit
      · exact h2 x hx

/-! ## Heap updates and the abstract chain -/

theorem Rep_mem {h : Nat → block_meta} :
    ∀ (bs : List Blk) (p : Option Nat), Rep h bs p →
      ∀ b ∈ bs, (h b.addr).size = b.size ∧ (h b.addr).free = b.free := by
  intro bs
  induction bs with
  | nil => intro p _ b hb; cases hb
  | cons x bs ih =>
    intro p hr b hb
    obtain ⟨_, hs, hf, hn⟩ := hr
    rcases List.mem_cons.1 hb with rfl | hb
    · exact ⟨hs, hf⟩
    · exact ih _ hn b hb

theorem Rep_head {h : Nat → block_meta} (bs : List Blk) (p : Option Nat) (hr : Rep h bs p) :
    p = (bs.head?).map Blk.addr := by
  cases bs with
  | nil => exact hr
  | cons b bs => exact hr.1

/-- The `next` link of a chain block is `NULL` or a chain block. -/
theorem Rep_next_mem {h : Nat → block_meta} :
    ∀ (bs : List Blk) (p : Option Nat), Rep h bs p →
      ∀ b ∈ bs, ∀ m, (h b.addr).next = some m → m ∈ addrs bs := by
  intro bs
  induction bs with
  | nil => intro p _ b hb; cases hb
  | cons x bs ih =>
    intro p hr b hb m hm
    obtain ⟨_, _, _, hn⟩ := hr
    rcases List.mem_cons.1 hb with rfl | hb
    · have := Rep_head bs _ hn
      rw [hm] at this
      cases bs with
      | nil => simp at this
      | cons y bs =>
        simp only [List.head?_cons, Option.map_some', Option.some.injEq] at this
        simp [addrs, this]
    · have := ih _ hn b hb m hm
      simp only [addrs, List.map_cons, List.mem_cons] at this ⊢
      exact Or.inr this

theorem setFreeL_addrs (a : Nat) (v : Bool) :
    ∀ bs : List Blk, addrs (setFreeL a v bs) = addrs bs := by
  intro bs
  induction bs with
  | nil => rfl
  | cons b bs ih =>
    simp only [setFreeL]
    split
    · rfl
    · simp only [addrs, List.map_cons] at ih ⊢
      rw [ih]

theorem Tiled_setFreeL (a : Nat) (v : Bool) :
    ∀ (bs : List Blk) (lo hi : Nat), Tiled lo bs hi → Tiled lo (setFreeL a v bs) hi := by
  intro bs
  induction bs with
  | nil => intro lo hi h; exact h
  | cons b bs ih =>
    intro lo hi h
    simp only [setFreeL]
    split
    · exact h
    · exact ⟨h.1, ih _ _ h.2⟩

/-- The assignment `block->free = v` on the heap is `setFreeL` on the chain. -/
theorem Rep_setFree {h : Nat → block_meta} (a : Nat) (v : Bool) :
    ∀ (bs : List Blk) (p : Option Nat), (addrs bs).Nodup → Rep h bs p →
      Rep (upd h a { h a with free := v }) (setFreeL a v bs) p := by
  intro bs
  induction bs with
  | nil => intro p _ hr; exact hr
  | cons b bs ih =>
    intro p hnd hr
    obtain ⟨hp, hs, hf, hn⟩ := hr
    simp only [addrs, List.map_cons, List.nodup_cons] at hnd
    simp only [setFreeL]
    by_cases hba : b.addr = a
    · rw [if_pos hba]
      subst hba
      refine ⟨hp, by simp [hs], by simp, ?_⟩
      simp only [upd_same]
      refine Rep_congr bs _ ?_ hn
      intro x hx
      apply upd_other
      intro hxa
      exact hnd.1 (List.mem_map.2 ⟨x, hx, hxa⟩)
    · rw [if_neg hba]
      have hu : upd h a { h a with free := v } b.addr = h b.addr := upd_other _ _ _ _ hba
      refine ⟨hp, by rw [hu]; exact hs, by rw [hu]; exact hf, ?_⟩
      rw [hu]
      exact ih _ hnd.2 hn

theorem setFree_hdr (st : State) (a : Nat) (v : Bool) :
    (st.setFree a v).hdr = upd st.hdr a { st.hdr a with free := v } := rfl

theorem sub64_eq (a b : Nat) (ha : a < WORD) (hb : b ≤ a) : sub64 a b = a - b := by
  unfold sub64
  have hbw : b % WORD = b := Nat.mod_eq_of_lt (by omega)
  rw [hbw]
  have : a + (WORD - b) = (a - b) + WORD := by omega
  rw [this, Nat.add_mod_right]
  exact Nat.mod_eq_of_lt (by omega)

/-- The heap after `split_block` when the split happens. -/
theorem split_block_hdr (st : State) (a n : Nat)
    (hc : (n + META_SIZE + 8) % WORD ≤ (st.hdr a).size) :
    (split_block st a n).hdr =
      upd (upd st.hdr (a + META_SIZE + n)
        ⟨sub64 (sub64 (st.hdr a).size n) META_SIZE, true, (st.hdr a).next⟩)
        a ⟨n, (st.hdr a).free, some (a + META_SIZE + n)⟩ := by
  have hne : a ≠ a + META_SIZE + n := by
    have := META_SIZE_eq
    omega
  have hne2 : a + META_SIZE + n ≠ a := fun h => hne h.symm
  unfold split_block
  rw [if_pos hc]
  funext x
  simp only [State.setSize, State.setFree, State.setNext, upd]
  by_cases hxa : x = a
  · subst hxa
    simp [hne]
  · by_cases hxn : x = a + META_SIZE + n
    · subst hxn
      simp [hne, hne2]
    · simp [hxa, hxn]

theorem split_block_hdr_no (st : State) (a n : Nat)
    (hc : ¬ (n + META_SIZE + 8) % WORD ≤ (st.hdr a).size) :
    split_block st a n = st := by
  unfold split_block
  rw [if_neg hc]

/-- The function `split_block` touches only headers. -/
theorem split_block_frame (st : State) (a n : Nat) :
    (split_block st a n).global_base = st.global_base ∧
    (split_block st a n).last_alloc = st.last_alloc ∧
    (split_block st a n).brk = st.brk ∧ (split_block st a n).mem = st.mem := by
  unfold split_block
  split <;> simp [State.setSize, State.setFree, State.setNext]

theorem splitL_addrs_mem (n a : Nat) :
    ∀ (bs : List Blk) (x : Nat), x ∈ addrs bs → x ∈ addrs (splitL n a bs) := by
  intro bs
  induction bs with
  | nil => intro x hx; exact hx
  | cons b bs ih =>
    intro x hx
    simp only [splitL]
    simp only [addrs, List.map_cons, List.mem_cons] at hx
    split
    · split
      · simp only [addrs, List.map_cons, List.mem_cons]
        rcases hx with hx | hx
        · exact Or.inl hx
        · exact Or.inr (Or.inr hx)
      · simpa [addrs] using hx
    · simp only [addrs, List.map_cons, List.mem_cons]
      rcases hx with hx | hx
      · exact Or.inl hx
      · exact Or.inr (ih x hx)

theorem Tiled_splitL (n a : Nat) :
    ∀ (bs : List Blk) (lo hi : Nat), Tiled lo bs hi → Tiled lo (splitL n a bs) hi := by
  intro bs
  induction bs with
  | nil => intro lo hi h; exact h
  | cons b bs ih =>
    intro lo hi h
    simp only [splitL]
    split
    · next hba =>
      split
      · next hsz =>
        obtain ⟨h1, h2⟩ := h
        refine ⟨h1, ?_, ?_⟩
        · show a + META_SIZE + n = lo + META_SIZE + n
          omega
        · show Tiled (lo + META_SIZE + n + META_SIZE + (b.size - n - META_SIZE)) bs hi
          have : lo + META_SIZE + n + META_SIZE + (b.size - n - META_SIZE)
              = lo + META_SIZE + b.size := by omega
          rw [this]
          exact h2
      · exact h
    · exact ⟨h.1, ih _ _ h.2⟩

/-- The function `split_block` on the heap is `splitL` on the chain, for a request that
fits the block. -/
theorem Rep_split (st : State) (a n : Nat) :
    ∀ (bs : List Blk) (p : Option Nat) (lo hi : Nat), Tiled lo bs hi → hi < ADDR_TOP →
      a ∈ addrs bs → (∀ b ∈ bs, b.addr = a → n ≤ b.size) →
      Rep st.hdr bs p → Rep (split_block st a n).hdr (splitL n a bs) p := by
  intro bs
  induction bs with
  | nil =>
    intro p lo hi _ _ _ _ hr
    exact hr
  | cons b bs ih =>
    intro p lo hi ht hhi hmem hfit hr
    have hM := META_SIZE_eq
    have hW := WORD_eq
    have hA := ADDR_TOP_eq
    obtain ⟨hp, hs, hf, hn⟩ := hr
    obtain ⟨hlo, htl⟩ := ht
    have hbnd := Tiled_le _ _ _ htl
    simp only [splitL]
    by_cases hba : b.addr = a
    · rw [if_pos hba]
      subst hba
      have hnb := hfit b (List.mem_cons_self _ _) rfl
      have hmod : (n + META_SIZE + 8) % WORD = n + META_SIZE + 8 :=
        Nat.mod_eq_of_lt (by omega)
      by_cases hsz : n + META_SIZE + 8 ≤ b.size
      · rw [if_pos hsz]
        have hc : (n + META_SIZE + 8) % WORD ≤ (st.hdr b.addr).size := by
          rw [hmod, hs]; exact hsz
        rw [split_block_hdr st b.addr n hc]
        have hne : b.addr + META_SIZE + n ≠ b.addr := by omega
        refine ⟨hp, by simp, by simp [hf], ?_⟩
        simp only [upd_same]
        refine ⟨rfl, ?_, ?_, ?_⟩
        · show (upd _ _ _ (b.addr + META_SIZE + n)).size = b.size - n - META_SIZE
          rw [upd_other _ _ _ _ hne, upd_same, hs]
          show sub64 (sub64 b.size n) META_SIZE = b.size - n - META_SIZE
          rw [sub64_eq b.size n (by omega) hnb, sub64_eq (b.size - n) META_SIZE (by omega) (by omega)]
        · show (upd _ _ _ (b.addr + META_SIZE + n)).free = true
          rw [upd_other _ _ _ _ hne, upd_same]
        · show Rep _ bs (upd _ _ _ (b.addr + META_SIZE + n)).next
          rw [upd_other _ _ _ _ hne, upd_same]
          refine Rep_congr bs _ ?_ hn
          intro x hx
          have hxa := (Tiled_mem _ _ _ htl x hx).1
          rw [upd_other _ _ _ _ (by omega), upd_other _ _ _ _ (by omega)]
      · rw [if_neg hsz]
        have hc : ¬ (n + META_SIZE + 8) % WORD ≤ (st.hdr b.addr).size := by
          rw [hmod, hs]; exact hsz
        rw [split_block_hdr_no st b.addr n hc]
        exact ⟨hp, hs, hf, hn⟩
    · rw [if_neg hba]
      have hin : a ∈ addrs bs := by
        simp only [addrs, List.map_cons, List.mem_cons] at hmem
        rcases hmem with h1 | h1
        · exact absurd h1.symm hba
        · exact h1
      have hrest := ih _ _ _ htl hhi hin (fun x hx => hfit x (List.mem_cons_of_mem _ hx)) hn
      have hkeep : (split_block st a n).hdr b.addr = st.hdr b.addr := by
        by_cases hc : (n + META_SIZE + 8) % WORD ≤ (st.hdr a).size
        · rw [split_block_hdr st a n hc, upd_other _ _ _ _ hba]
          obtain ⟨y, hy, hya⟩ := mem_addrs.1 hin
          have := (Tiled_mem _ _ _ htl y hy).1
          rw [upd_other _ _ _ _ (by omega)]
        · rw [split_block_hdr_no st a n hc]
      refine ⟨hp, by rw [hkeep]; exact hs, by rw [hkeep]; exact hf, ?_⟩
      rw [hkeep]
      exact hrest

/-! ## Heap extension -/

theorem to_intptr_small (x : Nat) (h : x < ADDR_TOP) : to_intptr x = (x : Int) := by
  simp [to_intptr, h]

/-- The call `sbrk` with an increment that is not wrapped: it moves the break up by
exactly the increment when it succeeds. -/
theorem sbrk_some (cfg : Config) (st st1 : State) (k r : Nat)
    (h : sbrk cfg st (k : Int) = some (st1, r)) :
    r = st.brk ∧ st1 = { st with brk := st.brk + k } ∧ st.brk + k < ADDR_TOP := by
  unfold sbrk at h
  simp only at h
  split at h
  · next hc =>
    simp only [Option.some.injEq, Prod.mk.injEq] at h
    obtain ⟨h1, h2⟩ := h
    have hk : ((st.brk : Int) + (k : Int)).toNat = st.brk + k := by
      have : ((st.brk : Int) + (k : Int)) = ((st.brk + k : Nat) : Int) := by push_cast; rfl
      rw [this, Int.toNat_natCast]
    rw [hk] at h1
    refine ⟨h2.symm, h1.symm, ?_⟩
    have := hc.2.1
    omega
  · simp at h

/-- Any state: what a successful `extend_heap` leaves behind. -/
theorem extend_heap_some (cfg : Config) (st st' : State) (last : Option Nat) (n b : Nat)
    (h : extend_heap cfg st last n = (st', some b)) :
    b = st.brk ∧ (st'.hdr b).size = n ∧ (st'.hdr b).free = false ∧
    st'.mem = st.mem ∧ st'.global_base = st.global_base ∧ st'.last_alloc = st.last_alloc ∧
    (∃ st1, sbrk cfg st (to_intptr ((n + META_SIZE) % WORD)) = some (st1, st.brk) ∧
      st'.brk = st1.brk) ∧
    st'.hdr = extHdr st.hdr st.brk n last := by
  unfold extend_heap at h
  simp only at h
  cases hs : sbrk cfg st (to_intptr ((n + META_SIZE) % WORD)) with
  | none => rw [hs] at h; simp at h
  | some r =>
    obtain ⟨st1, r1⟩ := r
    rw [hs] at h
    have hst1 : st1.hdr = st.hdr ∧ st1.mem = st.mem ∧ st1.global_base = st.global_base ∧
        st1.last_alloc = st.last_alloc ∧ r1 = st.brk := by
      unfold sbrk at hs
      simp only at hs
      split at hs
      · simp only [Option.some.injEq, Prod.mk.injEq] at hs
        obtain ⟨h1, h2⟩ := hs
        subst h1
        exact ⟨rfl, rfl, rfl, rfl, h2.symm⟩
      · simp at hs
    obtain ⟨e1, e2, e3, e4, e5⟩ := hst1
    have hh : (((st1.setSize st.brk n).setFree st.brk false).setNext st.brk none).hdr
        = upd st.hdr st.brk ⟨n, false, none⟩ := by
      funext x
      simp only [State.setSize, State.setFree, State.setNext, upd, e1]
      by_cases hx : x = st.brk <;> simp [hx]
    cases last with
    | none =>
      simp only [Prod.mk.injEq, Option.some.injEq] at h
      obtain ⟨h1, h2⟩ := h
      subst h1
      subst h2
      refine ⟨rfl, ?_, ?_, e2, e3, e4, ⟨st1, by rw [e5], rfl⟩, hh⟩
      · rw [hh]; simp
      · rw [hh]; simp
    | some l =>
      simp only [Prod.mk.injEq, Option.some.injEq] at h
      obtain ⟨h1, h2⟩ := h
      subst h1
      subst h2
      have hh2 : ((((st1.setSize st.brk n).setFree st.brk false).setNext st.brk none).setNext l
          (some st.brk)).hdr = upd (upd st.hdr st.brk ⟨n, false, none⟩) l
          { (upd st.hdr st.brk ⟨n, false, none⟩) l with next := some st.brk } := by
        show upd _ l _ = _
        rw [hh]
      refine ⟨rfl, ?_, ?_, e2, e3, e4, ⟨st1, by rw [e5], rfl⟩, hh2⟩
      · rw [hh2]
        by_cases hl : st.brk = l
        · subst hl; simp
        · rw [upd_other _ _ _ _ hl]; simp
      · rw [hh2]
        by_cases hl : st.brk = l
        · subst hl; simp
        · rw [upd_other _ _ _ _ hl]; simp

/-- Any state: a failed `extend_heap` leaves the state as it was. -/
theorem extend_heap_none (cfg : Config) (st st' : State) (last : Option Nat) (n : Nat)
    (h : extend_heap cfg st last n = (st', none)) :
    st' = st ∧ sbrk cfg st (to_intptr ((n + META_SIZE) % WORD)) = none := by
  unfold extend_heap at h
  simp only at h
  cases hs : sbrk cfg st (to_intptr ((n + META_SIZE) % WORD)) with
  | none =>
    rw [hs] at h
    simp only [Prod.mk.injEq, and_true] at h
    exact ⟨h.symm, rfl⟩
  | some r =>
    rw [hs] at h
    obtain ⟨st1, r1⟩ := r
    cases last <;> simp at h

theorem lastAddr_cons_ne (bs : List Blk) (hne : bs ≠ []) (x y : Option Nat) :
    lastAddr bs x = lastAddr bs y := by
  cases bs with
  | nil => exact absurd rfl hne
  | cons b bs => rfl

theorem lastAddr_mem : ∀ (bs : List Blk) (x : Option Nat), bs ≠ [] →
    ∃ l, lastAddr bs x = some l ∧ l ∈ addrs bs := by
  intro bs
  induction bs with
  | nil => intro x h; exact absurd rfl h
  | cons b bs ih =>
    intro x _
    cases bs with
    | nil => exact ⟨b.addr, rfl, by simp [addrs]⟩
    | cons c bs =>
      obtain ⟨l, h1, h2⟩ := ih (some b.addr) (by simp)
      refine ⟨l, h1, ?_⟩
      simp only [addrs, List.map_cons, List.mem_cons] at h2 ⊢
      exact Or.inr h2

theorem Tiled_append (n : Nat) (f : Bool) :
    ∀ (bs : List Blk) (lo hi : Nat), Tiled lo bs hi →
      Tiled lo (bs ++ [⟨hi, n, f⟩]) (hi + META_SIZE + n) := by
  intro bs
  induction bs with
  | nil =>
    intro lo hi h
    simp only [Tiled] at h
    subst h
    exact ⟨rfl, rfl⟩
  | cons b bs ih =>
    intro lo hi h
    exact ⟨h.1, ih _ _ h.2⟩

/-- Linking a fresh header `k` behind the tail of a chain appends it. -/
theorem Rep_extend {h : Nat → block_meta} (k n : Nat) :
    ∀ (bs : List Blk) (p : Option Nat) (x : Option Nat) (l : Nat),
      (addrs bs).Nodup → k ∉ addrs bs → Rep h bs p → lastAddr bs x = some l → bs ≠ [] →
      Rep (upd (upd h k ⟨n, false, none⟩) l
          { (upd h k ⟨n, false, none⟩) l with next := some k })
        (bs ++ [⟨k, n, false⟩]) p := by
  intro bs
  induction bs with
  | nil => intro p x l _ _ _ _ hne; exact absurd rfl hne
  | cons b bs ih =>
    intro p x l hnd hk hr hl _
    obtain ⟨hp, hs, hf, hn⟩ := hr
    simp only [addrs, List.map_cons, List.nodup_cons, List.mem_cons, not_or] at hnd hk
    have hbk : b.addr ≠ k := fun e => hk.1 e.symm
    cases bs with
    | nil =>
      simp only [lastAddr, Option.some.injEq] at hl
      subst hl
      simp only [Rep] at hn
      refine ⟨hp, ?_, ?_, ?_⟩
      · simp [upd_other _ _ _ _ hbk, hs]
      · simp [upd_other _ _ _ _ hbk, hf]
      · simp only [upd_same]
        refine ⟨rfl, ?_, ?_, ?_⟩
        · show (upd _ _ _ k).size = n
          rw [upd_other _ _ _ _ (fun e => hbk e.symm), upd_same]
        · show (upd _ _ _ k).free = false
          rw [upd_other _ _ _ _ (fun e => hbk e.symm), upd_same]
        · show (upd _ _ _ k).next = none
          rw [upd_other _ _ _ _ (fun e => hbk e.symm), upd_same]
    | cons c bs =>
      have hl' : lastAddr (c :: bs) (some b.addr) = some l := hl
      obtain ⟨l2, h1, h2⟩ := lastAddr_mem (c :: bs) (some b.addr) (by simp)
      rw [hl'] at h1
      simp only [Option.some.injEq] at h1
      subst h1
      have hbl : b.addr ≠ l := by
        intro e
        apply hnd.1
        rw [e]
        exact h2
      have hrest := ih _ (some b.addr) l hnd.2 hk.2 hn hl' (by simp)
      have hkeep : upd (upd h k ⟨n, false, none⟩) l
          { (upd h k ⟨n, false, none⟩) l with next := some k } b.addr = h b.addr := by
        rw [upd_other _ _ _ _ hbl, upd_other _ _ _ _ hbk]
      refine ⟨hp, by rw [hkeep]; exact hs, by rw [hkeep]; exact hf, ?_⟩
      rw [hkeep]
      exact hrest

/-! ## Coalescing -/

/-- Any state: `merge_free_blocks` changes nothing but headers of free blocks,
and no free flag. -/
theorem merge_loop_frame :
    ∀ (fuel : Nat) (st st' : State) (cur : Option Nat), merge_loop fuel st cur = some st' →
      st'.global_base = st.global_base ∧ st'.last_alloc = st.last_alloc ∧
      st'.brk = st.brk ∧ st'.mem = st.mem ∧
      (∀ a, (st'.hdr a).free = (st.hdr a).free) ∧
      (∀ a, (st.hdr a).free = false → st'.hdr a = st.hdr a) := by
  intro fuel
  induction fuel with
  | zero => intro st st' cur h; simp [merge_loop] at h
  | succ fuel ih =>
    intro st st' cur h
    cases cur with
    | none =>
      simp only [merge_loop, Option.some.injEq] at h
      subst h
      exact ⟨rfl, rfl, rfl, rfl, fun _ => rfl, fun _ _ => rfl⟩
    | some c =>
      simp only [merge_loop] at h
      cases hn : (st.hdr c).next with
      | none =>
        rw [hn] at h
        simp only [Option.some.injEq] at h
        subst h
        exact ⟨rfl, rfl, rfl, rfl, fun _ => rfl, fun _ _ => rfl⟩
      | some n =>
        rw [hn] at h
        simp only at h
        split at h
        · next hc =>
          have hnext : ((st.setSize c (((st.hdr c).size +
              (META_SIZE + (st.hdr n).size) % WORD) % WORD)).hdr c).next = some n := by
            simp [State.setSize, hn]
          rw [hnext] at h
          simp only at h
          obtain ⟨g1, g2, g3, g4, g5, g6⟩ := ih _ _ _ h
          refine ⟨g1, g2, g3, g4, ?_, ?_⟩
          · intro a
            rw [g5 a]
            simp only [State.setNext, State.setSize, upd]
            by_cases ha : a = c
            · subst ha; simp
            · simp [ha]
          · intro a ha
            have hac : a ≠ c := by
              intro e
              subst e
              rw [hc.1] at ha
              cases ha
            have hmid : ((st.setSize c (((st.hdr c).size +
                (META_SIZE + (st.hdr n).size) % WORD) % WORD)).setNext c
                ((st.setSize c (((st.hdr c).size +
                (META_SIZE + (st.hdr n).size) % WORD) % WORD)).hdr n).next).hdr a = st.hdr a := by
              simp [State.setNext, State.setSize, upd, hac]
            rw [g6 a (by rw [hmid]; exact ha), hmid]
        · exact ih _ _ _ h

theorem coal_head (cur : Blk) :
    ∀ rest : List Blk, ∃ sz tl, coal cur rest = ⟨cur.addr, sz, cur.free⟩ :: tl := by
  intro rest
  induction rest generalizing cur with
  | nil => exact ⟨cur.size, [], rfl⟩
  | cons b rest ih =>
    simp only [coal]
    split
    · exact ih _
    · exact ⟨cur.size, _, rfl⟩

/-- After the sweep no block is free together with its successor. -/
theorem coal_noadj (cur : Blk) : ∀ rest : List Blk, NoAdjFree (coal cur rest) := by
  intro rest
  induction rest generalizing cur with
  | nil => simp [coal, NoAdjFree]
  | cons b rest ih =>
    simp only [coal]
    split
    · exact ih _
    · next hc =>
      obtain ⟨sz, tl, he⟩ := coal_head b rest
      have := ih b
      rw [he] at this ⊢
      exact ⟨hc, this⟩

/-- The sweep keeps the tiling of the arena. -/
theorem Tiled_coal : ∀ (rest : List Blk) (cur : Blk) (lo hi : Nat),
    hi < WORD → Tiled lo (cur :: rest) hi → Tiled lo (coal cur rest) hi := by
  intro rest
  induction rest with
  | nil => intro cur lo hi _ h; exact h
  | cons b rest ih =>
    intro cur lo hi hhi h
    simp only [coal]
    obtain ⟨h1, h2, h3⟩ := h
    have hle := Tiled_le _ _ _ h3
    have hM := META_SIZE_eq
    split
    · apply ih _ _ _ hhi
      refine ⟨h1, ?_⟩
      show Tiled (lo + META_SIZE + (cur.size + (META_SIZE + b.size) % WORD) % WORD) rest hi
      have e1 : (META_SIZE + b.size) % WORD = META_SIZE + b.size :=
        Nat.mod_eq_of_lt (by omega)
      have e2 : (cur.size + (META_SIZE + b.size)) % WORD = cur.size + (META_SIZE + b.size) :=
        Nat.mod_eq_of_lt (by omega)
      rw [e1, e2]
      have : lo + META_SIZE + (cur.size + (META_SIZE + b.size))
          = lo + META_SIZE + cur.size + META_SIZE + b.size := by omega
      rw [this]
      exact h3
    · exact ⟨h1, ih _ _ _ hhi ⟨h2, h3⟩⟩

/-- The sweep of `merge_free_blocks` on the heap is `coal` on the chain. -/
theorem merge_loop_sound :
    ∀ (rest : List Blk) (cur : Blk) (st st' : State) (fuel : Nat),
      (addrs (cur :: rest)).Nodup → Rep st.hdr (cur :: rest) (some cur.addr) →
      merge_loop fuel st (some cur.addr) = some st' →
      Rep st'.hdr (coal cur rest) (some cur.addr) ∧
      ∀ x, x ∉ addrs (cur :: rest) → st'.hdr x = st.hdr x := by
  intro rest
  induction rest with
  | nil =>
    intro cur st st' fuel _ hr h
    cases fuel with
    | zero => simp [merge_loop] at h
    | succ fuel =>
      obtain ⟨_, hs, hf, hn⟩ := hr
      simp only [Rep] at hn
      simp only [merge_loop, hn, Option.some.injEq] at h
      subst h
      exact ⟨⟨rfl, hs, hf, hn⟩, fun _ _ => rfl⟩
  | cons b rest ih =>
    intro cur st st' fuel hnd hr h
    cases fuel with
    | zero => simp [merge_loop] at h
    | succ fuel =>
      obtain ⟨_, hs, hf, hn⟩ := hr
      obtain ⟨hnb, hbs, hbf, hbn⟩ := hn
      simp only [addrs, List.map_cons, List.nodup_cons, List.mem_cons, not_or] at hnd
      obtain ⟨⟨hcb, hcr⟩, hbr, hrn⟩ := hnd
      simp only [merge_loop, hnb] at h
      simp only [coal]
      by_cases hc : cur.free = true ∧ b.free = true
      · rw [if_pos (by rw [hf, hbf]; exact hc)] at h
        rw [if_pos hc]
        have hnext : ((st.setSize cur.addr (((st.hdr cur.addr).size +
            (META_SIZE + (st.hdr b.addr).size) % WORD) % WORD)).hdr cur.addr).next
            = some b.addr := by
          simp [State.setSize, hnb]
        rw [hnext] at h
        simp only at h
        have hst2 : ((st.setSize cur.addr (((st.hdr cur.addr).size +
            (META_SIZE + (st.hdr b.addr).size) % WORD) % WORD)).setNext cur.addr
            ((st.setSize cur.addr (((st.hdr cur.addr).size +
            (META_SIZE + (st.hdr b.addr).size) % WORD) % WORD)).hdr b.addr).next).hdr
            = upd st.hdr cur.addr ⟨(cur.size + (META_SIZE + b.size) % WORD) % WORD,
                cur.free, (st.hdr b.addr).next⟩ := by
          have hbc : b.addr ≠ cur.addr := fun e => hcb e.symm
          funext x
          simp only [State.setNext, State.setSize, upd]
          by_cases hx : x = cur.addr
          · subst hx
            simp [hs, hf, hbs, hbc]
          · simp [hx]
        have hrep : Rep (upd st.hdr cur.addr ⟨(cur.size + (META_SIZE + b.size) % WORD) % WORD,
            cur.free, (st.hdr b.addr).next⟩)
            ({ cur with size := (cur.size + (META_SIZE + b.size) % WORD) % WORD } :: rest)
            (some cur.addr) := by
          refine ⟨rfl, by simp, by simp, ?_⟩
          simp only [upd_same]
          refine Rep_congr rest _ ?_ hbn
          intro x hx
          apply upd_other
          intro e
          exact hcr (List.mem_map.2 ⟨x, hx, e⟩)
        rw [← hst2] at hrep
        have hnd2 : (addrs ({ cur with size := (cur.size + (META_SIZE + b.size) % WORD) % WORD }
            :: rest)).Nodup := by
          simp only [addrs, List.map_cons, List.nodup_cons]
          exact ⟨hcr, hrn⟩
        obtain ⟨r1, r2⟩ := ih _ _ _ _ hnd2 hrep h
        refine ⟨r1, ?_⟩
        intro x hx
        simp only [addrs, List.map_cons, List.mem_cons, not_or] at hx
        rw [r2 x (by
          simp only [addrs, List.map_cons, List.mem_cons, not_or]
          exact ⟨hx.1, hx.2.2⟩), hst2, upd_other _ _ _ _ hx.1]
      · rw [if_neg (by rw [hf, hbf]; exact hc)] at h
        rw [if_neg hc]
        have hnd2 : (addrs (b :: rest)).Nodup := by
          simp only [addrs, List.map_cons, List.nodup_cons]
          exact ⟨hbr, hrn⟩
        obtain ⟨r1, r2⟩ := ih b st st' fuel hnd2 ⟨rfl, hbs, hbf, hbn⟩ h
        have hkeep : st'.hdr cur.addr = st.hdr cur.addr := by
          apply r2
          simp only [addrs, List.map_cons, List.mem_cons, not_or]
          exact ⟨hcb, hcr⟩
        refine ⟨⟨rfl, by rw [hkeep]; exact hs, by rw [hkeep]; exact hf, ?_⟩, ?_⟩
        · rw [hkeep, hnb]
          exact r1
        · intro x hx
          simp only [addrs, List.map_cons, List.mem_cons, not_or] at hx
          apply r2
          simp only [addrs, List.map_cons, List.mem_cons, not_or]
          exact hx.2

/-- With one unit of fuel per chain block the sweep returns. -/
theorem merge_loop_total :
    ∀ (rest : List Blk) (cur : Blk) (st : State) (fuel : Nat),
      (addrs (cur :: rest)).Nodup → Rep st.hdr (cur :: rest) (some cur.addr) →
      rest.length < fuel → ∃ st', merge_loop fuel st (some cur.addr) = some st' := by
  intro rest
  induction rest with
  | nil =>
    intro cur st fuel _ hr hl
    cases fuel with
    | zero => simp at hl
    | succ fuel =>
      obtain ⟨_, _, _, hn⟩ := hr
      simp only [Rep] at hn
      exact ⟨st, by simp [merge_loop, hn]⟩
  | cons b rest ih =>
    intro cur st fuel hnd hr hl
    cases fuel with
    | zero => simp at hl
    | succ fuel =>
      have hl2 : rest.length < fuel := by simpa using hl
      obtain ⟨_, hs, hf, hn⟩ := hr
      obtain ⟨hnb, hbs, hbf, hbn⟩ := hn
      simp only [addrs, List.map_cons, List.nodup_cons, List.mem_cons, not_or] at hnd
      obtain ⟨⟨hcb, hcr⟩, hbr, hrn⟩ := hnd
      simp only [merge_loop, hnb]
      by_cases hc : cur.free = true ∧ b.free = true
      · rw [if_pos (by rw [hf, hbf]; exact hc)]
        have hnext : ((st.setSize cur.addr (((st.hdr cur.addr).size +
            (META_SIZE + (st.hdr b.addr).size) % WORD) % WORD)).hdr cur.addr).next
            = some b.addr := by
          simp [State.setSize, hnb]
        rw [hnext]
        simp only
        have hst2 : ((st.setSize cur.addr (((st.hdr cur.addr).size +
            (META_SIZE + (st.hdr b.addr).size) % WORD) % WORD)).setNext cur.addr
            ((st.setSize cur.addr (((st.hdr cur.addr).size +
            (META_SIZE + (st.hdr b.addr).size) % WORD) % WORD)).hdr b.addr).next).hdr
            = upd st.hdr cur.addr ⟨(cur.size + (META_SIZE + b.size) % WORD) % WORD,
                cur.free, (st.hdr b.addr).next⟩ := by
          have hbc : b.addr ≠ cur.addr := fun e => hcb e.symm
          funext x
          simp only [State.setNext, State.setSize, upd]
          by_cases hx : x = cur.addr
          · subst hx
            simp [hs, hf, hbs, hbc]
          · simp [hx]
        have hrep : Rep (upd st.hdr cur.addr ⟨(cur.size + (META_SIZE + b.size) % WORD) % WORD,
            cur.free, (st.hdr b.addr).next⟩)
            ({ cur with size := (cur.size + (META_SIZE + b.size) % WORD) % WORD } :: rest)
            (some cur.addr) := by
          refine ⟨rfl, by simp, by simp, ?_⟩
          simp only [upd_same]
          refine Rep_congr rest _ ?_ hbn
          intro x hx
          apply upd_other
          intro e
          exact hcr (List.mem_map.2 ⟨x, hx, e⟩)
        rw [← hst2] at hrep
        have hnd2 : (addrs ({ cur with size := (cur.size + (META_SIZE + b.size) % WORD) % WORD }
            :: rest)).Nodup := by
          simp only [addrs, List.map_cons, List.nodup_cons]
          exact ⟨hcr, hrn⟩
        exact ih { cur with size := (cur.size + (META_SIZE + b.size) % WORD) % WORD }
          _ _ hnd2 hrep hl2
      · rw [if_neg (by rw [hf, hbf]; exact hc)]
        have hnd2 : (addrs (b :: rest)).Nodup := by
          simp only [addrs, List.map_cons, List.nodup_cons]
          exact ⟨hbr, hrn⟩
        exact ih b st fuel hnd2 ⟨rfl, hbs, hbf, hbn⟩ hl2

/-! ## Next fit and the strategy switch -/

/-- Next fit, any state: a hit is a free block that is large enough and moves
the cursor to its successor; a miss changes nothing and reports `start`. -/
theorem next_fit_loop_res (st : State) (n base start : Nat) :
    ∀ (fuel cur : Nat) (st1 : State) (r l : Option Nat),
      next_fit_loop st n base start fuel cur = some (st1, r, l) →
        (∀ a, r = some a → (st.hdr a).free = true ∧ n ≤ (st.hdr a).size ∧
          st1 = { st with last_alloc := (st.hdr a).next }) ∧
        (r = none → st1 = st ∧ l = some start) := by
  intro fuel
  induction fuel with
  | zero => intro cur st1 r l h; simp [next_fit_loop] at h
  | succ fuel ih =>
    intro cur st1 r l h
    simp only [next_fit_loop] at h
    split at h
    · next hc =>
      simp only [Option.some.injEq, Prod.mk.injEq] at h
      obtain ⟨h1, h2, _⟩ := h
      subst h1
      subst h2
      refine ⟨?_, by simp⟩
      intro a ha
      simp only [Option.some.injEq] at ha
      subst ha
      exact ⟨hc.1, hc.2, rfl⟩
    · split at h
      · exact ih _ _ _ _ h
      · next hne =>
        simp only [Option.some.injEq, Prod.mk.injEq] at h
        obtain ⟨h1, h2, h3⟩ := h
        subst h1
        subst h2
        refine ⟨by simp, ?_⟩
        intro _
        refine ⟨rfl, ?_⟩
        rw [← h3]
        simp only [ne_eq, Decidable.not_not] at hne
        rw [hne]

/-- Next fit on a chain: starting inside the chain, a hit is a chain block. -/
theorem next_fit_loop_mem (st : State) (n base start : Nat) (bs : List Blk) (p : Option Nat)
    (hr : Rep st.hdr bs p) (hbase : base ∈ addrs bs) :
    ∀ (fuel cur : Nat) (st1 : State) (a : Nat) (l : Option Nat), cur ∈ addrs bs →
      next_fit_loop st n base start fuel cur = some (st1, some a, l) → a ∈ addrs bs := by
  intro fuel
  induction fuel with
  | zero => intro cur st1 a l _ h; simp [next_fit_loop] at h
  | succ fuel ih =>
    intro cur st1 a l hcur h
    simp only [next_fit_loop] at h
    split at h
    · simp only [Option.some.injEq, Prod.mk.injEq] at h
      obtain ⟨_, h2, _⟩ := h
      subst h2
      exact hcur
    · split at h
      · refine ih _ _ _ _ ?_ h
        obtain ⟨b, hb, hba⟩ := mem_addrs.1 hcur
        subst hba
        cases hnx : (st.hdr b.addr).next with
        | none => exact hbase
        | some m => exact Rep_next_mem bs p hr b hb m hnx
      · simp at h

/-- Next fit, any state: result of `find_free_block_next_fit`. -/
theorem find_next_fit_res (fuel : Nat) (st st1 : State) (last blk l : Option Nat) (n : Nat)
    (h : find_free_block_next_fit fuel st last n = some (st1, blk, l)) :
    (blk = none → st1 = st) ∧
    (∀ a, blk = some a → (st.hdr a).free = true ∧ n ≤ (st.hdr a).size ∧
      st1 = { st with last_alloc := (st.hdr a).next }) := by
  unfold find_free_block_next_fit at h
  split at h
  · simp only [Option.some.injEq, Prod.mk.injEq] at h
    obtain ⟨e1, e2, _⟩ := h
    subst e1
    subst e2
    exact ⟨fun _ => rfl, by simp⟩
  · next base hg =>
    simp only at h
    generalize hl : next_fit_loop st n base _ fuel _ = res at h
    cases res with
    | none => simp at h
    | some res =>
      obtain ⟨s2, r2, l2⟩ := res
      obtain ⟨q1, q2⟩ := next_fit_loop_res st n base _ fuel _ s2 r2 l2 hl
      cases r2 with
      | none =>
        simp only [Option.some.injEq, Prod.mk.injEq] at h
        obtain ⟨e1, e2, _⟩ := h
        subst e1
        subst e2
        exact ⟨fun _ => (q2 rfl).1, by simp⟩
      | some a =>
        simp only [Option.some.injEq, Prod.mk.injEq] at h
        obtain ⟨e1, e2, _⟩ := h
        subst e1
        subst e2
        refine ⟨by simp, ?_⟩
        intro a' ha'
        simp only [Option.some.injEq] at ha'
        subst ha'
        exact q1 a rfl

/-- Next fit on a chain, the cursor inside it: a hit is a chain block. -/
theorem find_next_fit_mem (fuel : Nat) (st st1 : State) (last l : Option Nat) (a n : Nat)
    (bs : List Blk) (hr : Rep st.hdr bs st.global_base) (hcur : CursorOK st bs)
    (h : find_free_block_next_fit fuel st last n = some (st1, some a, l)) :
    a ∈ addrs bs := by
  unfold find_free_block_next_fit at h
  split at h
  · simp at h
  · next base hg =>
    simp only at h
    have hbase : base ∈ addrs bs := by
      rw [hg] at hr
      cases bs with
      | nil => simp [Rep] at hr
      | cons b bs =>
        have := hr.1
        simp only [Option.some.injEq] at this
        simp [addrs, this]
    have hstart : (match st.last_alloc with | some c => c | none => base) ∈ addrs bs := by
      cases hc : st.last_alloc with
      | none => exact hbase
      | some c => exact hcur c hc
    generalize hl : next_fit_loop st n base _ fuel _ = res at h
    cases res with
    | none => simp at h
    | some res =>
      obtain ⟨s2, r2, l2⟩ := res
      cases r2 with
      | none => simp at h
      | some a2 =>
        simp only [Option.some.injEq, Prod.mk.injEq] at h
        obtain ⟨_, e2, _⟩ := h
        subst e2
        exact next_fit_loop_mem st n base _ bs _ hr hbase fuel _ s2 a2 l2 hstart hl

/-- Any state, any strategy: what a located block looks like and what the
locator leaves unchanged. -/
theorem find_free_block_res (cfg : Config) (fuel : Nat) (st st1 : State)
    (last blk l : Option Nat) (n : Nat)
    (h : find_free_block cfg fuel st last n = some (st1, blk, l)) :
    st1.hdr = st.hdr ∧ st1.global_base = st.global_base ∧ st1.brk = st.brk ∧
    st1.mem = st.mem ∧ (blk = none → st1 = st) ∧
    (cfg.ALLOC_STRATEGY ≠ 3 → st1 = st) ∧
    (∀ a, blk = some a → (st.hdr a).free = true ∧ n ≤ (st.hdr a).size ∧
      (st1.last_alloc = st.last_alloc ∨ st1.last_alloc = (st.hdr a).next)) := by
  have first : ∀ r, find_free_block_first_fit fuel st last n = some r →
      some (st, r.1, r.2) = some (st1, blk, l) →
      st1.hdr = st.hdr ∧ st1.global_base = st.global_base ∧ st1.brk = st.brk ∧
      st1.mem = st.mem ∧ (blk = none → st1 = st) ∧
      (cfg.ALLOC_STRATEGY ≠ 3 → st1 = st) ∧
      (∀ a, blk = some a → (st.hdr a).free = true ∧ n ≤ (st.hdr a).size ∧
        (st1.last_alloc = st.last_alloc ∨ st1.last_alloc = (st.hdr a).next)) := by
    intro r hr he
    simp only [Option.some.injEq, Prod.mk.injEq] at he
    obtain ⟨e1, e2, e3⟩ := he
    subst e1
    refine ⟨rfl, rfl, rfl, rfl, fun _ => rfl, fun _ => rfl, ?_⟩
    intro a ha
    obtain ⟨r1, r2⟩ := r
    simp only at e2
    subst e2
    subst ha
    have := first_fit_loop_hit st n fuel _ _ a r2 hr
    exact ⟨this.1, this.2, Or.inl rfl⟩
  unfold find_free_block at h
  split at h
  · cases hr : find_free_block_first_fit fuel st last n with
    | none => rw [hr] at h; simp at h
    | some r => rw [hr] at h; exact first r hr h
  · split at h
    · cases hr : find_free_block_best_fit fuel st last n with
      | none => rw [hr] at h; simp at h
      | some r =>
        rw [hr] at h
        simp only [Option.map_some', Option.some.injEq, Prod.mk.injEq] at h
        obtain ⟨e1, e2, e3⟩ := h
        subst e1
        refine ⟨rfl, rfl, rfl, rfl, fun _ => rfl, fun _ => rfl, ?_⟩
        intro a ha
        obtain ⟨r1, r2⟩ := r
        simp only at e2
        subst e2
        subst ha
        have := best_fit_loop_hit st n fuel _ none _ a r2 (by simp) hr
        exact ⟨this.1, this.2, Or.inl rfl⟩
    · split at h
      · next h3 =>
        obtain ⟨q1, q2⟩ := find_next_fit_res fuel st st1 last blk l n h
        cases blk with
        | none =>
          have := q1 rfl
          subst this
          exact ⟨rfl, rfl, rfl, rfl, fun _ => rfl, fun _ => rfl, by simp⟩
        | some a =>
          obtain ⟨q3, q4, q5⟩ := q2 a rfl
          subst q5
          refine ⟨rfl, rfl, rfl, rfl, by simp, fun hne => absurd h3 hne, ?_⟩
          intro a' ha'
          simp only [Option.some.injEq] at ha'
          subst ha'
          exact ⟨q3, q4, Or.inr rfl⟩
      · cases hr : find_free_block_first_fit fuel st last n with
        | none => rw [hr] at h; simp at h
        | some r => rw [hr] at h; exact first r hr h

/-- On a chain, with the cursor inside it, a located block is a chain
block, whatever the strategy. -/
theorem find_free_block_mem (cfg : Config) (fuel : Nat) (st st1 : State)
    (last l : Option Nat) (a n : Nat) (bs : List Blk)
    (hr : Rep st.hdr bs st.global_base) (hcur : CursorOK st bs)
    (h : find_free_block cfg fuel st last n = some (st1, some a, l)) :
    ∃ b ∈ bs, b.addr = a ∧ b.free = true ∧ n ≤ b.size := by
  have hres := (find_free_block_res cfg fuel st st1 last (some a) l n h).2.2.2.2.2.2 a rfl
  have key : a ∈ addrs bs → ∃ b ∈ bs, b.addr = a ∧ b.free = true ∧ n ≤ b.size := by
    intro ha
    obtain ⟨b, hb, hba⟩ := mem_addrs.1 ha
    obtain ⟨e1, e2⟩ := Rep_mem bs _ hr b hb
    subst hba
    exact ⟨b, hb, rfl, by rw [← e2]; exact hres.1, by rw [← e1]; exact hres.2.1⟩
  apply key
  have first : ∀ r, find_free_block_first_fit fuel st last n = some r →
      some (st, r.1, r.2) = some (st1, some a, l) → a ∈ addrs bs := by
    intro r hr1 he
    simp only [Option.some.injEq, Prod.mk.injEq] at he
    have := (first_fit_loop_sound st n bs _ _ fuel r hr hr1).1
    rw [he.2.1] at this
    cases hf : bs.find? (fits n) with
    | none => rw [hf] at this; simp at this
    | some b =>
      rw [hf] at this
      simp only [Option.map_some', Option.some.injEq] at this
      exact mem_addrs.2 ⟨b, List.mem_of_find?_eq_some hf, this.symm⟩
  unfold find_free_block at h
  split at h
  · cases hr1 : find_free_block_first_fit fuel st last n with
    | none => rw [hr1] at h; simp at h
    | some r => rw [hr1] at h; exact first r hr1 h
  · split at h
    · cases hr1 : find_free_block_best_fit fuel st last n with
      | none => rw [hr1] at h; simp at h
      | some r =>
        rw [hr1] at h
        simp only [Option.map_some', Option.some.injEq, Prod.mk.injEq] at h
        have := best_fit_loop_sound st n bs _ none last none fuel r hr rfl (by simp) hr1
        rw [this] at h
        simp only at h
        cases hb : bestL n bs none with
        | none => rw [hb] at h; simp at h
        | some b =>
          rw [hb] at h
          simp only [Option.map_some', Option.some.injEq] at h
          rcases bestL_mem n bs none b hb with h1 | h1
          · exact mem_addrs.2 ⟨b, h1.1, h.2.1⟩
          · simp at h1
    · split at h
      · exact find_next_fit_mem fuel st st1 last l a n bs hr hcur h
      · cases hr1 : find_free_block_first_fit fuel st last n with
        | none => rw [hr1] at h; simp at h
        | some r => rw [hr1] at h; exact first r hr1 h

/-- First fit and best fit on a chain: a miss means that no chain block fits,
and `*last` is then the tail of the chain. -/
theorem find_free_block_miss (cfg : Config) (fuel : Nat) (st st1 : State)
    (last l : Option Nat) (n : Nat) (bs : List Blk)
    (hs : cfg.ALLOC_STRATEGY ≠ 3) (hr : Rep st.hdr bs st.global_base)
    (h : find_free_block cfg fuel st last n = some (st1, none, l)) :
    l = lastAddr bs last ∧ ∀ b ∈ bs, fits n b = false := by
  have first : ∀ r, find_free_block_first_fit fuel st last n = some r →
      some (st, r.1, r.2) = some (st1, none, l) →
      l = lastAddr bs last ∧ ∀ b ∈ bs, fits n b = false := by
    intro r hr1 he
    simp only [Option.some.injEq, Prod.mk.injEq] at he
    obtain ⟨q1, q2⟩ := first_fit_loop_sound st n bs _ _ fuel r hr hr1
    rw [he.2.1] at q1 q2
    refine ⟨by rw [← he.2.2]; exact q2 rfl, ?_⟩
    intro b hb
    cases hf : bs.find? (fits n) with
    | none =>
      have := List.find?_eq_none.1 hf b hb
      simpa using this
    | some x => rw [hf] at q1; simp at q1
  unfold find_free_block at h
  split at h
  · cases hr1 : find_free_block_first_fit fuel st last n with
    | none => rw [hr1] at h; simp at h
    | some r => rw [hr1] at h; exact first r hr1 h
  · split at h
    · cases hr1 : find_free_block_best_fit fuel st last n with
      | none => rw [hr1] at h; simp at h
      | some r =>
        rw [hr1] at h
        simp only [Option.map_some', Option.some.injEq, Prod.mk.injEq] at h
        have := best_fit_loop_sound st n bs _ none last none fuel r hr rfl (by simp) hr1
        rw [this] at h
        simp only at h
        refine ⟨h.2.2.symm, ?_⟩
        cases hb : bestL n bs none with
        | none => exact (bestL_none n bs none hb).2
        | some b => rw [hb] at h; simp at h
    · cases hr1 : find_free_block_first_fit fuel st last n with
      | none => rw [hr1] at h; simp at h
      | some r => rw [hr1] at h; exact first r hr1 h

/-- First fit and best fit on a chain return once the fuel exceeds the
length of the chain. -/
theorem find_free_block_total (cfg : Config) (fuel : Nat) (st : State)
    (last : Option Nat) (n : Nat) (bs : List Blk)
    (hs : cfg.ALLOC_STRATEGY ≠ 3) (hr : Rep st.hdr bs st.global_base)
    (hl : bs.length < fuel) :
    ∃ r, find_free_block cfg fuel st last n = some r := by
  obtain ⟨r1, h1⟩ := first_fit_loop_total st n bs st.global_base last fuel hr hl
  obtain ⟨r2, h2⟩ := best_fit_loop_total st n bs st.global_base none last fuel hr hl
  unfold find_free_block
  split
  · exact ⟨_, by simp only [find_free_block_first_fit, h1]; rfl⟩
  · split
    · exact ⟨_, by simp only [find_free_block_best_fit, h2]; rfl⟩
    · exact ⟨_, by simp only [find_free_block_first_fit, h1]; rfl⟩

/-- First fit and best fit on a chain: a hit whenever some chain block fits. -/
theorem find_free_block_hit_of_fits (cfg : Config) (fuel : Nat) (st st1 : State)
    (last blk l : Option Nat) (n : Nat) (bs : List Blk)
    (hs : cfg.ALLOC_STRATEGY ≠ 3) (hr : Rep st.hdr bs st.global_base)
    (h : find_free_block cfg fuel st last n = some (st1, blk, l))
    (hex : ∃ b ∈ bs, fits n b = true) : blk ≠ none := by
  intro hb
  subst hb
  obtain ⟨b, hb, hf⟩ := hex
  have := (find_free_block_miss cfg fuel st st1 last l n bs hs hr h).2 b hb
  rw [hf] at this
  cases this

/-! ## `my_malloc` -/

theorem state_eta_base (st : State) (h : st.global_base = none) :
    { st with global_base := none } = st := by
  cases st
  simp only at h
  subst h
  rfl

/-- Any state: the three ways a call `my_malloc(n)`, `n > 0`, can return. -/
theorem my_malloc_cases (cfg : Config) (fuel : Nat) (st st' : State) (n : Nat)
    (r : Option Nat) (hn : n ≠ 0) (h : my_malloc cfg fuel st n = some (st', r)) :
    ∃ st1 blk l, find_free_block cfg fuel st st.global_base n = some (st1, blk, l) ∧
      ((∃ a, blk = some a ∧ st' = split_block (st1.setFree a false) a n ∧
          r = some (a + META_SIZE)) ∨
       (blk = none ∧ r = none ∧ st' = st ∧
          sbrk cfg st (to_intptr ((n + META_SIZE) % WORD)) = none) ∨
       (blk = none ∧ r = some (st.brk + META_SIZE) ∧ st'.mem = st.mem ∧
          st'.last_alloc = st.last_alloc ∧
          st'.global_base = (match st.global_base with
            | none => some st.brk
            | some g => some g) ∧
          (∃ s1, sbrk cfg st (to_intptr ((n + META_SIZE) % WORD)) = some (s1, st.brk) ∧
            st'.brk = s1.brk) ∧
          st'.hdr = extHdr st.hdr st.brk n (match st.global_base with
            | none => none
            | some _ => l))) := by
  unfold my_malloc at h
  rw [if_neg hn] at h
  cases hf : find_free_block cfg fuel st st.global_base n with
  | none => rw [hf] at h; simp at h
  | some res =>
    obtain ⟨st1, blk, l⟩ := res
    rw [hf] at h
    refine ⟨st1, blk, l, rfl, ?_⟩
    cases blk with
    | some a =>
      simp only [Option.some.injEq, Prod.mk.injEq] at h
      exact Or.inl ⟨a, rfl, h.1.symm, h.2.symm⟩
    | none =>
      have hst1 : st1 = st := (find_free_block_res cfg fuel st st1 _ none l n hf).2.2.2.2.1 rfl
      subst hst1
      simp only at h
      cases hg : st1.global_base with
      | none =>
        rw [hg] at h
        simp only at h
        cases he : extend_heap cfg st1 none n with
        | mk st2 ob =>
          rw [he] at h
          cases ob with
          | none =>
            simp only [Option.some.injEq, Prod.mk.injEq] at h
            obtain ⟨e1, e2⟩ := extend_heap_none cfg st1 st2 none n he
            subst e1
            refine Or.inr (Or.inl ⟨rfl, h.2.symm, ?_, e2⟩)
            rw [← h.1]
            exact state_eta_base _ hg
          | some b =>
            simp only [Option.some.injEq, Prod.mk.injEq] at h
            obtain ⟨e1, e2, e3, e4, e5, e6, e7, e8⟩ := extend_heap_some cfg st1 st2 none n b he
            subst e1
            refine Or.inr (Or.inr ⟨rfl, h.2.symm, ?_, ?_, ?_, ?_, ?_⟩)
            · rw [← h.1]; exact e4
            · rw [← h.1]; exact e6
            · rw [← h.1]
            · obtain ⟨s1, q1, q2⟩ := e7
              exact ⟨s1, q1, by rw [← h.1]; exact q2⟩
            · rw [← h.1]; exact e8
      | some g =>
        rw [hg] at h
        simp only at h
        cases he : extend_heap cfg st1 l n with
        | mk st2 ob =>
          rw [he] at h
          cases ob with
          | none =>
            simp only [Option.some.injEq, Prod.mk.injEq] at h
            obtain ⟨e1, e2⟩ := extend_heap_none cfg st1 st2 l n he
            subst e1
            exact Or.inr (Or.inl ⟨rfl, h.2.symm, h.1.symm, e2⟩)
          | some b =>
            simp only [Option.some.injEq, Prod.mk.injEq] at h
            obtain ⟨e1, e2, e3, e4, e5, e6, e7, e8⟩ := extend_heap_some cfg st1 st2 l n b he
            subst e1
            refine Or.inr (Or.inr ⟨rfl, h.2.symm, ?_, ?_, ?_, ?_, ?_⟩)
            · rw [← h.1]; exact e4
            · rw [← h.1]; exact e6
            · rw [← h.1, e5, hg]
            · obtain ⟨s1, q1, q2⟩ := e7
              exact ⟨s1, q1, by rw [← h.1]; exact q2⟩
            · rw [← h.1]; exact e8

theorem setFreeL_mem (a : Nat) (v : Bool) :
    ∀ (bs : List Blk) (x : Blk), x ∈ setFreeL a v bs →
      ∃ y ∈ bs, y.addr = x.addr ∧ y.size = x.size := by
  intro bs
  induction bs with
  | nil => intro x hx; cases hx
  | cons b bs ih =>
    intro x hx
    simp only [setFreeL] at hx
    split at hx
    · rcases List.mem_cons.1 hx with rfl | hx
      · exact ⟨b, List.mem_cons_self _ _, rfl, rfl⟩
      · exact ⟨x, List.mem_cons_of_mem _ hx, rfl, rfl⟩
    · rcases List.mem_cons.1 hx with rfl | hx
      · exact ⟨x, List.mem_cons_self _ _, rfl, rfl⟩
      · obtain ⟨y, hy, h1, h2⟩ := ih x hx
        exact ⟨y, List.mem_cons_of_mem _ hy, h1, h2⟩

/-- A hit keeps the chain invariant: the chain becomes the old one with the
located block marked allocated and split. -/
theorem hit_WF (st1 st : State) (b0 a n : Nat) (bs : List Blk) (b : Blk)
    (hwf : WF st b0 bs) (hb : b ∈ bs) (hba : b.addr = a) (hnb : n ≤ b.size)
    (e1 : st1.hdr = st.hdr) (e2 : st1.global_base = st.global_base) (e3 : st1.brk = st.brk) :
    WF (split_block (st1.setFree a false) a n) b0 (splitL n a (setFreeL a false bs)) := by
  obtain ⟨hr, ht, hbrk⟩ := hwf
  have hnd := Tiled_nodup bs _ _ ht
  have hr2 : Rep (st1.setFree a false).hdr (setFreeL a false bs) st.global_base := by
    rw [setFree_hdr, e1]
    exact Rep_setFree a false bs _ hnd hr
  have ht2 := Tiled_setFreeL a false bs _ _ ht
  have hmem : a ∈ addrs (setFreeL a false bs) := by
    rw [setFreeL_addrs]
    exact mem_addrs.2 ⟨b, hb, hba⟩
  have hfit : ∀ x ∈ setFreeL a false bs, x.addr = a → n ≤ x.size := by
    intro x hx hxa
    obtain ⟨y, hy, h1, h2⟩ := setFreeL_mem a false bs x hx
    have : y = b := Tiled_addr_inj bs _ _ ht y b hy hb (by rw [h1, hxa, hba])
    subst this
    rw [← h2]
    exact hnb
  obtain ⟨f1, f2, f3, f4⟩ := split_block_frame (st1.setFree a false) a n
  refine ⟨?_, ?_, ?_⟩
  · rw [f1]
    show Rep _ _ st1.global_base
    rw [e2]
    exact Rep_split _ a n _ _ b0 st.brk ht2 hbrk hmem hfit hr2
  · rw [f3]
    show Tiled _ _ st1.brk
    rw [e3]
    exact Tiled_splitL n a _ _ _ ht2
  · rw [f3]
    show st1.brk < _
    rw [e3]
    exact hbrk

/-- A granted extension behind the tail keeps the chain invariant: the chain
becomes the old one followed by the new block. -/
theorem extend_WF (st st' : State) (b0 n : Nat) (bs : List Blk) (l : Option Nat)
    (hwf : WF st b0 bs) (hl : l = lastAddr bs st.global_base)
    (hbrk : st'.brk = st.brk + META_SIZE + n) (hlt : st.brk + META_SIZE + n < ADDR_TOP)
    (hg : st'.global_base = (match st.global_base with
            | none => some st.brk
            | some g => some g))
    (hh : st'.hdr = extHdr st.hdr st.brk n (match st.global_base with
            | none => none
            | some _ => l)) :
    WF st' b0 (bs ++ [⟨st.brk, n, false⟩]) := by
  obtain ⟨hr, ht, _⟩ := hwf
  have hnd := Tiled_nodup bs _ _ ht
  have hM := META_SIZE_eq
  have hk : st.brk ∉ addrs bs := by
    intro hin
    obtain ⟨y, hy, hya⟩ := mem_addrs.1 hin
    have := (Tiled_mem _ _ _ ht y hy).2
    omega
  refine ⟨?_, ?_, ?_⟩
  · cases bs with
    | nil =>
      simp only [Rep] at hr
      rw [hr] at hg hh
      simp only at hg hh
      rw [hg, hh]
      simp only [extHdr, List.nil_append]
      exact ⟨rfl, by simp, by simp, by simp [Rep]⟩
    | cons b bs =>
      have hgb : st.global_base = some b.addr := hr.1
      rw [hgb] at hg hh hl
      simp only at hg hh
      rw [hg, hh]
      obtain ⟨l2, q1, _⟩ := lastAddr_mem (b :: bs) (some b.addr) (by simp)
      rw [hl, q1]
      simp only [extHdr]
      rw [hgb] at hr
      exact Rep_extend st.brk n (b :: bs) _ (some b.addr) l2 hnd hk hr q1 (by simp)
  · rw [hbrk]
    exact Tiled_append n false bs _ _ ht
  · rw [hbrk]
    exact hlt

/-! ## Allocated blocks of the abstract chain -/

theorem Alloc_cons (b : Blk) (bs : List Blk) (x : Nat) :
    Alloc (b :: bs) x ↔ (b.addr = x ∧ b.free = false) ∨ Alloc bs x := by
  simp [Alloc]

theorem Alloc_setFreeL_false (a : Nat) :
    ∀ (bs : List Blk) (x : Nat), a ∈ addrs bs →
      (Alloc (setFreeL a false bs) x ↔ x = a ∨ Alloc bs x) := by
  intro bs
  induction bs with
  | nil => intro x ha; simp [addrs] at ha
  | cons b bs ih =>
    intro x ha
    simp only [setFreeL]
    by_cases hba : b.addr = a
    · rw [if_pos hba, Alloc_cons, Alloc_cons]
      simp only [and_true]
      constructor
      · rintro (h | h)
        · exact Or.inl (by rw [← h, hba])
        · exact Or.inr (Or.inr h)
      · rintro (h | h | h)
        · exact Or.inl (by rw [h, hba])
        · exact Or.inl h.1
        · exact Or.inr h
    · rw [if_neg hba, Alloc_cons, Alloc_cons]
      have ha2 : a ∈ addrs bs := by
        simp only [addrs, List.map_cons, List.mem_cons] at ha
        rcases ha with h | h
        · exact absurd h.symm hba
        · exact h
      rw [ih x ha2]
      tauto

theorem Alloc_setFreeL_true (a : Nat) :
    ∀ (bs : List Blk) (x : Nat), (addrs bs).Nodup →
      (Alloc (setFreeL a true bs) x ↔ x ≠ a ∧ Alloc bs x) := by
  intro bs
  induction bs with
  | nil => intro x _; simp [setFreeL, Alloc]
  | cons b bs ih =>
    intro x hnd
    simp only [addrs, List.map_cons, List.nodup_cons] at hnd
    simp only [setFreeL]
    by_cases hba : b.addr = a
    · rw [if_pos hba, Alloc_cons, Alloc_cons]
      have hnot : ∀ y, Alloc bs y → y ≠ a := by
        intro y hy e
        obtain ⟨z, hz, hza, _⟩ := hy
        apply hnd.1
        rw [hba, ← e, ← hza]
        exact List.mem_map.2 ⟨z, hz, rfl⟩
      constructor
      · rintro (h | h)
        · simp at h
        · exact ⟨hnot x h, Or.inr h⟩
      · rintro ⟨h1, h | h⟩
        · exact absurd (by rw [← h.1, hba]) h1
        · exact Or.inr h
    · rw [if_neg hba, Alloc_cons, Alloc_cons, ih x hnd.2]
      constructor
      · rintro (h | h)
        · exact ⟨by rw [← h.1]; exact hba, Or.inl h⟩
        · exact ⟨h.1, Or.inr h.2⟩
      · rintro ⟨h1, h | h⟩
        · exact Or.inl h
        · exact Or.inr ⟨h1, h⟩

theorem Alloc_splitL (n a : Nat) :
    ∀ (bs : List Blk) (x : Nat), Alloc (splitL n a bs) x ↔ Alloc bs x := by
  intro bs
  induction bs with
  | nil => intro x; rfl
  | cons b bs ih =>
    intro x
    simp only [splitL]
    split
    · split
      · rw [Alloc_cons, Alloc_cons, Alloc_cons]
        simp
      · rfl
    · rw [Alloc_cons, Alloc_cons, ih x]

theorem Alloc_append (k n : Nat) (bs : List Blk) (x : Nat) :
    Alloc (bs ++ [⟨k, n, false⟩]) x ↔ Alloc bs x ∨ x = k := by
  simp only [Alloc, List.mem_append, List.mem_singleton]
  constructor
  · rintro ⟨b, hb | hb, h1, h2⟩
    · exact Or.inl ⟨b, hb, h1, h2⟩
    · subst hb
      exact Or.inr h1.symm
  · rintro (⟨b, hb, h1, h2⟩ | h)
    · exact ⟨b, Or.inl hb, h1, h2⟩
    · exact ⟨⟨k, n, false⟩, Or.inr rfl, h.symm, rfl⟩

theorem Alloc_coal : ∀ (rest : List Blk) (cur : Blk) (x : Nat),
    Alloc (coal cur rest) x ↔ Alloc (cur :: rest) x := by
  intro rest
  induction rest with
  | nil => intro cur x; rfl
  | cons b rest ih =>
    intro cur x
    simp only [coal]
    split
    · next hc =>
      rw [ih, Alloc_cons, Alloc_cons, Alloc_cons]
      simp [hc.1, hc.2]
    · rw [Alloc_cons, ih, Alloc_cons, Alloc_cons, Alloc_cons]

theorem Alloc_coalesce (bs : List Blk) (x : Nat) : Alloc (coalesce bs) x ↔ Alloc bs x := by
  cases bs with
  | nil => rfl
  | cons b rest => exact Alloc_coal rest b x

/-- An allocated chain block keeps its size through the sweep. -/
theorem coal_alloc_mem : ∀ (rest : List Blk) (cur : Blk) (x : Blk),
    x ∈ cur :: rest → x.free = false → x ∈ coal cur rest := by
  intro rest
  induction rest with
  | nil => intro cur x hx _; exact hx
  | cons b rest ih =>
    intro cur x hx hf
    simp only [coal]
    split
    · next hc =>
      apply ih _ x _ hf
      rcases List.mem_cons.1 hx with h | h
      · subst h; rw [hc.1] at hf; cases hf
      · rcases List.mem_cons.1 h with h | h
        · subst h; rw [hc.2] at hf; cases hf
        · exact List.mem_cons_of_mem _ h
    · rcases List.mem_cons.1 hx with h | h
      · subst h; exact List.mem_cons_self _ _
      · exact List.mem_cons_of_mem _ (ih b x h hf)

/-! ## `my_free` -/

theorem Tiled_coalesce (bs : List Blk) (lo hi : Nat) (hhi : hi < WORD)
    (h : Tiled lo bs hi) : Tiled lo (coalesce bs) hi := by
  cases bs with
  | nil => exact h
  | cons b rest => exact Tiled_coal rest b lo hi hhi h

/-- The sweep on a chain state. -/
theorem merge_WF (st st' : State) (fuel b0 : Nat) (bs : List Blk) (hwf : WF st b0 bs)
    (h : merge_free_blocks fuel st = some st') :
    WF st' b0 (coalesce bs) ∧ st'.mem = st.mem ∧ st'.last_alloc = st.last_alloc ∧
      st'.brk = st.brk ∧ st'.global_base = st.global_base := by
  obtain ⟨hr, ht, hbrk⟩ := hwf
  obtain ⟨g1, g2, g3, g4, _, _⟩ := merge_loop_frame fuel st st' _ h
  have hW := WORD_eq
  have hA := ADDR_TOP_eq
  refine ⟨⟨?_, ?_, by rw [g3]; exact hbrk⟩, g4, g2, g3, g1⟩
  · rw [g1]
    cases bs with
    | nil =>
      simp only [Rep] at hr
      simp only [merge_free_blocks, hr] at h
      cases fuel with
      | zero => simp [merge_loop] at h
      | succ fuel =>
        simp only [merge_loop, Option.some.injEq] at h
        subst h
        rw [hr]
        simp [coalesce, Rep]
    | cons b rest =>
      have hgb : st.global_base = some b.addr := hr.1
      simp only [merge_free_blocks, hgb] at h
      rw [hgb] at hr ⊢
      exact (merge_loop_sound rest b st st' fuel (Tiled_nodup _ _ _ ht) hr h).1
  · rw [g3]
    exact Tiled_coalesce bs _ _ (by omega) ht

theorem merge_total (st : State) (fuel b0 : Nat) (bs : List Blk) (hwf : WF st b0 bs)
    (hl : bs.length < fuel) : ∃ st', merge_free_blocks fuel st = some st' := by
  obtain ⟨hr, ht, _⟩ := hwf
  cases bs with
  | nil =>
    simp only [Rep] at hr
    cases fuel with
    | zero => simp at hl
    | succ fuel => exact ⟨st, by simp [merge_free_blocks, hr, merge_loop]⟩
  | cons b rest =>
    have hgb : st.global_base = some b.addr := hr.1
    simp only [merge_free_blocks, hgb]
    rw [hgb] at hr
    exact merge_loop_total rest b st fuel (Tiled_nodup _ _ _ ht) hr
      (by simp only [List.length_cons] at hl; omega)

theorem WF_setFree (st : State) (b0 a : Nat) (v : Bool) (bs : List Blk) (hwf : WF st b0 bs) :
    WF (st.setFree a v) b0 (setFreeL a v bs) := by
  obtain ⟨hr, ht, hbrk⟩ := hwf
  exact ⟨Rep_setFree a v bs _ (Tiled_nodup _ _ _ ht) hr, Tiled_setFreeL a v bs _ _ ht, hbrk⟩

/-- The function `my_free` on a chain state: the block is marked free and the chain is
swept. -/
theorem my_free_WF (st st' : State) (fuel b0 p : Nat) (bs : List Blk) (hwf : WF st b0 bs)
    (h : my_free fuel st (some p) = some st') :
    WF st' b0 (coalesce (setFreeL (p - META_SIZE) true bs)) ∧ st'.mem = st.mem ∧
      st'.last_alloc = st.last_alloc ∧ st'.brk = st.brk := by
  have := merge_WF (st.setFree (p - META_SIZE) true) st' fuel b0 _
    (WF_setFree st b0 (p - META_SIZE) true bs hwf) h
  exact ⟨this.1, this.2.1, this.2.2.1, this.2.2.2.1⟩

theorem setFreeL_length (a : Nat) (v : Bool) :
    ∀ bs : List Blk, (setFreeL a v bs).length = bs.length := by
  intro bs
  have := congrArg List.length (setFreeL_addrs a v bs)
  simpa [addrs] using this

theorem my_free_total (st : State) (fuel b0 : Nat) (ptr : Option Nat) (bs : List Blk)
    (hwf : WF st b0 bs) (hl : bs.length < fuel) : ∃ st', my_free fuel st ptr = some st' := by
  cases ptr with
  | none => exact ⟨st, rfl⟩
  | some p =>
    exact merge_total (st.setFree (p - META_SIZE) true) fuel b0 _
      (WF_setFree st b0 (p - META_SIZE) true bs hwf) (by rw [setFreeL_length]; exact hl)

/-! ## The chain invariant along call sequences -/

theorem WF_of_eq (st st' : State) (b0 : Nat) (bs : List Blk)
    (e1 : st'.hdr = st.hdr) (e2 : st'.global_base = st.global_base) (e3 : st'.brk = st.brk)
    (h : WF st b0 bs) : WF st' b0 bs := by
  unfold WF at *
  rw [e1, e2, e3]
  exact h

theorem extHdr_none (h : Nat → block_meta) (k n : Nat) :
    extHdr h k n none = upd h k ⟨n, false, none⟩ := rfl

theorem extHdr_some (h : Nat → block_meta) (k n l : Nat) :
    extHdr h k n (some l) = upd (upd h k ⟨n, false, none⟩) l
      { (upd h k ⟨n, false, none⟩) l with next := some k } := rfl

theorem SizeOK_sbrk (n : Nat) (hn : SizeOK n) :
    to_intptr ((n + META_SIZE) % WORD) = ((n + META_SIZE : Nat) : Int) := by
  have hW := WORD_eq
  have hA := ADDR_TOP_eq
  unfold SizeOK at hn
  rw [Nat.mod_eq_of_lt (by omega)]
  exact to_intptr_small _ hn

/-- The function `my_malloc` with first fit or best fit keeps the chain invariant and the
live pointers in step with the chain. -/
theorem malloc_step (cfg : Config) (fuel : Nat) (st st' : State) (b0 n : Nat)
    (r : Option Nat) (bs : List Blk) (live : List Nat)
    (hs : cfg.ALLOC_STRATEGY ≠ 3) (hwf : WF st b0 bs) (hla : st.last_alloc = none)
    (hlive : LiveOK bs live) (hn : SizeOK n)
    (h : my_malloc cfg fuel st n = some (st', r)) :
    ∃ bs', WF st' b0 bs' ∧ st'.last_alloc = none ∧ LiveOK bs' (addPtr r live) ∧
      st'.mem = st.mem ∧
      (∀ a, Alloc bs a → Alloc bs' a ∧ (st'.hdr a).size = (st.hdr a).size ∧
        (st'.hdr a).free = (st.hdr a).free) ∧
      (∀ q, r = some q → q ∉ live ∧ META_SIZE ≤ q ∧
        (st'.hdr (q - META_SIZE)).free = false ∧ n ≤ (st'.hdr (q - META_SIZE)).size) := by
  by_cases hn0 : n = 0
  · subst hn0
    simp only [my_malloc, if_true, Option.some.injEq, Prod.mk.injEq] at h
    obtain ⟨e1, e2⟩ := h
    subst e1
    subst e2
    exact ⟨bs, hwf, hla, hlive, rfl, fun a ha => ⟨ha, rfl, rfl⟩, by simp⟩
  obtain ⟨st1, blk, l, hf, hcase⟩ := my_malloc_cases cfg fuel st st' n r hn0 h
  obtain ⟨f1, f2, f3, f4, _, f6, _⟩ := find_free_block_res cfg fuel st st1 _ blk l n hf
  have hst1 := f6 hs
  subst hst1
  have hM := META_SIZE_eq
  rcases hcase with ⟨a, hb, hst', hr⟩ | ⟨hb, hr, hst', _⟩ | ⟨hb, hr, hmem, hla', hg, hbrk, hh⟩
  · subst hb
    have hcur : CursorOK st1 bs := by
      intro c hc
      rw [hla] at hc
      cases hc
    obtain ⟨b, hbm, hba, hbf, hbn⟩ := find_free_block_mem cfg fuel st1 st1 _ l a n bs hwf.1 hcur hf
    have hwf' := hit_WF st1 st1 b0 a n bs b hwf hbm hba hbn rfl rfl rfl
    obtain ⟨g1, g2, g3, g4⟩ := split_block_frame (st1.setFree a false) a n
    rw [← hst'] at hwf' g1 g2 g3 g4
    have hnotA : ¬ Alloc bs a := by
      rintro ⟨y, hy, hya, hyf⟩
      have : y = b := Tiled_addr_inj bs _ _ hwf.2.1 y b hy hbm (by rw [hya, hba])
      subst this
      rw [hbf] at hyf
      cases hyf
    have hAnew : Alloc (splitL n a (setFreeL a false bs)) a := by
      rw [Alloc_splitL, Alloc_setFreeL_false a bs a (mem_addrs.2 ⟨b, hbm, hba⟩)]
      exact Or.inl rfl
    refine ⟨_, hwf', by rw [g2]; exact hla, ?_, g4, ?_, ?_⟩
    rotate_left 2
    · intro q hq
      rw [hr] at hq
      simp only [Option.some.injEq] at hq
      subst hq
      refine ⟨?_, by omega, ?_⟩
      · intro hin
        obtain ⟨x, hx, hxq⟩ := (hlive _).1 hin
        have : x = a := by omega
        subst this
        exact hnotA hx
      · have e : a + META_SIZE - META_SIZE = a := by omega
        rw [e]
        obtain ⟨y, hy, hya, hyf⟩ := hAnew
        obtain ⟨e1, e2⟩ := Rep_mem _ _ hwf'.1 y hy
        rw [hya] at e1 e2
        refine ⟨by rw [e2]; exact hyf, ?_⟩
        rw [e1]
        -- the block at `a` after the split has size `n` or its old size
        have hsz : ∀ z ∈ splitL n a (setFreeL a false bs), z.addr = a → n ≤ z.size := by
          have : ∀ (l : List Blk), (∀ z ∈ l, z.addr = a → n ≤ z.size) →
              ∀ z ∈ splitL n a l, z.addr = a → n ≤ z.size := by
            intro l
            induction l with
            | nil => intro _ z hz; cases hz
            | cons c l ih =>
              intro hl z hz hza
              simp only [splitL] at hz
              split at hz
              · split at hz
                · rcases List.mem_cons.1 hz with h1 | h1
                  · subst h1; exact Nat.le_refl _
                  · rcases List.mem_cons.1 h1 with h2 | h2
                    · subst h2
                      simp only at hza
                      omega
                    · exact hl z (List.mem_cons_of_mem _ h2) hza
                · exact hl z hz hza
              · rcases List.mem_cons.1 hz with h1 | h1
                · subst h1; exact hl z (List.mem_cons_self _ _) hza
                · exact ih (fun w hw => hl w (List.mem_cons_of_mem _ hw)) z h1 hza
          apply this
          intro z hz hza
          obtain ⟨w, hw, h1, h2⟩ := setFreeL_mem a false bs z hz
          have : w = b := Tiled_addr_inj bs _ _ hwf.2.1 w b hw hbm (by rw [h1, hza, hba])
          subst this
          rw [← h2]
          exact hbn
        exact hsz y hy hya
    · subst hr
      intro q
      simp only [addPtr, List.mem_cons]
      rw [hlive q]
      constructor
      · rintro (h1 | ⟨x, hx, hq⟩)
        · refine ⟨a, ?_, h1⟩
          rw [Alloc_splitL, Alloc_setFreeL_false a bs a (mem_addrs.2 ⟨b, hbm, hba⟩)]
          exact Or.inl rfl
        · refine ⟨x, ?_, hq⟩
          rw [Alloc_splitL, Alloc_setFreeL_false a bs x (mem_addrs.2 ⟨b, hbm, hba⟩)]
          exact Or.inr hx
      · rintro ⟨x, hx, hq⟩
        rw [Alloc_splitL, Alloc_setFreeL_false a bs x (mem_addrs.2 ⟨b, hbm, hba⟩)] at hx
        rcases hx with h1 | h1
        · subst h1; exact Or.inl hq
        · exact Or.inr ⟨x, h1, hq⟩
    · intro x hx
      refine ⟨?_, ?_⟩
      · rw [Alloc_splitL, Alloc_setFreeL_false a bs x (mem_addrs.2 ⟨b, hbm, hba⟩)]
        exact Or.inr hx
      · obtain ⟨y, hy, hya, hyf⟩ := hx
        have hyb : y ≠ b := by
          intro e2
          subst e2
          rw [hbf] at hyf
          cases hyf
        have hxa : x ≠ a := by
          intro e
          exact hyb (Tiled_addr_inj bs _ _ hwf.2.1 y b hy hbm (by rw [hya, e, hba]))
        have hsf : (st1.setFree a false).hdr x = st1.hdr x := by
          rw [setFree_hdr]
          exact upd_other _ _ _ _ hxa
        have hkeep : st'.hdr x = st1.hdr x := by
          rw [hst']
          by_cases hc : (n + META_SIZE + 8) % WORD ≤ ((st1.setFree a false).hdr a).size
          · rw [split_block_hdr _ a n hc, upd_other _ _ _ _ hxa]
            have hxn : x ≠ a + META_SIZE + n := by
              intro e
              -- the split point lies strictly inside the block `b`
              have hb1 := Tiled_mem _ _ _ hwf.2.1 b hbm
              have hsz : ((st1.setFree a false).hdr a).size = b.size := by
                rw [setFree_hdr, upd_same, ← hba]
                exact (Rep_mem bs _ hwf.1 b hbm).1
              have hW := WORD_eq
              have hA := ADDR_TOP_eq
              have hbk := hwf.2.2
              rw [hsz, Nat.mod_eq_of_lt (by omega)] at hc
              rcases pairwise_sep bs (Tiled_pairwise bs _ _ hwf.2.1) y b hy hbm hyb
                with h1 | h1
              · omega
              · omega
            rw [upd_other _ _ _ _ hxn]
            exact hsf
          · rw [split_block_hdr_no _ a n hc]
            exact hsf
        rw [hkeep]
        exact ⟨rfl, rfl⟩
  · subst hst'
    subst hr
    exact ⟨bs, hwf, hla, hlive, rfl, fun a ha => ⟨ha, rfl, rfl⟩, by simp⟩
  · subst hb
    obtain ⟨hl, hnofit⟩ := find_free_block_miss cfg fuel st1 st1 _ l n bs hs hwf.1 hf
    obtain ⟨s1, hsb, hb2⟩ := hbrk
    rw [SizeOK_sbrk n hn] at hsb
    obtain ⟨_, q2, q3⟩ := sbrk_some cfg st1 s1 (n + META_SIZE) st1.brk hsb
    have hbrk' : st'.brk = st1.brk + META_SIZE + n := by
      rw [hb2, q2]
      show st1.brk + (n + META_SIZE) = _
      omega
    have hwf' := extend_WF st1 st' b0 n bs l hwf hl hbrk' (by omega) hg hh
    have hk : ∀ x, Alloc bs x → x ≠ st1.brk := by
      intro x hx e
      obtain ⟨y, hy, hya, _⟩ := hx
      have := (Tiled_mem _ _ _ hwf.2.1 y hy).2
      omega
    refine ⟨_, hwf', by rw [hla']; exact hla, ?_, hmem, ?_, ?_⟩
    rotate_left 2
    · intro q hq
      rw [hr] at hq
      simp only [Option.some.injEq] at hq
      subst hq
      refine ⟨?_, by omega, ?_⟩
      · intro hin
        obtain ⟨x, hx, hxq⟩ := (hlive _).1 hin
        have : x = st1.brk := by omega
        exact hk x hx this
      · have e : st1.brk + META_SIZE - META_SIZE = st1.brk := by omega
        rw [e]
        have hA : Alloc (bs ++ [⟨st1.brk, n, false⟩]) st1.brk :=
          (Alloc_append _ _ _ _).2 (Or.inr rfl)
        have hin : (⟨st1.brk, n, false⟩ : Blk) ∈ bs ++ [⟨st1.brk, n, false⟩] := by simp
        obtain ⟨e1, e2⟩ := Rep_mem _ _ hwf'.1 _ hin
        exact ⟨e2, by rw [e1]⟩
    · subst hr
      intro q
      simp only [addPtr, List.mem_cons]
      rw [hlive q]
      constructor
      · rintro (h1 | ⟨x, hx, hq⟩)
        · exact ⟨st1.brk, (Alloc_append _ _ _ _).2 (Or.inr rfl), h1⟩
        · exact ⟨x, (Alloc_append _ _ _ _).2 (Or.inl hx), hq⟩
      · rintro ⟨x, hx, hq⟩
        rcases (Alloc_append _ _ _ _).1 hx with h1 | h1
        · exact Or.inr ⟨x, h1, hq⟩
        · subst h1; exact Or.inl hq
    · intro x hx
      refine ⟨(Alloc_append _ _ _ _).2 (Or.inl hx), ?_⟩
      -- only the `next` link of the tail and the new header are written
      have hne := hk x hx
      obtain ⟨l0, hl0⟩ : ∃ l0, st'.hdr = extHdr st1.hdr st1.brk n l0 := ⟨_, hh⟩
      rw [hl0]
      cases l0 with
      | none =>
        rw [extHdr_none, upd_other _ _ _ _ hne]
        exact ⟨rfl, rfl⟩
      | some l1 =>
        rw [extHdr_some]
        by_cases hxl : x = l1
        · subst hxl
          rw [upd_same, upd_other _ _ _ _ hne]
          exact ⟨rfl, rfl⟩
        · rw [upd_other _ _ _ _ hxl, upd_other _ _ _ _ hne]
          exact ⟨rfl, rfl⟩

theorem LiveOK_drop (bs : List Blk) (live : List Nat) (p : Nat) (hnd : (addrs bs).Nodup)
    (hlive : LiveOK bs live) (hp : p ∈ live) :
    LiveOK (coalesce (setFreeL (p - META_SIZE) true bs)) (dropPtr (some p) live) := by
  have hM := META_SIZE_eq
  obtain ⟨a0, _, hpa⟩ := (hlive p).1 hp
  intro q
  simp only [dropPtr, List.mem_filter, bne_iff_ne, ne_eq]
  rw [hlive q]
  constructor
  · rintro ⟨⟨a, ha, hq⟩, hne⟩
    refine ⟨a, ?_, hq⟩
    rw [Alloc_coalesce, Alloc_setFreeL_true _ bs a hnd]
    exact ⟨by omega, ha⟩
  · rintro ⟨a, ha, hq⟩
    rw [Alloc_coalesce, Alloc_setFreeL_true _ bs a hnd] at ha
    exact ⟨⟨a, ha.2, hq⟩, by have := ha.1; omega⟩

/-- The function `my_free` keeps the chain invariant and the live pointers in step. -/
theorem free_step (fuel : Nat) (st st' : State) (b0 : Nat) (ptr : Option Nat)
    (bs : List Blk) (live : List Nat) (hwf : WF st b0 bs) (hla : st.last_alloc = none)
    (hlive : LiveOK bs live) (hp : ∀ p, ptr = some p → p ∈ live)
    (h : my_free fuel st ptr = some st') :
    ∃ bs', WF st' b0 bs' ∧ st'.last_alloc = none ∧ LiveOK bs' (dropPtr ptr live) ∧
      st'.mem = st.mem := by
  cases ptr with
  | none =>
    simp only [my_free, Option.some.injEq] at h
    subst h
    exact ⟨bs, hwf, hla, hlive, rfl⟩
  | some p =>
    obtain ⟨g1, g2, g3, _⟩ := my_free_WF st st' fuel b0 p bs hwf h
    exact ⟨_, g1, by rw [g3]; exact hla,
      LiveOK_drop bs live p (Tiled_nodup _ _ _ hwf.2.1) hlive (hp p rfl), g2⟩

/-- The function `split_block` of a chain block, for a size the block can hold, keeps the
chain invariant. -/
theorem split_WF (st : State) (b0 a n : Nat) (bs : List Blk) (b : Blk)
    (hwf : WF st b0 bs) (hb : b ∈ bs) (hba : b.addr = a) (hnb : n ≤ b.size) :
    WF (split_block st a n) b0 (splitL n a bs) := by
  obtain ⟨hr, ht, hbrk⟩ := hwf
  obtain ⟨f1, _, f3, _⟩ := split_block_frame st a n
  have hfit : ∀ x ∈ bs, x.addr = a → n ≤ x.size := by
    intro x hx hxa
    have : x = b := Tiled_addr_inj bs _ _ ht x b hx hb (by rw [hxa, hba])
    subst this
    exact hnb
  refine ⟨?_, ?_, ?_⟩
  · rw [f1]
    exact Rep_split st a n bs _ b0 st.brk ht hbrk (mem_addrs.2 ⟨b, hb, hba⟩) hfit hr
  · rw [f3]
    exact Tiled_splitL n a bs _ _ ht
  · rw [f3]
    exact hbrk

theorem calloc_step (cfg : Config) (fuel : Nat) (st st' : State) (b0 nmemb size : Nat)
    (r : Option Nat) (bs : List Blk) (live : List Nat)
    (hs : cfg.ALLOC_STRATEGY ≠ 3) (hwf : WF st b0 bs) (hla : st.last_alloc = none)
    (hlive : LiveOK bs live) (hn : SizeOK ((nmemb * size) % WORD))
    (h : my_calloc cfg fuel st nmemb size = some (st', r)) :
    ∃ bs', WF st' b0 bs' ∧ st'.last_alloc = none ∧ LiveOK bs' (addPtr r live) := by
  unfold my_calloc at h
  simp only at h
  cases hm : my_malloc cfg fuel st ((nmemb * size) % WORD) with
  | none => rw [hm] at h; simp at h
  | some res =>
    obtain ⟨st1, r1⟩ := res
    rw [hm] at h
    obtain ⟨bs', g1, g2, g3, _⟩ := malloc_step cfg fuel st st1 b0 _ r1 bs live hs hwf hla hlive hn hm
    cases r1 with
    | none =>
      simp only [Option.some.injEq, Prod.mk.injEq] at h
      obtain ⟨e1, e2⟩ := h
      subst e1
      subst e2
      exact ⟨bs', g1, g2, g3⟩
    | some p =>
      simp only [Option.some.injEq, Prod.mk.injEq] at h
      obtain ⟨e1, e2⟩ := h
      subst e1
      subst e2
      exact ⟨bs', WF_of_eq st1 _ b0 bs' rfl rfl rfl g1, g2, g3⟩

theorem realloc_step (cfg : Config) (fuel : Nat) (st st' : State) (b0 n : Nat)
    (ptr r : Option Nat) (bs : List Blk) (live : List Nat)
    (hs : cfg.ALLOC_STRATEGY ≠ 3) (hwf : WF st b0 bs) (hla : st.last_alloc = none)
    (hlive : LiveOK bs live) (hp : ∀ p, ptr = some p → p ∈ live) (hn : SizeOK n)
    (h : my_realloc cfg fuel st ptr n = some (st', r)) :
    ∃ bs', WF st' b0 bs' ∧ st'.last_alloc = none ∧ LiveOK bs' (resizePtr ptr r live) := by
  have hM := META_SIZE_eq
  cases ptr with
  | none =>
    simp only [my_realloc] at h
    obtain ⟨bs', g1, g2, g3, _⟩ := malloc_step cfg fuel st st' b0 n r bs live hs hwf hla hlive hn h
    refine ⟨bs', g1, g2, ?_⟩
    cases r <;> exact g3
  | some p =>
    have hpl := hp p rfl
    obtain ⟨a, ⟨b, hb, hba, hbf⟩, hpa⟩ := (hlive p).1 hpl
    have hPa : p - META_SIZE = a := by omega
    simp only [my_realloc, hPa] at h
    obtain ⟨hbs, _⟩ := Rep_mem bs _ hwf.1 b hb
    rw [hba] at hbs
    by_cases hle : n ≤ (st.hdr a).size
    · rw [if_pos hle] at h
      simp only [Option.some.injEq, Prod.mk.injEq] at h
      obtain ⟨e1, e2⟩ := h
      subst e1
      subst e2
      have hwf' := split_WF st b0 a n bs b hwf hb hba (by rw [← hbs]; exact hle)
      refine ⟨_, hwf', ?_, ?_⟩
      · rw [(split_block_frame st a n).2.1]; exact hla
      · intro q
        simp only [resizePtr, List.mem_cons, dropPtr, List.mem_filter, bne_iff_ne, ne_eq]
        constructor
        · rintro (h1 | ⟨h1, _⟩)
          · subst h1
            exact ⟨a, (Alloc_splitL n a bs a).2 ⟨b, hb, hba, hbf⟩, hpa⟩
          · obtain ⟨x, hx, hq⟩ := (hlive q).1 h1
            exact ⟨x, (Alloc_splitL n a bs x).2 hx, hq⟩
        · rintro ⟨x, hx, hq⟩
          by_cases hqp : q = p
          · exact Or.inl hqp
          · exact Or.inr ⟨(hlive q).2 ⟨x, (Alloc_splitL n a bs x).1 hx, hq⟩, hqp⟩
    · rw [if_neg hle] at h
      cases hm : my_malloc cfg fuel st n with
      | none => rw [hm] at h; simp at h
      | some res =>
        obtain ⟨st1, r1⟩ := res
        rw [hm] at h
        obtain ⟨bs1, g1, g2, g3, _, _, g6⟩ :=
          malloc_step cfg fuel st st1 b0 n r1 bs live hs hwf hla hlive hn hm
        cases r1 with
        | none =>
          simp only [Option.some.injEq, Prod.mk.injEq] at h
          obtain ⟨e1, e2⟩ := h
          subst e1
          subst e2
          exact ⟨bs1, g1, g2, g3⟩
        | some q =>
          simp only at h
          cases hfr : my_free fuel { st1 with mem := memcpy st1.mem q p (st1.hdr a).size }
              (some p) with
          | none => rw [hfr] at h; simp at h
          | some st3 =>
            rw [hfr] at h
            simp only [Option.some.injEq, Prod.mk.injEq] at h
            obtain ⟨e1, e2⟩ := h
            subst e1
            subst e2
            have hq := (g6 q rfl).1
            have hwf2 : WF { st1 with mem := memcpy st1.mem q p (st1.hdr a).size } b0 bs1 :=
              WF_of_eq st1 _ b0 bs1 rfl rfl rfl g1
            obtain ⟨bs3, k1, k2, k3, _⟩ := free_step fuel _ st3 b0 (some p) bs1 (q :: live)
              hwf2 g2 g3 (by
                intro p' hp'
                simp only [Option.some.injEq] at hp'
                subst hp'
                exact List.mem_cons_of_mem _ hpl) hfr
            refine ⟨bs3, k1, k2, ?_⟩
            intro x
            rw [← k3 x]
            simp only [resizePtr, dropPtr, List.mem_filter, List.mem_cons, bne_iff_ne, ne_eq]
            constructor
            · rintro (h1 | ⟨h1, h2⟩)
              · subst h1
                exact ⟨Or.inl rfl, fun e => hq (e ▸ hpl)⟩
              · exact ⟨Or.inr h1, h2⟩
            · rintro ⟨h1 | h1, h2⟩
              · exact Or.inl h1
              · exact Or.inr ⟨h1, h2⟩

/-- Along every call sequence with first fit or best fit the chain from
`global_base` tiles the arena and the live pointers are the payloads of its
allocated blocks. -/
theorem reach_inv (cfg : Config) (b0 : Nat) (st : State) (live : List Nat)
    (hs : cfg.ALLOC_STRATEGY ≠ 3) (hR : Reach SizeOK cfg b0 st live) :
    ∃ bs, WF st b0 bs ∧ st.last_alloc = none ∧ LiveOK bs live := by
  induction hR with
  | start h m hb =>
    refine ⟨[], ⟨rfl, rfl, hb⟩, rfl, ?_⟩
    intro q
    simp [Alloc]
  | allocate fuel n st' r _ hn h ih =>
    obtain ⟨bs, g1, g2, g3⟩ := ih
    obtain ⟨bs', k1, k2, k3, _⟩ := malloc_step cfg fuel _ st' b0 n r bs _ hs g1 g2 g3 hn h
    exact ⟨bs', k1, k2, k3⟩
  | zero_allocate fuel nmemb size st' r _ hn h ih =>
    obtain ⟨bs, g1, g2, g3⟩ := ih
    exact calloc_step cfg fuel _ st' b0 nmemb size r bs _ hs g1 g2 g3 hn h
  | resize fuel ptr n st' r _ hp hn h ih =>
    obtain ⟨bs, g1, g2, g3⟩ := ih
    exact realloc_step cfg fuel _ st' b0 n ptr r bs _ hs g1 g2 g3 hp hn h
  | release fuel ptr st' _ hp h ih =>
    obtain ⟨bs, g1, g2, g3⟩ := ih
    obtain ⟨bs', k1, k2, k3, _⟩ := free_step fuel _ st' b0 ptr bs _ g1 g2 g3 hp h
    exact ⟨bs', k1, k2, k3⟩
  | store m _ _ ih =>
    obtain ⟨bs, g1, g2, g3⟩ := ih
    exact ⟨bs, WF_of_eq _ _ b0 bs rfl rfl rfl g1, g2, g3⟩

/-- In a chain state the payloads of the allocated blocks lie in the arena
and do not overlap. -/
theorem WF_payloads (st : State) (b0 : Nat) (bs : List Blk) (live : List Nat)
    (hwf : WF st b0 bs) (hlive : LiveOK bs live) : PayloadsOK st b0 live := by
  have hM := META_SIZE_eq
  have key : ∀ p ∈ live, ∃ b ∈ bs, p = b.addr + META_SIZE ∧
      (st.hdr (p - META_SIZE)).size = b.size := by
    intro p hp
    obtain ⟨a, ⟨b, hb, hba, _⟩, hpa⟩ := (hlive p).1 hp
    refine ⟨b, hb, by rw [hba]; exact hpa, ?_⟩
    have : p - META_SIZE = b.addr := by omega
    rw [this]
    exact (Rep_mem bs _ hwf.1 b hb).1
  constructor
  · intro p hp
    obtain ⟨b, hb, e1, e2⟩ := key p hp
    have := Tiled_mem _ _ _ hwf.2.1 b hb
    omega
  · intro p hp q hq hne
    obtain ⟨b, hb, e1, e2⟩ := key p hp
    obtain ⟨c, hc, f1, f2⟩ := key q hq
    have hbc : b ≠ c := by
      intro e
      subst e
      exact hne (e1.trans f1.symm)
    rcases pairwise_sep bs (Tiled_pairwise bs _ _ hwf.2.1) b c hb hc hbc with h1 | h1
    · left; omega
    · right; omega

/-! ## What `my_malloc` returns, and what it leaves alone -/

/-- Any state, any strategy: a pointer returned by `my_malloc(n)` is the
payload of a header that is now marked allocated and holds at least `n`
bytes; payload bytes are not written. -/
theorem malloc_result (cfg : Config) (fuel : Nat) (st st' : State) (n q : Nat)
    (h : my_malloc cfg fuel st n = some (st', some q)) :
    META_SIZE ≤ q ∧ (st'.hdr (q - META_SIZE)).free = false ∧
      n ≤ (st'.hdr (q - META_SIZE)).size ∧ st'.mem = st.mem := by
  have hM := META_SIZE_eq
  have hn0 : n ≠ 0 := by
    intro e
    subst e
    simp [my_malloc] at h
  obtain ⟨st1, blk, l, hf, hcase⟩ := my_malloc_cases cfg fuel st st' n (some q) hn0 h
  obtain ⟨f1, _, _, f4, _, _, f7⟩ := find_free_block_res cfg fuel st st1 _ blk l n hf
  rcases hcase with ⟨a, hb, hst', hr⟩ | ⟨_, hr, _, _⟩ | ⟨_, hr, hmem, _, _, _, hh⟩
  · simp only [Option.some.injEq] at hr
    subst hr
    obtain ⟨k1, k2, _⟩ := f7 a hb
    have e : a + META_SIZE - META_SIZE = a := by omega
    rw [e, hst']
    refine ⟨by omega, ?_, ?_, ?_⟩
    · by_cases hc : (n + META_SIZE + 8) % WORD ≤ ((st1.setFree a false).hdr a).size
      · rw [split_block_hdr _ a n hc, upd_same]
        simp [setFree_hdr]
      · rw [split_block_hdr_no _ a n hc]
        simp [setFree_hdr]
    · by_cases hc : (n + META_SIZE + 8) % WORD ≤ ((st1.setFree a false).hdr a).size
      · rw [split_block_hdr _ a n hc, upd_same]
      · rw [split_block_hdr_no _ a n hc]
        simp only [setFree_hdr, upd_same, f1]
        exact k2
    · rw [(split_block_frame _ a n).2.2.2]
      exact f4
  · cases hr
  · simp only [Option.some.injEq] at hr
    subst hr
    have e : st.brk + META_SIZE - META_SIZE = st.brk := by omega
    rw [e]
    obtain ⟨l0, hl0⟩ : ∃ l0, st'.hdr = extHdr st.hdr st.brk n l0 := ⟨_, hh⟩
    rw [hl0]
    refine ⟨by omega, ?_, ?_, hmem⟩
    · cases l0 with
      | none => rw [extHdr_none, upd_same]
      | some l1 =>
        rw [extHdr_some]
        by_cases hl : st.brk = l1
        · subst hl; rw [upd_same, upd_same]
        · rw [upd_other _ _ _ _ hl, upd_same]
    · cases l0 with
      | none => rw [extHdr_none, upd_same]
      | some l1 =>
        rw [extHdr_some]
        by_cases hl : st.brk = l1
        · subst hl; rw [upd_same, upd_same]
        · rw [upd_other _ _ _ _ hl, upd_same]

/-- On a chain state, any strategy: `my_malloc` never returns an allocated
chain block, and leaves the size and the flag of every allocated chain block
as they are. -/
theorem malloc_frame (cfg : Config) (fuel : Nat) (st st' : State) (b0 n : Nat)
    (r : Option Nat) (bs : List Blk) (hwf : WF st b0 bs) (hcur : CursorOK st bs)
    (h : my_malloc cfg fuel st n = some (st', r)) :
    (∀ x, Alloc bs x → (st'.hdr x).size = (st.hdr x).size ∧ (st'.hdr x).free = false) ∧
    (∀ q, r = some q → ¬ Alloc bs (q - META_SIZE)) := by
  have hM := META_SIZE_eq
  have hold : ∀ x, Alloc bs x → (st.hdr x).free = false := by
    rintro x ⟨y, hy, hya, hyf⟩
    rw [← hya, (Rep_mem bs _ hwf.1 y hy).2]
    exact hyf
  by_cases hn0 : n = 0
  · subst hn0
    simp only [my_malloc, if_true, Option.some.injEq, Prod.mk.injEq] at h
    obtain ⟨e1, e2⟩ := h
    subst e1
    subst e2
    exact ⟨fun x hx => ⟨rfl, hold x hx⟩, by simp⟩
  obtain ⟨st1, blk, l, hf, hcase⟩ := my_malloc_cases cfg fuel st st' n r hn0 h
  obtain ⟨f1, _, _, _, _, _, _⟩ := find_free_block_res cfg fuel st st1 _ blk l n hf
  rcases hcase with ⟨a, hb, hst', hr⟩ | ⟨_, hr, hst', _⟩ | ⟨_, hr, _, _, _, _, hh⟩
  · subst hb
    obtain ⟨b, hbm, hba, hbf, hbn⟩ := find_free_block_mem cfg fuel st st1 _ l a n bs hwf.1 hcur hf
    have hnotA : ¬ Alloc bs a := by
      rintro ⟨y, hy, hya, hyf⟩
      have : y = b := Tiled_addr_inj bs _ _ hwf.2.1 y b hy hbm (by rw [hya, hba])
      subst this
      rw [hbf] at hyf
      cases hyf
    refine ⟨?_, ?_⟩
    · intro x hx
      have hfx := hold x hx
      obtain ⟨y, hy, hya, hyf⟩ := hx
      have hyb : y ≠ b := by
        intro e2
        subst e2
        rw [hbf] at hyf
        cases hyf
      have hxa : x ≠ a := by
        intro e
        exact hyb (Tiled_addr_inj bs _ _ hwf.2.1 y b hy hbm (by rw [hya, e, hba]))
      have hsf : (st1.setFree a false).hdr x = st.hdr x := by
        rw [setFree_hdr, upd_other _ _ _ _ hxa, f1]
      have hkeep : st'.hdr x = st.hdr x := by
        rw [hst']
        by_cases hc : (n + META_SIZE + 8) % WORD ≤ ((st1.setFree a false).hdr a).size
        · rw [split_block_hdr _ a n hc, upd_other _ _ _ _ hxa]
          have hxn : x ≠ a + META_SIZE + n := by
            intro e
            have hb1 := Tiled_mem _ _ _ hwf.2.1 b hbm
            have hsz : ((st1.setFree a false).hdr a).size = b.size := by
              rw [setFree_hdr, upd_same, f1, ← hba]
              exact (Rep_mem bs _ hwf.1 b hbm).1
            have hW := WORD_eq
            have hA := ADDR_TOP_eq
            have hbk := hwf.2.2
            rw [hsz, Nat.mod_eq_of_lt (by omega)] at hc
            rcases pairwise_sep bs (Tiled_pairwise bs _ _ hwf.2.1) y b hy hbm hyb
              with h1 | h1
            · omega
            · omega
          rw [upd_other _ _ _ _ hxn]
          exact hsf
        · rw [split_block_hdr_no _ a n hc]
          exact hsf
      rw [hkeep]
      exact ⟨rfl, hfx⟩
    · intro q hq
      rw [hr] at hq
      simp only [Option.some.injEq] at hq
      subst hq
      have e : a + META_SIZE - META_SIZE = a := by omega
      rw [e]
      exact hnotA
  · subst hst'
    subst hr
    exact ⟨fun x hx => ⟨rfl, hold x hx⟩, by simp⟩
  · have hk : ∀ x, Alloc bs x → x ≠ st.brk := by
      intro x hx e
      obtain ⟨y, hy, hya, _⟩ := hx
      have := (Tiled_mem _ _ _ hwf.2.1 y hy).2
      omega
    refine ⟨?_, ?_⟩
    · intro x hx
      have hne := hk x hx
      have hfx := hold x hx
      obtain ⟨l0, hl0⟩ : ∃ l0, st'.hdr = extHdr st.hdr st.brk n l0 := ⟨_, hh⟩
      rw [hl0]
      cases l0 with
      | none =>
        rw [extHdr_none, upd_other _ _ _ _ hne]
        exact ⟨rfl, hfx⟩
      | some l1 =>
        rw [extHdr_some]
        by_cases hxl : x = l1
        · subst hxl
          rw [upd_same, upd_other _ _ _ _ hne]
          exact ⟨rfl, hfx⟩
        · rw [upd_other _ _ _ _ hxl, upd_other _ _ _ _ hne]
          exact ⟨rfl, hfx⟩
    · intro q hq
      rw [hr] at hq
      simp only [Option.some.injEq] at hq
      subst hq
      have e : st.brk + META_SIZE - META_SIZE = st.brk := by omega
      rw [e]
      intro hA
      exact hk _ hA rfl

/-! ## Fixed point of the sweep -/

theorem coal_length : ∀ (rest : List Blk) (cur : Blk),
    (coal cur rest).length ≤ rest.length + 1 := by
  intro rest
  induction rest with
  | nil => intro cur; simp [coal]
  | cons b rest ih =>
    intro cur
    simp only [coal]
    split
    · have := ih { cur with size := (cur.size + (META_SIZE + b.size) % WORD) % WORD }
      simp only [List.length_cons]
      omega
    · have := ih b
      simp only [List.length_cons]
      omega

theorem coalesce_length (bs : List Blk) : (coalesce bs).length ≤ bs.length := by
  cases bs with
  | nil => simp [coalesce]
  | cons b rest => exact coal_length rest b

/-- On a chain without two free neighbours the sweep writes nothing. -/
theorem merge_loop_fix :
    ∀ (rest : List Blk) (cur : Blk) (st : State) (fuel : Nat),
      Rep st.hdr (cur :: rest) (some cur.addr) → NoAdjFree (cur :: rest) →
      rest.length < fuel → merge_loop fuel st (some cur.addr) = some st := by
  intro rest
  induction rest with
  | nil =>
    intro cur st fuel hr _ hl
    cases fuel with
    | zero => simp at hl
    | succ fuel =>
      obtain ⟨_, _, _, hn⟩ := hr
      simp only [Rep] at hn
      simp [merge_loop, hn]
  | cons b rest ih =>
    intro cur st fuel hr hna hl
    cases fuel with
    | zero => simp at hl
    | succ fuel =>
      obtain ⟨_, hs, hf, hn⟩ := hr
      obtain ⟨hnb, hbs, hbf, hbn⟩ := hn
      simp only [merge_loop, hnb]
      rw [if_neg (by rw [hf, hbf]; exact hna.1)]
      exact ih b st fuel ⟨rfl, hbs, hbf, hbn⟩ hna.2 (by simpa using hl)

theorem coal_fix : ∀ (rest : List Blk) (cur : Blk), NoAdjFree (cur :: rest) →
    coal cur rest = cur :: rest := by
  intro rest
  induction rest with
  | nil => intro cur _; rfl
  | cons b rest ih =>
    intro cur h
    simp only [coal]
    rw [if_neg h.1, ih b h.2]

theorem coalesce_noadj (bs : List Blk) : NoAdjFree (coalesce bs) := by
  cases bs with
  | nil => trivial
  | cons b rest => exact coal_noadj b rest

theorem coalesce_fix (bs : List Blk) (h : NoAdjFree bs) : coalesce bs = bs := by
  cases bs with
  | nil => rfl
  | cons b rest => exact coal_fix rest b h

/-- The sweep on any finite chain without repeated blocks: it returns, the
chain it leaves is the coalesced chain, and a second sweep writes nothing. -/
theorem sweep_chain (fuel : Nat) (s : State) (bs : List Blk)
    (hr : Rep s.hdr bs s.global_base) (hnd : (addrs bs).Nodup) (hl : bs.length < fuel) :
    ∃ s', merge_free_blocks fuel s = some s' ∧ Rep s'.hdr (coalesce bs) s'.global_base ∧
      merge_free_blocks fuel s' = some s' := by
  cases bs with
  | nil =>
    simp only [Rep] at hr
    cases fuel with
    | zero => simp at hl
    | succ fuel =>
      have : merge_free_blocks (fuel + 1) s = some s := by
        simp [merge_free_blocks, hr, merge_loop]
      exact ⟨s, this, hr, this⟩
  | cons c rest =>
    have hgb : s.global_base = some c.addr := hr.1
    have hl2 : rest.length < fuel := by
      simp only [List.length_cons] at hl; omega
    rw [hgb] at hr
    obtain ⟨s', hs'⟩ := merge_loop_total rest c s fuel hnd hr hl2
    obtain ⟨k1, _⟩ := merge_loop_sound rest c s s' fuel hnd hr hs'
    obtain ⟨g1, _⟩ := merge_loop_frame fuel s s' _ hs'
    refine ⟨s', by simp only [merge_free_blocks, hgb]; exact hs', ?_, ?_⟩
    · rw [g1, hgb]; exact k1
    · simp only [merge_free_blocks, g1, hgb]
      obtain ⟨sz, tl, he⟩ := coal_head c rest
      have hna := coal_noadj c rest
      have hlen := coal_length rest c
      rw [he] at k1 hna hlen
      have := merge_loop_fix tl ⟨c.addr, sz, c.free⟩ s' fuel k1 hna (by
        simp only [List.length_cons] at hlen; omega)
      exact this

/-! ## The sweep around an allocated block -/

theorem setFreeL_cons_eq (b : Blk) (v : Bool) (l : List Blk) :
    setFreeL b.addr v (b :: l) = { b with free := v } :: l := by
  simp [setFreeL]

theorem setFreeL_cons_ne (a : Nat) (b : Blk) (v : Bool) (l : List Blk) (h : b.addr ≠ a) :
    setFreeL a v (b :: l) = b :: setFreeL a v l := by
  simp [setFreeL, h]

/-- The sweep never merges across an allocated block. -/
theorem coal_barrier : ∀ (l1 : List Blk) (c y : Blk) (l2 : List Blk), y.free = false →
    coal c (l1 ++ y :: l2) = coal c l1 ++ coal y l2 := by
  intro l1
  induction l1 with
  | nil =>
    intro c y l2 hy
    simp only [List.nil_append, coal]
    rw [if_neg (by rw [hy]; simp)]
    rfl
  | cons b l1 ih =>
    intro c y l2 hy
    rw [List.cons_append]
    simp only [coal]
    split
    · exact ih _ y l2 hy
    · rw [ih b y l2 hy]
      rfl

theorem coalesce_barrier (X : List Blk) (y : Blk) (l2 : List Blk) (hy : y.free = false) :
    coalesce (X ++ y :: l2) = coalesce X ++ coal y l2 := by
  cases X with
  | nil => rfl
  | cons c l1 => exact coal_barrier l1 c y l2 hy

theorem coal_alloc_cur (y : Blk) (l : List Blk) (hy : y.free = false) :
    coal y l = y :: coalesce l := by
  cases l with
  | nil => rfl
  | cons z l =>
    simp only [coal, coalesce]
    rw [if_neg (by rw [hy]; simp)]

/-- In front of an allocated block (or the end of the chain) the block under
`current` is left as it is. -/
theorem coal_head_alloc (z : Blk) (Y : List Blk)
    (hY : ∀ x, Y.head? = some x → x.free = false) : coal z Y = z :: coalesce Y := by
  cases Y with
  | nil => rfl
  | cons y Y =>
    have hy := hY y rfl
    simp only [coal, coalesce]
    rw [if_neg (by rw [hy]; simp)]

/-- Behind an allocated block (or at the head of the chain) the sweep starts
afresh. -/
theorem coalesce_after_last (X : List Blk) (z : Blk) (l : List Blk)
    (hX : ∀ x, X.getLast? = some x → x.free = false) :
    coalesce (X ++ z :: l) = coalesce X ++ coal z l := by
  rcases List.eq_nil_or_concat X with h | ⟨X', P, h⟩
  · subst h; rfl
  · rw [List.concat_eq_append] at h
    subst h
    have hP : P.free = false := hX P (by simp)
    rw [List.append_assoc, List.singleton_append, coalesce_barrier X' P (z :: l) hP,
      coal_alloc_cur P (z :: l) hP, coalesce_barrier X' P [] hP, coal_alloc_cur P [] hP]
    simp [coalesce]

theorem coalesce_last_alloc (X : List Blk)
    (hX : ∀ x, X.getLast? = some x → x.free = false) :
    ∀ x, (coalesce X).getLast? = some x → x.free = false := by
  rcases List.eq_nil_or_concat X with h | ⟨X', P, h⟩
  · subst h; intro x hx; simp [coalesce] at hx
  · rw [List.concat_eq_append] at h
    subst h
    have hP : P.free = false := hX P (by simp)
    intro x hx
    rw [coalesce_barrier X' P [] hP, coal_alloc_cur P [] hP] at hx
    simp [coalesce] at hx
    rw [← hx]
    exact hP

theorem coalesce_head_alloc (Y : List Blk)
    (hY : ∀ x, Y.head? = some x → x.free = false) :
    ∀ x, (coalesce Y).head? = some x → x.free = false := by
  cases Y with
  | nil => intro x hx; simp [coalesce] at hx
  | cons y Y =>
    intro x hx
    obtain ⟨sz, tl, he⟩ := coal_head y Y
    simp only [coalesce, he, List.head?_cons, Option.some.injEq] at hx
    rw [← hx]
    exact hY y rfl

theorem coal_addrs : ∀ (l : List Blk) (c : Blk) (a : Nat),
    a ∈ addrs (coal c l) → a ∈ addrs (c :: l) := by
  intro l
  induction l with
  | nil => intro c a h; exact h
  | cons b l ih =>
    intro c a h
    simp only [coal] at h
    split at h
    · have := ih _ a h
      simp only [addrs, List.map_cons, List.mem_cons] at this ⊢
      rcases this with h1 | h1
      · exact Or.inl h1
      · exact Or.inr (Or.inr h1)
    · simp only [addrs, List.map_cons, List.mem_cons] at h ⊢
      rcases h with h1 | h1
      · exact Or.inl h1
      · have := ih b a (by simpa [addrs] using h1)
        simp only [addrs, List.map_cons, List.mem_cons] at this
        exact Or.inr this

theorem coalesce_addrs (l : List Blk) (a : Nat) (h : a ∈ addrs (coalesce l)) : a ∈ addrs l := by
  cases l with
  | nil => exact h
  | cons c l => exact coal_addrs l c a h

theorem setFreeL_append_notin (a : Nat) (v : Bool) :
    ∀ (X l : List Blk), a ∉ addrs X → setFreeL a v (X ++ l) = X ++ setFreeL a v l := by
  intro X
  induction X with
  | nil => intro l _; rfl
  | cons x X ih =>
    intro l h
    simp only [addrs, List.map_cons, List.mem_cons, not_or] at h
    rw [List.cons_append]
    simp only [setFreeL]
    rw [if_neg (fun e => h.1 e.symm), ih l h.2]
    rfl

/-- The sweep on a chain `X ++ A :: B :: Y` whose part `X` ends with an
allocated block and whose part `Y` starts with one. -/
theorem coalesce_shape (X Y : List Blk) (A B : Blk)
    (hX : ∀ x, X.getLast? = some x → x.free = false)
    (hY : ∀ x, Y.head? = some x → x.free = false) :
    coalesce (X ++ A :: B :: Y) =
      coalesce X ++ (if A.free = true ∧ B.free = true then
        { A with size := (A.size + (META_SIZE + B.size) % WORD) % WORD } :: coalesce Y
        else A :: B :: coalesce Y) := by
  rw [coalesce_after_last X A (B :: Y) hX]
  congr 1
  simp only [coal]
  split
  · exact coal_head_alloc _ Y hY
  · rw [coal_head_alloc B Y hY]

/-- Releasing two allocated neighbours `A`, `B`, in either order, with the
sweep after each release, leaves the chain with the one merged block in their
place, when the block before `A` and the block after `B` are allocated. -/
theorem coalesce_pair (pre post : List Blk) (A B : Blk)
    (hnd : (addrs (pre ++ A :: B :: post)).Nodup)
    (hA : A.free = false) (hB : B.free = false)
    (hpre : ∀ x, pre.getLast? = some x → x.free = false)
    (hpost : ∀ x, post.head? = some x → x.free = false) :
    coalesce (setFreeL B.addr true (coalesce (setFreeL A.addr true (pre ++ A :: B :: post))))
      = coalesce pre ++ ⟨A.addr, (A.size + (META_SIZE + B.size) % WORD) % WORD, true⟩ ::
          coalesce post ∧
    coalesce (setFreeL A.addr true (coalesce (setFreeL B.addr true (pre ++ A :: B :: post))))
      = coalesce pre ++ ⟨A.addr, (A.size + (META_SIZE + B.size) % WORD) % WORD, true⟩ ::
          coalesce post := by
  simp only [addrs, List.map_append, List.map_cons, List.nodup_append, List.nodup_cons,
    List.mem_cons, not_or, List.Disjoint] at hnd
  obtain ⟨_, ⟨⟨hAB, hApost⟩, hBpost, _⟩, hdis⟩ := hnd
  have hApre : A.addr ∉ addrs pre := fun h => hdis h (Or.inl rfl)
  have hBpre : B.addr ∉ addrs pre := fun h => hdis h (Or.inr (Or.inl rfl))
  have hApre' : A.addr ∉ addrs (coalesce pre) := fun h => hApre (coalesce_addrs _ _ h)
  have hBpre' : B.addr ∉ addrs (coalesce pre) := fun h => hBpre (coalesce_addrs _ _ h)
  have hpre' := coalesce_last_alloc pre hpre
  have hpost' := coalesce_head_alloc post hpost
  have hfix1 : coalesce (coalesce pre) = coalesce pre := coalesce_fix _ (by
    cases pre with
    | nil => trivial
    | cons b rest => exact coal_noadj b rest)
  have hfix2 : coalesce (coalesce post) = coalesce post := coalesce_fix _ (by
    cases post with
    | nil => trivial
    | cons b rest => exact coal_noadj b rest)
  have hBA : B.addr ≠ A.addr := fun e => hAB e.symm
  constructor
  · rw [setFreeL_append_notin _ _ pre _ hApre, setFreeL_cons_eq A true,
      coalesce_shape pre post _ B hpre hpost, if_neg (by rw [hB]; simp),
      setFreeL_append_notin _ _ (coalesce pre) _ hBpre',
      setFreeL_cons_ne B.addr ⟨A.addr, A.size, true⟩ true _ hAB, setFreeL_cons_eq B true,
      coalesce_shape (coalesce pre) (coalesce post) _ _ hpre' hpost', if_pos ⟨rfl, rfl⟩,
      hfix1, hfix2]
  · rw [setFreeL_append_notin _ _ pre _ hBpre, setFreeL_cons_ne B.addr A true _ hAB,
      setFreeL_cons_eq B true,
      coalesce_shape pre post A _ hpre hpost, if_neg (by rw [hA]; simp),
      setFreeL_append_notin _ _ (coalesce pre) _ hApre', setFreeL_cons_eq A true,
      coalesce_shape (coalesce pre) (coalesce post) _ _ hpre' hpost', if_pos ⟨rfl, rfl⟩,
      hfix1, hfix2]

/-- First fit and best fit on a chain state: when some chain block fits,
`my_malloc` returns a non-null pointer and does not move the break. -/
theorem malloc_hit_no_growth (cfg : Config) (fuel : Nat) (st : State) (b0 n : Nat)
    (bs : List Blk) (hs : cfg.ALLOC_STRATEGY ≠ 3) (hwf : WF st b0 bs) (hn : n ≠ 0)
    (hl : bs.length < fuel) (hex : ∃ b ∈ bs, fits n b = true) :
    ∃ st' q, my_malloc cfg fuel st n = some (st', some q) ∧ st'.brk = st.brk := by
  obtain ⟨⟨st1, blk, l⟩, hf⟩ := find_free_block_total cfg fuel st st.global_base n bs hs hwf.1 hl
  have hblk := find_free_block_hit_of_fits cfg fuel st st1 _ blk l n bs hs hwf.1 hf hex
  obtain ⟨_, _, f3, _⟩ := find_free_block_res cfg fuel st st1 _ blk l n hf
  cases blk with
  | none => exact absurd rfl hblk
  | some a =>
    refine ⟨split_block (st1.setFree a false) a n, a + META_SIZE, ?_, ?_⟩
    · unfold my_malloc
      rw [if_neg hn, hf]
    · rw [(split_block_frame _ a n).2.2.1]
      exact f3

/-! ## Claims -/

set_option maxRecDepth 100000

/-- C1 (as amended): with first fit or best fit (any `ALLOC_STRATEGY` other
than 3), in every state reached by a finite sequence of allocate,
zero_allocate, resize and release calls that respects the caller obligations
and requests only sizes `n` with `n + META_SIZE < 2^63`, the payload ranges
`[p, p + size)` of the live pointers are pairwise disjoint and lie inside the
arena `[b0, brk)`. -/
theorem payloads_disjoint_in_arena (cfg : Config) (b0 : Nat) (st : State) (live : List Nat)
    (hs : cfg.ALLOC_STRATEGY ≠ 3) (hR : Reach SizeOK cfg b0 st live) :
    PayloadsOK st b0 live := by
  obtain ⟨bs, hwf, _, hlive⟩ := reach_inv cfg b0 st live hs hR
  exact WF_payloads st b0 bs live hwf hlive

/-- C1, a run of the amended claim: after `my_malloc(100)`, `my_malloc(40)`
in a fresh process the two live payloads `[4120, 4220)` and `[4244, 4284)`
are disjoint and lie inside the arena `[4096, 4284)`. -/
theorem payloads_disjoint_in_arena_witness :
    (ex_cfg 1).ALLOC_STRATEGY ≠ 3 ∧ Reach SizeOK (ex_cfg 1) 4096 ex_two [4244, 4120] ∧
      PayloadsOK ex_two 4096 [4244, 4120] :=
  have hR1 : Reach SizeOK (ex_cfg 1) 4096 ex_one [4120] :=
    Reach.allocate 1 100 ex_one (some 4120) (Reach.start ex_hdr ex_mem (by decide))
      (by decide) (by rfl)
  have hR : Reach SizeOK (ex_cfg 1) 4096 ex_two [4244, 4120] :=
    Reach.allocate 2 40 ex_two (some 4244) hR1 (by decide) (by rfl)
  ⟨by decide, hR,
    payloads_disjoint_in_arena (ex_cfg 1) 4096 ex_two [4244, 4120] (by decide) hR⟩

/-- C1 as stated fails: with first fit, after `my_malloc(100)` the call
`my_malloc(2^64 - 24)` is answered with the pointer 4244 to a block of
`2^64 - 24` bytes while the arena still ends at 4220 (`size + META_SIZE`
wraps to 0, and `sbrk(0)` succeeds): the live payload `[4244, 4244 + 2^64 -
24)` does not lie inside the arena `[4096, 4220)`. -/
theorem payloads_counterexample :
    Reach AnySize (ex_cfg 1) 4096 ex_huge [4244, 4120] ∧
    (ex_huge.hdr (4244 - META_SIZE)).size = WORD - META_SIZE ∧ ex_huge.brk = 4220 ∧
    ¬ PayloadsOK ex_huge 4096 [4244, 4120] := by
  have hR1 : Reach AnySize (ex_cfg 1) 4096 ex_one [4120] :=
    Reach.allocate 1 100 ex_one (some 4120) (Reach.start ex_hdr ex_mem (by decide))
      trivial (by rfl)
  have hR : Reach AnySize (ex_cfg 1) 4096 ex_huge [4244, 4120] :=
    Reach.allocate 2 (WORD - META_SIZE) ex_huge (some 4244) hR1 trivial (by rfl)
  have e1 : (ex_huge.hdr (4244 - META_SIZE)).size = WORD - META_SIZE := by rfl
  have e2 : ex_huge.brk = 4220 := by rfl
  refine ⟨hR, e1, e2, ?_⟩
  intro h
  have hle := (h.1 4244 (by simp)).2
  rw [e1, e2] at hle
  have hW := WORD_eq
  have hM := META_SIZE_eq
  omega

/-- C2 fails on the code: with next fit the calls `a = my_malloc(100)`,
`b = my_malloc(40)`, `c = my_malloc(200)`, `my_free(a)`, `my_free(c)`,
`d = my_malloc(300)` respect the caller obligations and end in a state where
`d = 4120` owns `[4120, 4444)` while the live `b = 4244` owns `[4244, 4284)`:
the third call linked its block behind the head instead of the tail, so the
sweep merged the blocks of `a` and `c` across the block of `b`. -/
theorem next_fit_payloads_overlap :
    Reach SizeOK (ex_cfg 3) 4096 ex_nf6 [4120, 4244] ∧
    (ex_nf6.hdr (4120 - META_SIZE)).size = 324 ∧
    (ex_nf6.hdr (4244 - META_SIZE)).size = 40 ∧
    ¬ PayloadsOK ex_nf6 4096 [4120, 4244] := by
  have r0 : Reach SizeOK (ex_cfg 3) 4096 ex_init [] := Reach.start ex_hdr ex_mem (by decide)
  have r1 : Reach SizeOK (ex_cfg 3) 4096 ex_nf1 [4120] :=
    Reach.allocate 8 100 ex_nf1 (some 4120) r0 (by decide) (by rfl)
  have r2 : Reach SizeOK (ex_cfg 3) 4096 ex_nf2 [4244, 4120] :=
    Reach.allocate 8 40 ex_nf2 (some 4244) r1 (by decide) (by rfl)
  have r3 : Reach SizeOK (ex_cfg 3) 4096 ex_nf3 [4308, 4244, 4120] :=
    Reach.allocate 8 200 ex_nf3 (some 4308) r2 (by decide) (by rfl)
  have r4 : Reach SizeOK (ex_cfg 3) 4096 ex_nf4 [4308, 4244] :=
    Reach.release 8 (some 4120) ex_nf4 r3 (by intro p hp; cases hp; decide) (by rfl)
  have r5 : Reach SizeOK (ex_cfg 3) 4096 ex_nf5 [4244] :=
    Reach.release 8 (some 4308) ex_nf5 r4 (by intro p hp; cases hp; decide) (by rfl)
  have r6 : Reach SizeOK (ex_cfg 3) 4096 ex_nf6 [4120, 4244] :=
    Reach.allocate 8 300 ex_nf6 (some 4120) r5 (by decide) (by rfl)
  have e1 : (ex_nf6.hdr (4120 - META_SIZE)).size = 324 := by rfl
  have e2 : (ex_nf6.hdr (4244 - META_SIZE)).size = 40 := by rfl
  refine ⟨r6, e1, e2, ?_⟩
  intro h
  have := h.2 4120 (by simp) 4244 (by simp) (by decide)
  rw [e1, e2] at this
  omega

/-- The state after `my_malloc(100)` in a fresh process is a chain state with
the single allocated block at 4096. -/
theorem ex_one_WF : WF ex_one 4096 [⟨4096, 100, false⟩] ∧ CursorOK ex_one [⟨4096, 100, false⟩] ∧
    Alloc [⟨4096, 100, false⟩] 4096 := by
  refine ⟨⟨⟨by rfl, by rfl, by rfl, by rfl⟩, ⟨rfl, by rfl⟩, by decide⟩, ?_, ?_⟩
  · intro c hc
    have : ex_one.last_alloc = none := by rfl
    rw [this] at hc
    cases hc
  · exact ⟨_, List.mem_singleton.2 rfl, rfl, rfl⟩

/-- Growing resize on a chain state (the chain tiles the arena, cursor inside
the chain): for the pointer `a + META_SIZE` of an allocated chain block `a` of
size `old_size` and every `n > old_size`, if `my_realloc` returns a non-null
`q` then the header of `q` is marked allocated with size at least `n`, the
first `old_size` bytes at `q` are the first `old_size` bytes that were at the
old pointer, `q` is a different pointer and the old block has been
released. -/
theorem resize_grow (cfg : Config) (fuel : Nat) (st st' : State) (b0 a n q : Nat)
    (bs : List Blk) (hwf : WF st b0 bs) (hcur : CursorOK st bs) (hA : Alloc bs a)
    (hgt : (st.hdr a).size < n)
    (h : my_realloc cfg fuel st (some (a + META_SIZE)) n = some (st', some q)) :
    (st'.hdr (q - META_SIZE)).free = false ∧ n ≤ (st'.hdr (q - META_SIZE)).size ∧
    (∀ i, i < (st.hdr a).size → st'.mem (q + i) = st.mem (a + META_SIZE + i)) ∧
    q ≠ a + META_SIZE ∧ (st'.hdr a).free = true := by
  have hM := META_SIZE_eq
  have e : a + META_SIZE - META_SIZE = a := by omega
  simp only [my_realloc, e] at h
  rw [if_neg (by omega)] at h
  cases hm : my_malloc cfg fuel st n with
  | none => rw [hm] at h; simp at h
  | some res =>
    obtain ⟨st1, r1⟩ := res
    rw [hm] at h
    cases r1 with
    | none => simp at h
    | some q1 =>
      simp only at h
      cases hfr : my_free fuel { st1 with mem := memcpy st1.mem q1 (a + META_SIZE) (st1.hdr a).size }
          (some (a + META_SIZE)) with
      | none => rw [hfr] at h; simp at h
      | some st3 =>
        rw [hfr] at h
        simp only [Option.some.injEq, Prod.mk.injEq] at h
        obtain ⟨e1, e2⟩ := h
        subst e1
        subst e2
        obtain ⟨k1, k2, k3, k4⟩ := malloc_result cfg fuel st st1 n q1 hm
        obtain ⟨m1, m2⟩ := malloc_frame cfg fuel st st1 b0 n (some q1) bs hwf hcur hm
        have hQa : q1 - META_SIZE ≠ a := by
          intro e3
          exact m2 q1 rfl (e3 ▸ hA)
        simp only [my_free, e, merge_free_blocks] at hfr
        obtain ⟨_, _, _, g4, g5, g6⟩ := merge_loop_frame fuel _ st3 _ hfr
        have hQ : ∀ s : State, (s.setFree a true).hdr (q1 - META_SIZE)
            = s.hdr (q1 - META_SIZE) := by
          intro s
          rw [setFree_hdr]
          exact upd_other _ _ _ _ hQa
        have hQ3 : st3.hdr (q1 - META_SIZE) = st1.hdr (q1 - META_SIZE) := by
          rw [g6 _ (by rw [hQ]; exact k2), hQ]
        refine ⟨by rw [hQ3]; exact k2, by rw [hQ3]; exact k3, ?_, by omega, ?_⟩
        · intro i hi
          rw [g4]
          show memcpy st1.mem q1 (a + META_SIZE) (st1.hdr a).size (q1 + i) = _
          have hsz := (m1 a hA).1
          unfold memcpy
          rw [if_pos (by omega), k4]
          congr 1
          omega
        · rw [g5 a, setFree_hdr, upd_same]

/-- A run of `resize_grow`: first fit, `my_realloc(4120, 200)` after
`my_malloc(100)` returns 4244. -/
theorem resize_grow_witness :
    WF ex_one 4096 [⟨4096, 100, false⟩] ∧ (ex_one.hdr 4096).size < 200 ∧
    ((ex_grow.hdr (4244 - META_SIZE)).free = false ∧ 200 ≤ (ex_grow.hdr (4244 - META_SIZE)).size ∧
      (∀ i, i < (ex_one.hdr 4096).size → ex_grow.mem (4244 + i) = ex_one.mem (4096 + META_SIZE + i)) ∧
      4244 ≠ 4096 + META_SIZE ∧ (ex_grow.hdr 4096).free = true) :=
  ⟨ex_one_WF.1, by decide,
    resize_grow (ex_cfg 1) 2 ex_one ex_grow 4096 4096 200 4244 _ ex_one_WF.1 ex_one_WF.2.1
      ex_one_WF.2.2 (by decide) (by rfl)⟩

/-- C3 fails on the code with next fit: after `a = my_malloc(100)`,
`b = my_malloc(40)`, `c = my_malloc(200)`, `my_free(a)`, `my_free(c)` the
pointer `b = 4244` is live with 40 bytes of payload `[4244, 4284)`, and the
chain is the single free block at 4096 of 324 bytes, which lies across the
block of `b` (the third call linked the block of `c` behind the head, so the
sweep merged the blocks of `a` and `c`).  The call `my_realloc(b, 130)` takes
that block: `my_malloc(130)` splits it and writes the header of the remainder
at 4250, where nothing had been written before, inside the payload of `b`;
only then are the 40 bytes at `b` copied to the new pointer 4120. -/
theorem next_fit_resize_clobbers_payload :
    Reach SizeOK (ex_cfg 3) 4096 ex_nf5 [4244] ∧
    (ex_nf5.hdr (4244 - META_SIZE)).free = false ∧
    (ex_nf5.hdr (4244 - META_SIZE)).size = 40 ∧
    Rep ex_nf5.hdr [⟨4096, 324, true⟩] ex_nf5.global_base ∧
    ex_nf5.hdr 4250 = ⟨0, false, none⟩ ∧
    (stateOf (my_malloc (ex_cfg 3) 8 ex_nf5 130) ex_nf5).hdr 4250 = ⟨170, true, none⟩ ∧
    my_realloc (ex_cfg 3) 8 ex_nf5 (some 4244) 130 = some (ex_nfr, some 4120) ∧
    ex_nfr.hdr 4250 = ⟨170, true, none⟩ ∧
    4244 ≤ 4250 ∧ 4250 + META_SIZE ≤ 4244 + 40 := by
  have r0 : Reach SizeOK (ex_cfg 3) 4096 ex_init [] := Reach.start ex_hdr ex_mem (by decide)
  have r1 : Reach SizeOK (ex_cfg 3) 4096 ex_nf1 [4120] :=
    Reach.allocate 8 100 ex_nf1 (some 4120) r0 (by decide) (by rfl)
  have r2 : Reach SizeOK (ex_cfg 3) 4096 ex_nf2 [4244, 4120] :=
    Reach.allocate 8 40 ex_nf2 (some 4244) r1 (by decide) (by rfl)
  have r3 : Reach SizeOK (ex_cfg 3) 4096 ex_nf3 [4308, 4244, 4120] :=
    Reach.allocate 8 200 ex_nf3 (some 4308) r2 (by decide) (by rfl)
  have r4 : Reach SizeOK (ex_cfg 3) 4096 ex_nf4 [4308, 4244] :=
    Reach.release 8 (some 4120) ex_nf4 r3 (by intro p hp; cases hp; decide) (by rfl)
  have r5 : Reach SizeOK (ex_cfg 3) 4096 ex_nf5 [4244] :=
    Reach.release 8 (some 4308) ex_nf5 r4 (by intro p hp; cases hp; decide) (by rfl)
  exact ⟨r5, by rfl, by rfl, ⟨by rfl, by rfl, by rfl, by rfl⟩, by rfl, by rfl, by rfl, by rfl,
    by decide, by decide⟩

/-- C5: whenever the locator misses and `sbrk` then refuses the request,
`my_malloc(n)` returns `NULL` and the state it returns is the state before
the call (every global, every header, every payload byte); the same holds
for the grow path of `my_realloc(p, n)`. -/
theorem oom_atomic (cfg : Config) (fuel : Nat) (st st1 : State) (n : Nat) (l : Option Nat)
    (hn : n ≠ 0)
    (hmiss : find_free_block cfg fuel st st.global_base n = some (st1, none, l))
    (hfail : sbrk cfg st (to_intptr ((n + META_SIZE) % WORD)) = none) :
    my_malloc cfg fuel st n = some (st, none) ∧
    ∀ p, (st.hdr (p - META_SIZE)).size < n →
      my_realloc cfg fuel st (some p) n = some (st, none) := by
  have hst1 : st1 = st := (find_free_block_res cfg fuel st st1 _ none l n hmiss).2.2.2.2.1 rfl
  subst hst1
  have hext : ∀ last, extend_heap cfg st1 last n = (st1, none) := by
    intro last
    simp only [extend_heap, hfail]
  have hm : my_malloc cfg fuel st1 n = some (st1, none) := by
    unfold my_malloc
    rw [if_neg hn, hmiss]
    simp only
    cases hg : st1.global_base with
    | none =>
      simp only
      rw [hext none]
      simp only
      have := state_eta_base st1 hg
      rw [this]
    | some g =>
      simp only
      rw [hext l]
  refine ⟨hm, ?_⟩
  intro p hp
  simp only [my_realloc]
  rw [if_neg (by omega), hm]

/-- C5, a run: first fit in a fresh process on a system that refuses to move
the break. -/
theorem oom_atomic_witness :
    (100 ≠ 0 ∧
      find_free_block (ex_oom 1) 1 ex_init ex_init.global_base 100 = some (ex_init, none, none) ∧
      sbrk (ex_oom 1) ex_init (to_intptr ((100 + META_SIZE) % WORD)) = none) ∧
    (my_malloc (ex_oom 1) 1 ex_init 100 = some (ex_init, none) ∧
      ∀ p, (ex_init.hdr (p - META_SIZE)).size < 100 →
        my_realloc (ex_oom 1) 1 ex_init (some p) 100 = some (ex_init, none)) :=
  ⟨⟨by decide, by rfl, by rfl⟩,
    oom_atomic (ex_oom 1) 1 ex_init ex_init 100 none (by decide) (by rfl) (by rfl)⟩

/-- C6 (as amended): for every count and element size whose product does not
wrap (`nmemb * size < 2^64`), if `my_calloc` returns a non-null pointer then
its header is marked allocated, holds at least `nmemb * size` bytes, and each
of those bytes reads as zero. -/
theorem zero_allocate_zeroed (cfg : Config) (fuel : Nat) (st st' : State) (nmemb size p : Nat)
    (hprod : nmemb * size < WORD)
    (h : my_calloc cfg fuel st nmemb size = some (st', some p)) :
    (st'.hdr (p - META_SIZE)).free = false ∧ nmemb * size ≤ (st'.hdr (p - META_SIZE)).size ∧
    ∀ i, i < nmemb * size → st'.mem (p + i) = 0 := by
  unfold my_calloc at h
  simp only [Nat.mod_eq_of_lt hprod] at h
  cases hm : my_malloc cfg fuel st (nmemb * size) with
  | none => rw [hm] at h; simp at h
  | some res =>
    obtain ⟨st1, r1⟩ := res
    rw [hm] at h
    cases r1 with
    | none => simp at h
    | some q =>
      simp only [Option.some.injEq, Prod.mk.injEq] at h
      obtain ⟨e1, e2⟩ := h
      subst e1
      subst e2
      obtain ⟨_, k2, k3, _⟩ := malloc_result cfg fuel st st1 (nmemb * size) q hm
      refine ⟨k2, k3, ?_⟩
      intro i hi
      show memset_zero st1.mem q (nmemb * size) (q + i) = 0
      unfold memset_zero
      rw [if_pos (by omega)]

/-- C6, a run of the amended claim: `my_calloc(10, 4)` in a fresh process. -/
theorem zero_allocate_zeroed_witness :
    10 * 4 < WORD ∧
    ((ex_zero.hdr (4120 - META_SIZE)).free = false ∧
      10 * 4 ≤ (ex_zero.hdr (4120 - META_SIZE)).size ∧
      ∀ i, i < 10 * 4 → ex_zero.mem (4120 + i) = 0) :=
  ⟨by decide, zero_allocate_zeroed (ex_cfg 1) 1 ex_init ex_zero 10 4 4120 (by decide) (by rfl)⟩

/-- C6 as stated fails: `my_calloc(2^32 + 1, 2^32)` in a fresh process
returns the non-null pointer 4120 to a block of `2^32` bytes, fewer than the
`(2^32 + 1) * 2^32` bytes asked for (the product wraps to `2^32`). -/
theorem zero_allocate_wraps :
    my_calloc (ex_cfg 1) 1 ex_init 4294967297 4294967296 = some (ex_wrap, some 4120) ∧
    (ex_wrap.hdr (4120 - META_SIZE)).size = 4294967296 ∧
    ¬ (4294967297 * 4294967296 ≤ (ex_wrap.hdr (4120 - META_SIZE)).size) := by
  have e : (ex_wrap.hdr (4120 - META_SIZE)).size = 4294967296 := by rfl
  refine ⟨by rfl, e, ?_⟩
  rw [e]
  omega

/-- The state after `my_malloc(100)`, `my_malloc(40)` is a chain state with
two allocated blocks. -/
theorem ex_two_WF : WF ex_two 4096 ([] ++ ⟨4096, 100, false⟩ :: ⟨4220, 40, false⟩ :: []) := by
  refine ⟨⟨by rfl, by rfl, by rfl, by rfl, by rfl, by rfl, by rfl⟩, ⟨rfl, rfl, by rfl⟩, by decide⟩

/-- C7 (as amended): in every chain state with two allocated blocks `A` and
`B`, `B` the chain successor of `A`, where the chain predecessor of `A` (if
any) and the chain successor of `B` (if any) are allocated, releasing `A`
then `B`, or `B` then `A`, returns both times and leaves a chain state in
which the block at the header of `A` is free with size
`size_A + size_B + META_SIZE` and the header of `B` is no longer a chain
block; the break is unchanged; and with first fit or best fit a following
`my_malloc(size_A + size_B + META_SIZE)` returns non-null without moving the
break. -/
theorem release_adjacent_pair (cfg : Config) (fuel : Nat) (st : State) (b0 : Nat)
    (pre post : List Blk) (A B : Blk) (first second : Nat)
    (hwf : WF st b0 (pre ++ A :: B :: post)) (hA : A.free = false) (hB : B.free = false)
    (hpre : ∀ x, pre.getLast? = some x → x.free = false)
    (hpost : ∀ x, post.head? = some x → x.free = false)
    (hl : (pre ++ A :: B :: post).length < fuel)
    (hord : (first = A.addr ∧ second = B.addr) ∨ (first = B.addr ∧ second = A.addr)) :
    ∃ st1 st2 bs2, my_free fuel st (some (first + META_SIZE)) = some st1 ∧
      my_free fuel st1 (some (second + META_SIZE)) = some st2 ∧
      WF st2 b0 bs2 ∧ (⟨A.addr, A.size + B.size + META_SIZE, true⟩ : Blk) ∈ bs2 ∧
      B.addr ∉ addrs bs2 ∧ st2.brk = st.brk ∧
      (cfg.ALLOC_STRATEGY ≠ 3 →
        ∃ st3 q, my_malloc cfg fuel st2 (A.size + B.size + META_SIZE) = some (st3, some q) ∧
          st3.brk = st2.brk) := by
  have hM := META_SIZE_eq
  have hW := WORD_eq
  have hT := ADDR_TOP_eq
  have hnd := Tiled_nodup _ _ _ hwf.2.1
  have hbrk := hwf.2.2
  obtain ⟨e1, e2⟩ := coalesce_pair pre post A B hnd hA hB hpre hpost
  have hAm : A ∈ pre ++ A :: B :: post := by simp
  have hBm : B ∈ pre ++ A :: B :: post := by simp
  have hABne : A.addr ≠ B.addr := by
    have := hnd
    simp only [addrs, List.map_append, List.map_cons, List.nodup_append, List.nodup_cons,
      List.mem_cons, not_or] at this
    exact this.2.1.1.1
  have hsz : (A.size + (META_SIZE + B.size) % WORD) % WORD = A.size + B.size + META_SIZE := by
    have h1 := Tiled_mem _ _ _ hwf.2.1 A hAm
    have h2 := Tiled_mem _ _ _ hwf.2.1 B hBm
    have hne : A ≠ B := fun e => hABne (by rw [e])
    have hsum : A.size + META_SIZE + B.size < WORD := by
      rcases pairwise_sep _ (Tiled_pairwise _ _ _ hwf.2.1) A B hAm hBm hne with h3 | h3 <;> omega
    have q1 : (META_SIZE + B.size) % WORD = META_SIZE + B.size :=
      Nat.mod_eq_of_lt (by omega)
    rw [q1, Nat.mod_eq_of_lt (by omega)]
    omega
  rw [hsz] at e1 e2
  have ef : first + META_SIZE - META_SIZE = first := by omega
  have es : second + META_SIZE - META_SIZE = second := by omega
  obtain ⟨st1, h1⟩ := my_free_total st fuel b0 (some (first + META_SIZE)) _ hwf hl
  obtain ⟨w1, _, _, b1⟩ := my_free_WF st st1 fuel b0 (first + META_SIZE) _ hwf h1
  rw [ef] at w1
  have hl1 : (coalesce (setFreeL first true (pre ++ A :: B :: post))).length < fuel := by
    have := coalesce_length (setFreeL first true (pre ++ A :: B :: post))
    rw [setFreeL_length] at this
    omega
  obtain ⟨st2, h2⟩ := my_free_total st1 fuel b0 (some (second + META_SIZE)) _ w1 hl1
  obtain ⟨w2, _, _, b2⟩ := my_free_WF st1 st2 fuel b0 (second + META_SIZE) _ w1 h2
  rw [es] at w2
  have hlist : coalesce (setFreeL second true (coalesce (setFreeL first true
      (pre ++ A :: B :: post))))
      = coalesce pre ++ ⟨A.addr, A.size + B.size + META_SIZE, true⟩ :: coalesce post := by
    rcases hord with ⟨o1, o2⟩ | ⟨o1, o2⟩
    · rw [o1, o2]; exact e1
    · rw [o1, o2]; exact e2
  rw [hlist] at w2
  have hl2 : (coalesce pre ++ (⟨A.addr, A.size + B.size + META_SIZE, true⟩ : Blk)
      :: coalesce post).length < fuel := by
    have q1 := coalesce_length pre
    have q2 := coalesce_length post
    simp only [List.length_append, List.length_cons] at hl ⊢
    omega
  refine ⟨st1, st2, _, h1, h2, w2, by simp, ?_, by rw [b2, b1], ?_⟩
  · intro hin
    have hnd' := hnd
    simp only [addrs, List.map_append, List.map_cons, List.nodup_append, List.nodup_cons,
      List.mem_cons, not_or, List.Disjoint] at hnd'
    obtain ⟨_, ⟨⟨_, _⟩, hBpost, _⟩, hdis⟩ := hnd'
    simp only [addrs, List.map_append, List.map_cons, List.mem_append, List.mem_cons] at hin
    rcases hin with h3 | h3 | h3
    · exact hdis (coalesce_addrs pre _ h3) (Or.inr (Or.inl rfl))
    · exact hABne h3.symm
    · exact hBpost (coalesce_addrs post _ h3)
  · intro hs
    exact malloc_hit_no_growth cfg fuel st2 b0 _ _ hs w2 (by omega) hl2
      ⟨⟨A.addr, A.size + B.size + META_SIZE, true⟩, by simp, by simp [fits]⟩

/-- C7, a run of the amended claim: first fit, the two allocated neighbours
left by `my_malloc(100)`, `my_malloc(40)`, released in the order `A`, `B`. -/
theorem release_adjacent_pair_witness :
    (WF ex_two 4096 ([] ++ ⟨4096, 100, false⟩ :: ⟨4220, 40, false⟩ :: []) ∧
      ([] ++ (⟨4096, 100, false⟩ : Blk) :: ⟨4220, 40, false⟩ :: []).length < 3) ∧
    ∃ st1 st2 bs2, my_free 3 ex_two (some (4096 + META_SIZE)) = some st1 ∧
      my_free 3 st1 (some (4220 + META_SIZE)) = some st2 ∧
      WF st2 4096 bs2 ∧ (⟨4096, 100 + 40 + META_SIZE, true⟩ : Blk) ∈ bs2 ∧
      4220 ∉ addrs bs2 ∧ st2.brk = ex_two.brk ∧
      ((ex_cfg 1).ALLOC_STRATEGY ≠ 3 →
        ∃ st3 q, my_malloc (ex_cfg 1) 3 st2 (100 + 40 + META_SIZE) = some (st3, some q) ∧
          st3.brk = st2.brk) :=
  ⟨⟨ex_two_WF, by decide⟩,
    release_adjacent_pair (ex_cfg 1) 3 ex_two 4096 [] [] ⟨4096, 100, false⟩ ⟨4220, 40, false⟩
      4096 4220 ex_two_WF rfl rfl (by simp) (by simp) (by decide) (Or.inl ⟨rfl, rfl⟩)⟩

/-- C7 as stated fails: with first fit, after `a = my_malloc(8)`,
`b = my_malloc(8)`, `c = my_malloc(8)`, `my_free(a)` the blocks of `b` (header
4128) and `c` (header 4160) are allocated neighbours of 8 bytes each; after
`my_free(b)` and `my_free(c)` the chain is the single free block at 4096 with
72 bytes, not a block at 4128 with `8 + 8 + 24 = 40` bytes: the free
predecessor has absorbed both. -/
theorem release_adjacent_counterexample :
    Reach SizeOK (ex_cfg 1) 4096 ex_pair [4184, 4152] ∧
    hdrOf ex_pair 4128 = (8, false, some 4160) ∧ hdrOf ex_pair 4160 = (8, false, none) ∧
    my_free 4 ex_pair (some 4152) = some ex_pair1 ∧
    my_free 4 ex_pair1 (some 4184) = some ex_pair2 ∧
    ex_pair2.global_base = some 4096 ∧ hdrOf ex_pair2 4096 = (72, true, none) := by
  have r0 : Reach SizeOK (ex_cfg 1) 4096 ex_init [] := Reach.start ex_hdr ex_mem (by decide)
  have r1 : Reach SizeOK (ex_cfg 1) 4096 ex_p1 [4120] :=
    Reach.allocate 4 8 ex_p1 (some 4120) r0 (by decide) (by rfl)
  have r2 : Reach SizeOK (ex_cfg 1) 4096 ex_p2 [4152, 4120] :=
    Reach.allocate 4 8 ex_p2 (some 4152) r1 (by decide) (by rfl)
  have r3 : Reach SizeOK (ex_cfg 1) 4096 ex_p3 [4184, 4152, 4120] :=
    Reach.allocate 4 8 ex_p3 (some 4184) r2 (by decide) (by rfl)
  have r4 : Reach SizeOK (ex_cfg 1) 4096 ex_pair [4184, 4152] :=
    Reach.release 4 (some 4120) ex_pair r3 (by intro p hp; cases hp; decide) (by rfl)
  exact ⟨r4, by decide, by decide, by rfl, by rfl, by rfl, by decide⟩

/-- C8 (as amended): when `my_malloc(s)` claims the located free block `a` of
size `S`, `S` below `2^63`, it returns `a + META_SIZE`, and
if `S ≥ s + META_SIZE + 8` the block ends with size exactly `s`, allocated,
followed by the new header `a + META_SIZE + s`, free, of size
`S - s - META_SIZE`, whose successor is the former successor of `a`, no other
header being written; if `S < s + META_SIZE + 8` the only change to the heap
is the free flag of `a` (so every link is as before), the block keeps size
`S` and its unused tail is at most `META_SIZE + 7` bytes. -/
theorem split_minimality (cfg : Config) (fuel : Nat) (st st1 : State) (a s : Nat)
    (l : Option Nat) (hs : s ≠ 0)
    (hloc : find_free_block cfg fuel st st.global_base s = some (st1, some a, l))
    (hS : (st.hdr a).size < ADDR_TOP) :
    ∃ st', my_malloc cfg fuel st s = some (st', some (a + META_SIZE)) ∧
      st'.global_base = st.global_base ∧ st'.brk = st.brk ∧
      (s + META_SIZE + 8 ≤ (st.hdr a).size →
        st'.hdr a = ⟨s, false, some (a + META_SIZE + s)⟩ ∧
        st'.hdr (a + META_SIZE + s) = ⟨(st.hdr a).size - s - META_SIZE, true, (st.hdr a).next⟩ ∧
        ∀ x, x ≠ a → x ≠ a + META_SIZE + s → st'.hdr x = st.hdr x) ∧
      ((st.hdr a).size < s + META_SIZE + 8 →
        st'.hdr = upd st.hdr a { st.hdr a with free := false } ∧
        (st'.hdr a).size = (st.hdr a).size ∧
        (st'.hdr a).size - s ≤ META_SIZE + 7) := by
  have hM := META_SIZE_eq
  have hW := WORD_eq
  have hA := ADDR_TOP_eq
  obtain ⟨f1, f2, f3, _, _, _, f7⟩ := find_free_block_res cfg fuel st st1 _ (some a) l s hloc
  obtain ⟨_, k2, _⟩ := f7 a rfl
  have hne : a + META_SIZE + s ≠ a := by omega
  have hsf : (st1.setFree a false).hdr a = { st.hdr a with free := false } := by
    rw [setFree_hdr, upd_same, f1]
  have hmod : (s + META_SIZE + 8) % WORD = s + META_SIZE + 8 := Nat.mod_eq_of_lt (by omega)
  obtain ⟨g1, _, g3, _⟩ := split_block_frame (st1.setFree a false) a s
  refine ⟨split_block (st1.setFree a false) a s, ?_, ?_, ?_, ?_, ?_⟩
  · unfold my_malloc
    rw [if_neg hs, hloc]
  · rw [g1]; exact f2
  · rw [g3]; exact f3
  · intro hge
    have hc : (s + META_SIZE + 8) % WORD ≤ ((st1.setFree a false).hdr a).size := by
      rw [hmod, hsf]; exact hge
    rw [split_block_hdr _ a s hc]
    refine ⟨?_, ?_, ?_⟩
    · rw [upd_same, hsf]
    · rw [upd_other _ _ _ _ hne, upd_same, hsf]
      show (⟨sub64 (sub64 (st.hdr a).size s) META_SIZE, true, (st.hdr a).next⟩ : block_meta) = _
      rw [sub64_eq _ s (by omega) (by omega), sub64_eq _ META_SIZE (by omega) (by omega)]
    · intro x h1 h2
      rw [upd_other _ _ _ _ h1, upd_other _ _ _ _ h2, setFree_hdr, upd_other _ _ _ _ h1, f1]
  · intro hlt
    have hc : ¬ (s + META_SIZE + 8) % WORD ≤ ((st1.setFree a false).hdr a).size := by
      rw [hmod, hsf]
      show ¬ s + META_SIZE + 8 ≤ (st.hdr a).size
      omega
    rw [split_block_hdr_no _ a s hc]
    refine ⟨by rw [setFree_hdr, f1], by rw [hsf], ?_⟩
    rw [hsf]
    show (st.hdr a).size - s ≤ META_SIZE + 7
    omega

/-- C8, a run of the amended claim: first fit, `my_malloc(40)` claims the free block of 100 bytes
left by `my_malloc(100)`, `my_free`. -/
theorem split_minimality_witness :
    (40 ≠ 0 ∧
      find_free_block (ex_cfg 1) 2 ex_freed ex_freed.global_base 40
        = some (ex_freed, some 4096, some 4096) ∧
      (ex_freed.hdr 4096).size < ADDR_TOP) ∧
    ∃ st', my_malloc (ex_cfg 1) 2 ex_freed 40 = some (st', some (4096 + META_SIZE)) ∧
      st'.global_base = ex_freed.global_base ∧ st'.brk = ex_freed.brk ∧
      (40 + META_SIZE + 8 ≤ (ex_freed.hdr 4096).size →
        st'.hdr 4096 = ⟨40, false, some (4096 + META_SIZE + 40)⟩ ∧
        st'.hdr (4096 + META_SIZE + 40)
          = ⟨(ex_freed.hdr 4096).size - 40 - META_SIZE, true, (ex_freed.hdr 4096).next⟩ ∧
        ∀ x, x ≠ 4096 → x ≠ 4096 + META_SIZE + 40 → st'.hdr x = ex_freed.hdr x) ∧
      ((ex_freed.hdr 4096).size < 40 + META_SIZE + 8 →
        st'.hdr = upd ex_freed.hdr 4096 { ex_freed.hdr 4096 with free := false } ∧
        (st'.hdr 4096).size = (ex_freed.hdr 4096).size ∧
        (st'.hdr 4096).size - 40 ≤ META_SIZE + 7) :=
  ⟨⟨by decide, by rfl, by decide⟩,
    split_minimality (ex_cfg 1) 2 ex_freed ex_freed 4096 40 (some 4096) (by decide) (by rfl)
      (by decide)⟩

/-- C8 as stated fails: with first fit, after `my_malloc(100)`,
`p = my_malloc(2^64 - 24)` (answered with 4244, the increment wraps to 0) and
`my_free(p)`, the block at 4220 is free with size `S = 2^64 - 24`.  The call
`my_malloc(s)` with `s = 2^64 - 30` claims it; `S < s + META_SIZE + 8`, but
the sum wraps to 2 in `split_block`, so the block is split all the same: it
ends with size `s`, not `S`, and with a new successor. -/
theorem split_wraps_counterexample :
    Reach AnySize (ex_cfg 1) 4096 ex_hfree [4120] ∧
    ex_hfree.hdr 4220 = ⟨WORD - 24, true, none⟩ ∧
    find_free_block (ex_cfg 1) 3 ex_hfree ex_hfree.global_base (WORD - 30)
      = some (ex_hfree, some 4220, some 4096) ∧
    (ex_hfree.hdr 4220).size < (WORD - 30) + META_SIZE + 8 ∧
    my_malloc (ex_cfg 1) 3 ex_hfree (WORD - 30) = some (ex_hsplit, some 4244) ∧
    (ex_hsplit.hdr 4220).size = WORD - 30 ∧
    (ex_hsplit.hdr 4220).size ≠ (ex_hfree.hdr 4220).size ∧
    (ex_hsplit.hdr 4220).next ≠ (ex_hfree.hdr 4220).next := by
  have r0 : Reach AnySize (ex_cfg 1) 4096 ex_init [] := Reach.start ex_hdr ex_mem (by decide)
  have r1 : Reach AnySize (ex_cfg 1) 4096 ex_one [4120] :=
    Reach.allocate 1 100 ex_one (some 4120) r0 trivial (by rfl)
  have r2 : Reach AnySize (ex_cfg 1) 4096 ex_huge [4244, 4120] :=
    Reach.allocate 2 (WORD - META_SIZE) ex_huge (some 4244) r1 trivial (by rfl)
  have r3 : Reach AnySize (ex_cfg 1) 4096 ex_hfree [4120] :=
    Reach.release 3 (some 4244) ex_hfree r2 (by intro p hp; cases hp; decide) (by rfl)
  have e1 : ex_hfree.hdr 4220 = ⟨WORD - 24, true, none⟩ := by rfl
  have e2 : ex_hsplit.hdr 4220 = ⟨WORD - 30, false, some (4220 + META_SIZE + (WORD - 30))⟩ := by
    rfl
  have hW := WORD_eq
  have hM := META_SIZE_eq
  refine ⟨r3, e1, by rfl, ?_, by rfl, ?_, ?_, ?_⟩
  · rw [e1]
    show WORD - 24 < _
    omega
  · rw [e2]
  · rw [e1, e2]
    show WORD - 30 ≠ WORD - 24
    omega
  · rw [e1, e2]
    intro h
    cases h

/-- C9: for every finite chain without repeated blocks (so acyclic),
whatever its pattern of free and allocated blocks, `my_free(p)` returns once
the fuel exceeds the length of the chain, and in the chain it leaves no block
is free while its successor is free; a second sweep changes nothing, in the
state as on the abstract chain. -/
theorem sweep_no_adjacent_free (fuel : Nat) (st : State) (p : Nat) (bs : List Blk)
    (hr : Rep st.hdr bs st.global_base) (hnd : (addrs bs).Nodup) (hl : bs.length < fuel) :
    ∃ st' bs', my_free fuel st (some p) = some st' ∧ Rep st'.hdr bs' st'.global_base ∧
      NoAdjFree bs' ∧ merge_free_blocks fuel st' = some st' ∧ coalesce bs' = bs' := by
  have hr2 : Rep (st.setFree (p - META_SIZE) true).hdr (setFreeL (p - META_SIZE) true bs)
      (st.setFree (p - META_SIZE) true).global_base :=
    Rep_setFree (p - META_SIZE) true bs _ hnd hr
  obtain ⟨s', h1, h2, h3⟩ := sweep_chain fuel _ _ hr2
    (by rw [setFreeL_addrs]; exact hnd) (by rw [setFreeL_length]; exact hl)
  exact ⟨s', _, h1, h2, coalesce_noadj _, h3, coalesce_fix _ (coalesce_noadj _)⟩

/-- C9, a run: first fit, four blocks of 8 bytes of which the first and the
third are free (`ex_s6`); `my_free(4152)` releases the second, and the one
sweep merges all three into the free block of 72 bytes at 4096 in front of
the allocated fourth block. -/
theorem sweep_no_adjacent_free_witness :
    (Rep ex_s6.hdr ex_s6_chain ex_s6.global_base ∧ (addrs ex_s6_chain).Nodup ∧
      ex_s6_chain.length < 5) ∧
    (∃ st' bs', my_free 5 ex_s6 (some 4152) = some st' ∧ Rep st'.hdr bs' st'.global_base ∧
      NoAdjFree bs' ∧ merge_free_blocks 5 st' = some st' ∧ coalesce bs' = bs') ∧
    my_free 5 ex_s6 (some 4152) = some ex_s7 ∧
    Rep ex_s7.hdr [⟨4096, 72, true⟩, ⟨4192, 8, false⟩] ex_s7.global_base :=
  ⟨⟨⟨by rfl, by rfl, by rfl, by rfl, by rfl, by rfl, by rfl, by rfl, by rfl, by rfl, by rfl,
      by rfl, by rfl⟩, by decide, by decide⟩,
    sweep_no_adjacent_free 5 ex_s6 4152 ex_s6_chain
      ⟨by rfl, by rfl, by rfl, by rfl, by rfl, by rfl, by rfl, by rfl, by rfl, by rfl, by rfl,
        by rfl, by rfl⟩ (by decide) (by decide),
    by rfl, ⟨by rfl, by rfl, by rfl, by rfl, by rfl, by rfl, by rfl⟩⟩

/-- Any state: `my_malloc` returns as soon as its locator does. -/
theorem my_malloc_total (cfg : Config) (fuel : Nat) (st : State) (n : Nat)
    (h : ∃ res, find_free_block cfg fuel st st.global_base n = some res) :
    ∃ st' r, my_malloc cfg fuel st n = some (st', r) := by
  obtain ⟨⟨st1, blk, l⟩, hf⟩ := h
  unfold my_malloc
  by_cases hn : n = 0
  · rw [if_pos hn]; exact ⟨_, _, rfl⟩
  · rw [if_neg hn, hf]
    cases blk with
    | some a => exact ⟨_, _, rfl⟩
    | none =>
      simp only
      cases st1.global_base with
      | none =>
        simp only
        cases extend_heap cfg st1 none n with
        | mk s2 ob => cases ob <;> exact ⟨_, _, rfl⟩
      | some g =>
        simp only
        cases extend_heap cfg st1 l n with
        | mk s2 ob => cases ob <;> exact ⟨_, _, rfl⟩

/-- First fit and best fit on a chain: a located block is a fitting chain
block. -/
theorem find_free_block_mem_fb (cfg : Config) (fuel : Nat) (st st1 : State)
    (last l : Option Nat) (a n : Nat) (bs : List Blk)
    (hs : cfg.ALLOC_STRATEGY ≠ 3) (hr : Rep st.hdr bs st.global_base)
    (h : find_free_block cfg fuel st last n = some (st1, some a, l)) :
    ∃ b ∈ bs, b.addr = a ∧ fits n b = true := by
  have first : ∀ r, find_free_block_first_fit fuel st last n = some r →
      some (st, r.1, r.2) = some (st1, some a, l) → ∃ b ∈ bs, b.addr = a ∧ fits n b = true := by
    intro r hr1 he
    simp only [Option.some.injEq, Prod.mk.injEq] at he
    have := (first_fit_loop_sound st n bs _ _ fuel r hr hr1).1
    rw [he.2.1] at this
    cases hf : bs.find? (fits n) with
    | none => rw [hf] at this; simp at this
    | some b =>
      rw [hf] at this
      simp only [Option.map_some', Option.some.injEq] at this
      exact ⟨b, List.mem_of_find?_eq_some hf, this.symm, List.find?_some hf⟩
  unfold find_free_block at h
  split at h
  · cases hr1 : find_free_block_first_fit fuel st last n with
    | none => rw [hr1] at h; simp at h
    | some r => rw [hr1] at h; exact first r hr1 h
  · split at h
    · cases hr1 : find_free_block_best_fit fuel st last n with
      | none => rw [hr1] at h; simp at h
      | some r =>
        rw [hr1] at h
        simp only [Option.map_some', Option.some.injEq, Prod.mk.injEq] at h
        have := best_fit_loop_sound st n bs _ none last none fuel r hr rfl (by simp) hr1
        rw [this] at h
        simp only at h
        cases hb : bestL n bs none with
        | none => rw [hb] at h; simp at h
        | some b =>
          rw [hb] at h
          simp only [Option.map_some', Option.some.injEq] at h
          rcases bestL_mem n bs none b hb with h1 | h1
          · exact ⟨b, h1.1, h.2.1, h1.2⟩
          · simp at h1
    · cases hr1 : find_free_block_first_fit fuel st last n with
      | none => rw [hr1] at h; simp at h
      | some r => rw [hr1] at h; exact first r hr1 h

/-- C10 (as amended): with first fit or best fit, in every chain state
(the chain tiles the arena), for every size `n > 0` and with more fuel than
the chain has blocks: when some chain block is free with size at least `n`,
`my_malloc(n)` returns the payload of such a chain block and the break does
not move; when no chain block fits and `sbrk` refuses the increment,
`my_malloc(n)` returns `NULL` and the state is unchanged; when no chain block
fits, `n + META_SIZE < 2^63` and `sbrk` grants the increment, `my_malloc(n)`
returns the old break plus `META_SIZE` and the break is `META_SIZE + n` bytes
higher. -/
theorem allocate_grows_iff_no_fit (cfg : Config) (fuel : Nat) (st : State) (b0 n : Nat)
    (bs : List Blk) (hs : cfg.ALLOC_STRATEGY ≠ 3) (hwf : WF st b0 bs) (hn : n ≠ 0)
    (hl : bs.length < fuel) :
    ((∃ b ∈ bs, fits n b = true) →
      ∃ st' b, b ∈ bs ∧ fits n b = true ∧
        my_malloc cfg fuel st n = some (st', some (b.addr + META_SIZE)) ∧ st'.brk = st.brk) ∧
    ((∀ b ∈ bs, fits n b = false) →
      (sbrk cfg st (to_intptr ((n + META_SIZE) % WORD)) = none →
        my_malloc cfg fuel st n = some (st, none)) ∧
      (SizeOK n → ∀ s1 k, sbrk cfg st (to_intptr ((n + META_SIZE) % WORD)) = some (s1, k) →
        ∃ st', my_malloc cfg fuel st n = some (st', some (st.brk + META_SIZE)) ∧
          st'.brk = st.brk + META_SIZE + n)) := by
  have hM := META_SIZE_eq
  have htot := find_free_block_total cfg fuel st st.global_base n bs hs hwf.1 hl
  obtain ⟨st', r, h⟩ := my_malloc_total cfg fuel st n htot
  obtain ⟨st1, blk, l, hf, hcase⟩ := my_malloc_cases cfg fuel st st' n r hn h
  obtain ⟨_, _, f3, _, _, _, _⟩ := find_free_block_res cfg fuel st st1 _ blk l n hf
  rcases hcase with ⟨a, hb, hst', hr⟩ | ⟨hb, hr, hst', hsb⟩ | ⟨hb, hr, _, _, _, hbrk, _⟩
  · subst hb
    obtain ⟨b, hbm, hba, hbf⟩ := find_free_block_mem_fb cfg fuel st st1 _ l a n bs hs hwf.1 hf
    refine ⟨?_, ?_⟩
    · intro _
      refine ⟨st', b, hbm, hbf, by rw [h, hr, hba], ?_⟩
      rw [hst', (split_block_frame _ a n).2.2.1]
      exact f3
    · intro hno
      rw [hno b hbm] at hbf
      cases hbf
  · subst hb
    refine ⟨?_, ?_⟩
    · intro hex
      exact absurd rfl (find_free_block_hit_of_fits cfg fuel st st1 _ none l n bs hs hwf.1 hf hex)
    · intro _
      refine ⟨fun _ => by rw [h, hr, hst'], ?_⟩
      intro _ s1 k hsome
      rw [hsb] at hsome
      cases hsome
  · subst hb
    refine ⟨?_, ?_⟩
    · intro hex
      exact absurd rfl (find_free_block_hit_of_fits cfg fuel st st1 _ none l n bs hs hwf.1 hf hex)
    · intro _
      obtain ⟨s2, q1, q2⟩ := hbrk
      refine ⟨?_, ?_⟩
      · intro hnone
        rw [hnone] at q1
        cases q1
      · intro hok s1 k _
        refine ⟨st', by rw [h, hr], ?_⟩
        rw [SizeOK_sbrk n hok] at q1
        obtain ⟨_, e2, _⟩ := sbrk_some cfg st s2 (n + META_SIZE) st.brk q1
        rw [q2, e2]
        show st.brk + (n + META_SIZE) = _
        omega

/-- C10, a run of the amended claim: first fit, on the chain left by
`my_malloc(100)` no block fits 40 bytes, `sbrk(64)` is granted, and
`my_malloc(40)` returns 4244 with the break 64 bytes higher. -/
theorem allocate_grows_iff_no_fit_witness :
    ((ex_cfg 1).ALLOC_STRATEGY ≠ 3 ∧ WF ex_one 4096 [⟨4096, 100, false⟩] ∧ 40 ≠ 0 ∧
      [(⟨4096, 100, false⟩ : Blk)].length < 2 ∧
      (∀ b ∈ [(⟨4096, 100, false⟩ : Blk)], fits 40 b = false) ∧ SizeOK 40 ∧
      sbrk (ex_cfg 1) ex_one (to_intptr ((40 + META_SIZE) % WORD))
        = some ({ ex_one with brk := 4284 }, 4220)) ∧
    ∃ st', my_malloc (ex_cfg 1) 2 ex_one 40 = some (st', some (ex_one.brk + META_SIZE)) ∧
      st'.brk = ex_one.brk + META_SIZE + 40 :=
  ⟨⟨by decide, ex_one_WF.1, by decide, by decide, by decide, by decide, by rfl⟩,
    ((allocate_grows_iff_no_fit (ex_cfg 1) 2 ex_one 4096 40 _ (by decide) ex_one_WF.1
      (by decide) (by decide)).2 (by decide)).2 (by decide) _ _
      (show sbrk (ex_cfg 1) ex_one (to_intptr ((40 + META_SIZE) % WORD))
        = some ({ ex_one with brk := 4284 }, 4220) from by rfl)⟩

/-- C10 as stated fails three times.  Next fit: after `a = my_malloc(64)`,
`b = my_malloc(64)`, `my_free(a)`, `a2 = my_malloc(64)`, `my_free(b)`,
`my_free(a2)` the chain is the single free block at 4096 (152 bytes), yet
`my_malloc(64)` returns 4208, the payload of the header 4184 that the sweep
has dropped from the chain (the cursor still points at it).  First fit on a
system that refuses to move the break: no chain block is free, yet
`my_malloc(8)` does not grow the arena.  First fit on a system that grants
every request: after `my_malloc(100)` no chain block is free, `sbrk` is
called with `(2^64 - 24 + 24) mod 2^64 = 0` and succeeds, and
`my_malloc(2^64 - 24)` returns 4244 without growing the arena. -/
theorem allocate_growth_counterexample :
    (Reach SizeOK (ex_cfg 3) 4096 ex_stale [] ∧
      ex_stale.global_base = some 4096 ∧ hdrOf ex_stale 4096 = (152, true, none) ∧
      ptrOf (my_malloc (ex_cfg 3) 8 ex_stale 64) = some 4208 ∧
      (stateOf (my_malloc (ex_cfg 3) 8 ex_stale 64) ex_stale).brk = ex_stale.brk) ∧
    (ex_init.global_base = none ∧ my_malloc (ex_oom 1) 1 ex_init 8 = some (ex_init, none)) ∧
    (WF ex_one 4096 [⟨4096, 100, false⟩] ∧
      (∀ b ∈ [(⟨4096, 100, false⟩ : Blk)], fits (WORD - META_SIZE) b = false) ∧
      sbrk (ex_cfg 1) ex_one (to_intptr ((WORD - META_SIZE + META_SIZE) % WORD))
        = some (ex_one, 4220) ∧
      my_malloc (ex_cfg 1) 2 ex_one (WORD - META_SIZE) = some (ex_huge, some 4244) ∧
      ex_huge.brk = ex_one.brk) := by
  have r0 : Reach SizeOK (ex_cfg 3) 4096 ex_init [] := Reach.start ex_hdr ex_mem (by decide)
  have r1 : Reach SizeOK (ex_cfg 3) 4096 ex_st1 [4120] :=
    Reach.allocate 8 64 ex_st1 (some 4120) r0 (by decide) (by rfl)
  have r2 : Reach SizeOK (ex_cfg 3) 4096 ex_st2 [4208, 4120] :=
    Reach.allocate 8 64 ex_st2 (some 4208) r1 (by decide) (by rfl)
  have r3 : Reach SizeOK (ex_cfg 3) 4096 ex_st3 [4208] :=
    Reach.release 8 (some 4120) ex_st3 r2 (by intro p hp; cases hp; decide) (by rfl)
  have r4 : Reach SizeOK (ex_cfg 3) 4096 ex_st4 [4120, 4208] :=
    Reach.allocate 8 64 ex_st4 (some 4120) r3 (by decide) (by rfl)
  have r5 : Reach SizeOK (ex_cfg 3) 4096 ex_st5 [4120] :=
    Reach.release 8 (some 4208) ex_st5 r4 (by intro p hp; cases hp; decide) (by rfl)
  have r6 : Reach SizeOK (ex_cfg 3) 4096 ex_stale [] :=
    Reach.release 8 (some 4120) ex_stale r5 (by intro p hp; cases hp; decide) (by rfl)
  exact ⟨⟨r6, by rfl, by decide, by decide, by rfl⟩, ⟨by rfl, by rfl⟩,
    ⟨ex_one_WF.1, by decide, by rfl, by rfl, by rfl⟩⟩

/-! ## The locators against the chain as a list -/

/-- The last block reported after a full pass over a non-empty chain is its
tail. -/
theorem lastAddr_getLast : ∀ (bs : List Blk) (l : Option Nat), bs ≠ [] →
    lastAddr bs l = bs.getLast?.map Blk.addr := by
  intro bs
  induction bs with
  | nil => intro l h; exact absurd rfl h
  | cons b bs ih =>
    intro l _
    cases bs with
    | nil => simp [lastAddr]
    | cons c cs =>
      have := ih (some b.addr) (by simp)
      simp only [lastAddr] at this ⊢
      rw [this]
      simp [List.getLast?_cons_cons]

/-- The choice of best fit over a list: the result is either the candidate
held before the pass, which no block of the list beats, or a block of the
list that fits, is strictly smaller than every fitting block before it and
the candidate, and no larger than every fitting block after it. -/
theorem bestL_spec (n : Nat) :
    ∀ (bs : List Blk) (best : Option Blk) (x : Blk), bestL n bs best = some x →
      (best = some x ∧ ∀ y ∈ bs, fits n y = true → x.size ≤ y.size) ∨
      (∃ pre post, bs = pre ++ x :: post ∧ fits n x = true ∧
        (∀ y ∈ pre, fits n y = true → x.size < y.size) ∧
        (∀ y ∈ post, fits n y = true → x.size ≤ y.size) ∧
        (∀ z, best = some z → x.size < z.size)) := by
  intro bs
  induction bs with
  | nil =>
    intro best x h
    exact Or.inl ⟨h, fun y hy => by cases hy⟩
  | cons b bs ih =>
    intro best x h
    simp only [bestL] at h
    by_cases hf : fits n b = true
    · rw [if_pos hf] at h
      cases best with
      | none =>
        simp only at h
        rcases ih _ _ h with ⟨he, hall⟩ | ⟨pre, post, hbs, hx, hpre, hpost, hz⟩
        · cases he
          exact Or.inr ⟨[], bs, rfl, hf, (fun y hy => absurd hy (List.not_mem_nil y)), hall,
            (fun z hz => by cases hz)⟩
        · refine Or.inr ⟨b :: pre, post, by rw [hbs]; rfl, hx, ?_, hpost,
            (fun z hz => by cases hz)⟩
          intro y hy hfy
          rcases List.mem_cons.1 hy with rfl | hy
          · exact hz _ rfl
          · exact hpre y hy hfy
      | some z =>
        by_cases hlt : b.size < z.size
        · simp only [hlt, if_true] at h
          rcases ih _ _ h with ⟨he, hall⟩ | ⟨pre, post, hbs, hx, hpre, hpost, hz⟩
          · cases he
            exact Or.inr ⟨[], bs, rfl, hf, (fun y hy => absurd hy (List.not_mem_nil y)), hall,
              (fun w hw => by cases hw; exact hlt)⟩
          · refine Or.inr ⟨b :: pre, post, by rw [hbs]; rfl, hx, ?_, hpost, ?_⟩
            · intro y hy hfy
              rcases List.mem_cons.1 hy with rfl | hy
              · exact hz _ rfl
              · exact hpre y hy hfy
            · intro w hw
              cases hw
              exact Nat.lt_trans (hz _ rfl) hlt
        · simp only [hlt, if_false] at h
          rcases ih _ _ h with ⟨he, hall⟩ | ⟨pre, post, hbs, hx, hpre, hpost, hz⟩
          · cases he
            refine Or.inl ⟨rfl, ?_⟩
            intro y hy hfy
            rcases List.mem_cons.1 hy with rfl | hy
            · exact Nat.le_of_not_lt hlt
            · exact hall y hy hfy
          · refine Or.inr ⟨b :: pre, post, by rw [hbs]; rfl, hx, ?_, hpost, ?_⟩
            · intro y hy hfy
              rcases List.mem_cons.1 hy with rfl | hy
              · exact Nat.lt_of_lt_of_le (hz _ rfl) (Nat.le_of_not_lt hlt)
              · exact hpre y hy hfy
            · intro w hw
              cases hw
              exact hz _ rfl
    · rw [if_neg hf] at h
      rcases ih _ _ h with ⟨he, hall⟩ | ⟨pre, post, hbs, hx, hpre, hpost, hz⟩
      · refine Or.inl ⟨he, ?_⟩
        intro y hy hfy
        rcases List.mem_cons.1 hy with rfl | hy
        · exact absurd hfy hf
        · exact hall y hy hfy
      · refine Or.inr ⟨b :: pre, post, by rw [hbs]; rfl, hx, ?_, hpost, hz⟩
        intro y hy hfy
        rcases List.mem_cons.1 hy with rfl | hy
        · exact absurd hfy hf
        · exact hpre y hy hfy

/-- Best fit finds a block whenever some block of the list fits. -/
theorem bestL_some_of_fits (n : Nat) :
    ∀ (bs : List Blk) (best : Option Blk), (∃ b ∈ bs, fits n b = true) →
      ∃ x, bestL n bs best = some x := by
  intro bs best ⟨b, hb, hf⟩
  cases h : bestL n bs best with
  | some x => exact ⟨x, rfl⟩
  | none =>
    have := (bestL_none n bs best h).2 b hb
    rw [hf] at this
    cases this

/-- Every strategy but next fit leaves the state alone while it searches. -/
theorem find_free_block_state (cfg : Config) (fuel : Nat) (st st1 : State)
    (last blk l : Option Nat) (n : Nat) (hs : cfg.ALLOC_STRATEGY ≠ 3)
    (h : find_free_block cfg fuel st last n = some (st1, blk, l)) : st1 = st := by
  unfold find_free_block at h
  split at h
  · cases hr : find_free_block_first_fit fuel st last n with
    | none => simp [hr] at h
    | some r => simp [hr] at h; exact h.1.symm
  · split at h
    · cases hr : find_free_block_best_fit fuel st last n with
      | none => simp [hr] at h
      | some r => simp [hr] at h; exact h.1.symm
    · cases hr : find_free_block_first_fit fuel st last n with
      | none => simp [hr] at h
      | some r => simp [hr] at h; exact h.1.symm

/-- C11: in every state, for every strategy and every amount of fuel,
`my_malloc(0)` returns `NULL` and the state it returns with is the state it
was called in (chain, cursor, break, headers and payload bytes); so does
`my_calloc(nmemb, size)` whenever `nmemb` is 0 or `size` is 0. -/
theorem malloc_zero_is_noop (cfg : Config) (fuel : Nat) (st : State) :
    my_malloc cfg fuel st 0 = some (st, none) ∧
    (∀ size, my_calloc cfg fuel st 0 size = some (st, none)) ∧
    (∀ nmemb, my_calloc cfg fuel st nmemb 0 = some (st, none)) := by
  have h0 : my_malloc cfg fuel st 0 = some (st, none) := by simp [my_malloc]
  refine ⟨h0, ?_, ?_⟩
  · intro size
    simp [my_calloc, h0]
  · intro nmemb
    simp [my_calloc, h0]

/-- C12: on every finite chain (`bs` lists its blocks in link order), for
every request `n`, the best-fit locator returns, given more fuel than the
chain has blocks; it reports no block exactly when no chain block is free
with size at least `n`; a block it reports is a chain block that is free
with size at least `n`, strictly smaller than every such block before it in
the chain and no larger than every such block after it; and on a miss in a
non-empty chain the reported last block is the tail of the chain. -/
theorem best_fit_locator (fuel : Nat) (st : State) (last : Option Nat) (n : Nat)
    (bs : List Blk) (hr : Rep st.hdr bs st.global_base) (hl : bs.length < fuel) :
    ∃ r, find_free_block_best_fit fuel st last n = some r ∧
      (r.1 = none ↔ ∀ b ∈ bs, ¬ (b.free = true ∧ n ≤ b.size)) ∧
      (∀ a, r.1 = some a → ∃ pre b post, bs = pre ++ b :: post ∧ b.addr = a ∧
        (b.free = true ∧ n ≤ b.size) ∧
        (∀ y ∈ pre, y.free = true ∧ n ≤ y.size → b.size < y.size) ∧
        (∀ y ∈ post, y.free = true ∧ n ≤ y.size → b.size ≤ y.size)) ∧
      (r.1 = none → bs ≠ [] → r.2 = bs.getLast?.map Blk.addr) := by
  have hfit : ∀ y : Blk, fits n y = true ↔ (y.free = true ∧ n ≤ y.size) := by
    intro y; simp [fits]
  obtain ⟨r, hres⟩ := best_fit_loop_total st n bs st.global_base none last fuel hr hl
  have hs := best_fit_loop_sound st n bs st.global_base none last none fuel r hr rfl
    (fun x hx => by cases hx) hres
  refine ⟨r, hres, ?_, ?_, ?_⟩
  · rw [hs]
    constructor
    · intro h b hb hf
      have h1 : bestL n bs none = none := by
        cases hq : bestL n bs none with
        | none => rfl
        | some x => rw [hq] at h; cases h
      have := (bestL_none n bs none h1).2 b hb
      rw [(hfit b).2 hf] at this
      cases this
    · intro h
      cases hq : bestL n bs none with
      | none => rfl
      | some x =>
        rcases bestL_mem n bs none x hq with ⟨hx, hf⟩ | hb
        · exact absurd ((hfit x).1 hf) (h x hx)
        · cases hb
  · intro a ha
    rw [hs] at ha
    cases hq : bestL n bs none with
    | none => rw [hq] at ha; cases ha
    | some x =>
      rw [hq] at ha
      have hxa : x.addr = a := by simpa using ha
      rcases bestL_spec n bs none x hq with ⟨he, _⟩ | ⟨pre, post, hbs, hx, hpre, hpost, _⟩
      · cases he
      · exact ⟨pre, x, post, hbs, hxa, (hfit x).1 hx,
          fun y hy hf => hpre y hy ((hfit y).2 hf),
          fun y hy hf => hpost y hy ((hfit y).2 hf)⟩
  · intro _ hne
    rw [hs]
    exact lastAddr_getLast bs last hne

/-- C12, a run: in `ex_bf9` (free blocks of 100, 40 and 40 bytes, each
followed by an allocated block) the best-fit locator is asked for 30 bytes. -/
theorem best_fit_locator_witness :
    (Rep ex_bf9.hdr ex_bf_chain ex_bf9.global_base ∧ ex_bf_chain.length < 8) ∧
    ∃ r, find_free_block_best_fit 8 ex_bf9 none 30 = some r ∧
      (r.1 = none ↔ ∀ b ∈ ex_bf_chain, ¬ (b.free = true ∧ 30 ≤ b.size)) ∧
      (∀ a, r.1 = some a → ∃ pre b post, ex_bf_chain = pre ++ b :: post ∧ b.addr = a ∧
        (b.free = true ∧ 30 ≤ b.size) ∧
        (∀ y ∈ pre, y.free = true ∧ 30 ≤ y.size → b.size < y.size) ∧
        (∀ y ∈ post, y.free = true ∧ 30 ≤ y.size → b.size ≤ y.size)) ∧
      (r.1 = none → ex_bf_chain ≠ [] → r.2 = ex_bf_chain.getLast?.map Blk.addr) :=
  ⟨⟨⟨by rfl, by rfl, by rfl, by rfl, by rfl, by rfl, by rfl, by rfl, by rfl, by rfl,
      by rfl, by rfl, by rfl, by rfl, by rfl, by rfl, by rfl, by rfl, by rfl⟩, by decide⟩,
    best_fit_locator 8 ex_bf9 none 30 ex_bf_chain
      ⟨by rfl, by rfl, by rfl, by rfl, by rfl, by rfl, by rfl, by rfl, by rfl, by rfl,
        by rfl, by rfl, by rfl, by rfl, by rfl, by rfl, by rfl, by rfl, by rfl⟩ (by decide)⟩

/-- C13: on every finite chain (`bs` lists its blocks in link order), for
every request `n`, the first-fit locator returns, given more fuel than the
chain has blocks; it reports no block exactly when no chain block is free
with size at least `n`; a block it reports is a chain block that is free
with size at least `n` while every block before it in the chain is allocated
or smaller than `n`; on a miss in a non-empty chain the reported last block
is the tail of the chain; and the search returns in the state it was called
in. -/
theorem first_fit_locator (fuel : Nat) (st : State) (last : Option Nat) (n : Nat)
    (bs : List Blk) (hr : Rep st.hdr bs st.global_base) (hl : bs.length < fuel) :
    ∃ r, find_free_block_first_fit fuel st last n = some r ∧
      (r.1 = none ↔ ∀ b ∈ bs, ¬ (b.free = true ∧ n ≤ b.size)) ∧
      (∀ a, r.1 = some a → ∃ pre b post, bs = pre ++ b :: post ∧ b.addr = a ∧
        (b.free = true ∧ n ≤ b.size) ∧
        (∀ y ∈ pre, y.free = false ∨ y.size < n)) ∧
      (r.1 = none → bs ≠ [] → r.2 = bs.getLast?.map Blk.addr) ∧
      (∀ cfg : Config, cfg.ALLOC_STRATEGY = 1 →
        find_free_block cfg fuel st last n = some (st, r.1, r.2)) := by
  have hfit : ∀ y : Blk, fits n y = true ↔ (y.free = true ∧ n ≤ y.size) := by
    intro y; simp [fits]
  obtain ⟨r, hres⟩ := first_fit_loop_total st n bs st.global_base last fuel hr hl
  obtain ⟨hs, hlast⟩ := first_fit_loop_sound st n bs st.global_base last fuel r hr hres
  refine ⟨r, hres, ?_, ?_, ?_, ?_⟩
  · rw [hs]
    constructor
    · intro h b hb hf
      have h1 : bs.find? (fits n) = none := by
        cases hq : bs.find? (fits n) with
        | none => rfl
        | some x => rw [hq] at h; cases h
      have := (List.find?_eq_none.1 h1) b hb
      exact this ((hfit b).2 hf)
    · intro h
      have h1 : bs.find? (fits n) = none :=
        List.find?_eq_none.2 (fun x hx hf => h x hx ((hfit x).1 hf))
      rw [h1]
      rfl
  · intro a ha
    rw [hs] at ha
    cases hq : bs.find? (fits n) with
    | none => rw [hq] at ha; cases ha
    | some x =>
      rw [hq] at ha
      have hxa : x.addr = a := by simpa using ha
      obtain ⟨hx, pre, post, hbs, hpre⟩ := List.find?_eq_some.1 hq
      refine ⟨pre, x, post, hbs, hxa, (hfit x).1 hx, ?_⟩
      intro y hy
      have hy1 := hpre y hy
      cases hyf : y.free with
      | false => exact Or.inl rfl
      | true =>
        right
        simp [fits, hyf] at hy1
        exact hy1
  · intro hn hne
    rw [hlast hn]
    exact lastAddr_getLast bs last hne
  · intro cfg hc
    have hres1 : find_free_block_first_fit fuel st last n = some r := hres
    simp [find_free_block, hc, hres1]

/-- C13, a run: in `ex_bf9` (free blocks of 100, 40 and 40 bytes, each
followed by an allocated block) the first-fit locator is asked for 30
bytes. -/
theorem first_fit_locator_witness :
    (Rep ex_bf9.hdr ex_bf_chain ex_bf9.global_base ∧ ex_bf_chain.length < 8) ∧
    ∃ r, find_free_block_first_fit 8 ex_bf9 none 30 = some r ∧
      (r.1 = none ↔ ∀ b ∈ ex_bf_chain, ¬ (b.free = true ∧ 30 ≤ b.size)) ∧
      (∀ a, r.1 = some a → ∃ pre b post, ex_bf_chain = pre ++ b :: post ∧ b.addr = a ∧
        (b.free = true ∧ 30 ≤ b.size) ∧
        (∀ y ∈ pre, y.free = false ∨ y.size < 30)) ∧
      (r.1 = none → ex_bf_chain ≠ [] → r.2 = ex_bf_chain.getLast?.map Blk.addr) ∧
      (∀ cfg : Config, cfg.ALLOC_STRATEGY = 1 →
        find_free_block cfg 8 ex_bf9 none 30 = some (ex_bf9, r.1, r.2)) :=
  ⟨⟨⟨by rfl, by rfl, by rfl, by rfl, by rfl, by rfl, by rfl, by rfl, by rfl, by rfl,
      by rfl, by rfl, by rfl, by rfl, by rfl, by rfl, by rfl, by rfl, by rfl⟩, by decide⟩,
    first_fit_locator 8 ex_bf9 none 30 ex_bf_chain
      ⟨by rfl, by rfl, by rfl, by rfl, by rfl, by rfl, by rfl, by rfl, by rfl, by rfl,
        by rfl, by rfl, by rfl, by rfl, by rfl, by rfl, by rfl, by rfl, by rfl⟩ (by decide)⟩

/-- The scan of next fit in `ex_stale` for 1000 bytes, once it has left the
stale header 4184 for the head 4096, never comes back to where it started. -/
theorem ex_stale_loop : ∀ fuel : Nat, next_fit_loop ex_stale 1000 4096 4184 fuel 4096 = none := by
  have h1 : ex_stale.hdr 4096 = ⟨152, true, none⟩ := by rfl
  intro fuel
  induction fuel with
  | zero => rfl
  | succ k ih =>
    unfold next_fit_loop
    rw [h1]
    simp only
    rw [if_neg (by decide), if_pos (by decide)]
    exact ih

/-- The header written by a successful extension carries the requested size
and is marked allocated. -/
theorem extHdr_at (h : Nat → block_meta) (k n : Nat) (last : Option Nat) :
    (extHdr h k n last k).size = n ∧ (extHdr h k n last k).free = false := by
  cases last with
  | none => simp [extHdr, upd]
  | some l =>
    by_cases hl : k = l
    · simp [extHdr, upd, hl]
    · simp [extHdr, upd, hl]

/-- C14 fails on the code: with next fit the calls `a = my_malloc(64)`,
`b = my_malloc(64)`, `my_free(a)`, `a2 = my_malloc(64)`, `my_free(b)`,
`my_free(a2)` of the claim reach `ex_stale`, whose chain is the single free
block at 4096 (152 bytes) while the cursor `last_alloc` still holds 4184, the
header the sweep absorbed; there `my_malloc(1000)` does not return, whatever
the fuel: the scan starts at 4184, moves to the head and examines the head
again and again, because it never meets its starting point. -/
theorem next_fit_scan_never_halts :
    Reach SizeOK (ex_cfg 3) 4096 ex_stale [] ∧
    Rep ex_stale.hdr [⟨4096, 152, true⟩] ex_stale.global_base ∧
    ex_stale.last_alloc = some 4184 ∧
    ∀ fuel, find_free_block_next_fit fuel ex_stale ex_stale.global_base 1000 = none ∧
      my_malloc (ex_cfg 3) fuel ex_stale 1000 = none := by
  have r0 : Reach SizeOK (ex_cfg 3) 4096 ex_init [] := Reach.start ex_hdr ex_mem (by decide)
  have r1 : Reach SizeOK (ex_cfg 3) 4096 ex_st1 [4120] :=
    Reach.allocate 8 64 ex_st1 (some 4120) r0 (by decide) (by rfl)
  have r2 : Reach SizeOK (ex_cfg 3) 4096 ex_st2 [4208, 4120] :=
    Reach.allocate 8 64 ex_st2 (some 4208) r1 (by decide) (by rfl)
  have r3 : Reach SizeOK (ex_cfg 3) 4096 ex_st3 [4208] :=
    Reach.release 8 (some 4120) ex_st3 r2 (by intro p hp; cases hp; decide) (by rfl)
  have r4 : Reach SizeOK (ex_cfg 3) 4096 ex_st4 [4120, 4208] :=
    Reach.allocate 8 64 ex_st4 (some 4120) r3 (by decide) (by rfl)
  have r5 : Reach SizeOK (ex_cfg 3) 4096 ex_st5 [4120] :=
    Reach.release 8 (some 4208) ex_st5 r4 (by intro p hp; cases hp; decide) (by rfl)
  have r6 : Reach SizeOK (ex_cfg 3) 4096 ex_stale [] :=
    Reach.release 8 (some 4120) ex_stale r5 (by intro p hp; cases hp; decide) (by rfl)
  have hg : ex_stale.global_base = some 4096 := by rfl
  have hc : ex_stale.last_alloc = some 4184 := by rfl
  have h2 : ex_stale.hdr 4184 = ⟨64, true, none⟩ := by rfl
  have hloop : ∀ fuel, next_fit_loop ex_stale 1000 4096 4184 fuel 4184 = none := by
    intro fuel
    cases fuel with
    | zero => rfl
    | succ k =>
      unfold next_fit_loop
      rw [h2]
      simp only
      rw [if_neg (by decide), if_pos (by decide)]
      exact ex_stale_loop k
  have hfind : ∀ fuel, find_free_block_next_fit fuel ex_stale ex_stale.global_base 1000 = none := by
    intro fuel
    unfold find_free_block_next_fit
    rw [hg, hc]
    simp only
    rw [hloop fuel]
  refine ⟨r6, ⟨by rfl, by rfl, by rfl, by rfl⟩, hc, fun fuel => ⟨hfind fuel, ?_⟩⟩
  unfold my_malloc
  rw [if_neg (by decide)]
  have : find_free_block (ex_cfg 3) fuel ex_stale ex_stale.global_base 1000 = none := by
    unfold find_free_block
    rw [if_neg (by decide), if_neg (by decide), if_pos (by rfl)]
    exact hfind fuel
  rw [this]

/-- C16 fails on the code for next fit: after `a = my_malloc(100)`,
`b = my_malloc(40)` the chain is the block of `a` (4096) followed by the block
of `b` (4220); no block fits 200 bytes, so `c = my_malloc(200)` extends the
heap by 224 bytes, but it links the new block (4284) behind the head, where
the scan started, not behind the tail: the chain afterwards is the block of
`a` followed by the new block, the block of `b` is no longer in it, and the
successor of the head does not start `META_SIZE + 100` bytes behind it. -/
theorem next_fit_extension_drops_block :
    Reach SizeOK (ex_cfg 3) 4096 ex_nf2 [4244, 4120] ∧
    Rep ex_nf2.hdr [⟨4096, 100, false⟩, ⟨4220, 40, false⟩] ex_nf2.global_base ∧
    (∀ b ∈ [(⟨4096, 100, false⟩ : Blk), ⟨4220, 40, false⟩], fits 200 b = false) ∧
    my_malloc (ex_cfg 3) 8 ex_nf2 200 = some (ex_nf3, some 4308) ∧
    ex_nf3.brk = ex_nf2.brk + META_SIZE + 200 ∧
    Rep ex_nf3.hdr [⟨4096, 100, false⟩, ⟨4284, 200, false⟩] ex_nf3.global_base ∧
    (ex_nf3.hdr 4096).next ≠ some (4096 + META_SIZE + (ex_nf3.hdr 4096).size) := by
  have r0 : Reach SizeOK (ex_cfg 3) 4096 ex_init [] := Reach.start ex_hdr ex_mem (by decide)
  have r1 : Reach SizeOK (ex_cfg 3) 4096 ex_nf1 [4120] :=
    Reach.allocate 8 100 ex_nf1 (some 4120) r0 (by decide) (by rfl)
  have r2 : Reach SizeOK (ex_cfg 3) 4096 ex_nf2 [4244, 4120] :=
    Reach.allocate 8 40 ex_nf2 (some 4244) r1 (by decide) (by rfl)
  have e1 : ex_nf3.hdr 4096 = ⟨100, false, some 4284⟩ := by rfl
  refine ⟨r2, ⟨by rfl, by rfl, by rfl, by rfl, by rfl, by rfl, by rfl⟩, by decide, by rfl,
    by rfl, ⟨by rfl, by rfl, by rfl, by rfl, by rfl, by rfl, by rfl⟩, ?_⟩
  rw [e1]
  decide

/-- C17 as stated fails at both ends of the wrap, first fit, after
`my_malloc(100)` (break 4220, no free block).  The call `my_malloc(2^64 - 24)`
takes the extension path and succeeds, the increment handed to `sbrk` is
`(2^64 - 24 + 24) mod 2^64 = 0`, and the break does not move although the new
block claims `2^64 - 24` bytes of payload behind 4244.  The call
`my_malloc(2^64 - 25)` takes the extension path and succeeds with the
increment `-1`: the break decreases from 4220 to 4219 and the new header at
4220 lies outside the arena. -/
theorem extension_wraps_counterexample :
    ex_one.brk = 4220 ∧
    find_free_block (ex_cfg 1) 2 ex_one ex_one.global_base (WORD - META_SIZE)
      = some (ex_one, none, some 4096) ∧
    my_malloc (ex_cfg 1) 2 ex_one (WORD - META_SIZE) = some (ex_huge, some 4244) ∧
    ex_huge.brk = ex_one.brk ∧
    ¬ (4244 + (WORD - META_SIZE) ≤ ex_huge.brk) ∧
    find_free_block (ex_cfg 1) 2 ex_one ex_one.global_base (WORD - 25)
      = some (ex_one, none, some 4096) ∧
    my_malloc (ex_cfg 1) 2 ex_one (WORD - 25) = some (ex_shrink, some 4244) ∧
    ex_shrink.brk = 4219 ∧ ex_shrink.brk < ex_one.brk := by
  have e1 : ex_huge.brk = 4220 := by rfl
  have e2 : ex_one.brk = 4220 := by rfl
  have e3 : ex_shrink.brk = 4219 := by rfl
  refine ⟨e2, by rfl, by rfl, by rfl, ?_, by rfl, by rfl, e3, ?_⟩
  · rw [e1]
    have := WORD_eq
    have := META_SIZE_eq
    omega
  · rw [e2, e3]
    decide

/-- C17 (as amended): in every state, for every strategy and every size `n`
with `0 < n` and `n + META_SIZE < 2^63`, when the locator of `my_malloc(n)`
misses and the call returns a pointer `q` (the extension path succeeded),
the break has grown by exactly `META_SIZE + n`, it has not decreased and
stays below `2^63`, `q` is the old break plus `META_SIZE`, the header at the
old break records size `n` and is marked allocated, and header and payload
`[q - META_SIZE, q + n)` lie between the old break and the new one. -/
theorem extension_grows_arena (cfg : Config) (fuel : Nat) (st st1 st' : State)
    (l : Option Nat) (n q : Nat) (hn : 0 < n) (hok : SizeOK n)
    (hmiss : find_free_block cfg fuel st st.global_base n = some (st1, none, l))
    (h : my_malloc cfg fuel st n = some (st', some q)) :
    st'.brk = st.brk + (META_SIZE + n) ∧ st.brk ≤ st'.brk ∧ st'.brk < ADDR_TOP ∧
      q = st.brk + META_SIZE ∧ (st'.hdr st.brk).size = n ∧ (st'.hdr st.brk).free = false ∧
      st.brk ≤ q - META_SIZE ∧ q + n ≤ st'.brk := by
  obtain ⟨s1, blk, l1, hf, hcase⟩ := my_malloc_cases cfg fuel st st' n (some q) (by omega) h
  rw [hmiss] at hf
  simp only [Option.some.injEq, Prod.mk.injEq] at hf
  rcases hcase with ⟨a, hb, _⟩ | ⟨_, hr, _⟩ | ⟨_, hr, _, _, _, ⟨s2, hs, hbrk⟩, hh⟩
  · rw [← hf.2.1] at hb; cases hb
  · cases hr
  · rw [SizeOK_sbrk n hok] at hs
    obtain ⟨_, hs2, hlt⟩ := sbrk_some cfg st s2 (n + META_SIZE) st.brk hs
    have hb : st'.brk = st.brk + (n + META_SIZE) := by rw [hbrk, hs2]
    have hq : q = st.brk + META_SIZE := by
      simp only [Option.some.injEq] at hr
      exact hr
    obtain ⟨l0, hl0⟩ : ∃ l0, st'.hdr = extHdr st.hdr st.brk n l0 := ⟨_, hh⟩
    have hat := extHdr_at st.hdr st.brk n l0
    rw [← hl0] at hat
    refine ⟨by omega, by omega, by omega, hq, hat.1, hat.2, by omega, by omega⟩

/-- C17, a run: first fit, `my_malloc(100)` in a fresh process. -/
theorem extension_grows_arena_witness :
    (0 < 100 ∧ SizeOK 100 ∧
      find_free_block (ex_cfg 1) 1 ex_init ex_init.global_base 100
        = some (ex_init, none, none) ∧
      my_malloc (ex_cfg 1) 1 ex_init 100 = some (ex_one, some 4120)) ∧
    (ex_one.brk = ex_init.brk + (META_SIZE + 100) ∧ ex_init.brk ≤ ex_one.brk ∧
      ex_one.brk < ADDR_TOP ∧
      4120 = ex_init.brk + META_SIZE ∧ (ex_one.hdr ex_init.brk).size = 100 ∧
      (ex_one.hdr ex_init.brk).free = false ∧
      ex_init.brk ≤ 4120 - META_SIZE ∧ 4120 + 100 ≤ ex_one.brk) :=
  ⟨⟨by decide, by decide, by rfl, by rfl⟩,
    extension_grows_arena (ex_cfg 1) 1 ex_init ex_init ex_one none 100 4120 (by decide)
      (by decide) (by rfl) (by rfl)⟩

/-- The call `my_realloc(p, 0)` on a non-null pointer is `split_block` with
size 0 on the block of `p`. -/
theorem my_realloc_zero (cfg : Config) (fuel : Nat) (st : State) (a : Nat) :
    my_realloc cfg fuel st (some (a + META_SIZE)) 0
      = some (split_block st a 0, some (a + META_SIZE)) := by
  unfold my_realloc
  simp only [Nat.add_sub_cancel]
  rw [if_pos (Nat.zero_le _)]

/-- C20: in every state, for the pointer `a + META_SIZE` of every allocated
header `a` (size a machine word), `my_realloc(p, 0)` returns `p` itself, and
the block stays allocated; globals, break and payload bytes are unchanged.
When the old size is at least `META_SIZE + 8` the block is left with size 0
and a free block of the old size minus `META_SIZE` is written right behind
its header, linked to the old successor, every other header being untouched
(no sweep runs, so a free successor stays a block of its own); otherwise the
state is unchanged and the block keeps its old size.  On a chain state the
chain afterwards is the old one with the block split at size 0. -/
theorem resize_zero (cfg : Config) (fuel : Nat) (st : State) (a : Nat)
    (hfree : (st.hdr a).free = false) (hw : (st.hdr a).size < WORD) :
    ∃ st', my_realloc cfg fuel st (some (a + META_SIZE)) 0 = some (st', some (a + META_SIZE)) ∧
      st'.global_base = st.global_base ∧ st'.last_alloc = st.last_alloc ∧
      st'.brk = st.brk ∧ st'.mem = st.mem ∧ (st'.hdr a).free = false ∧
      (META_SIZE + 8 ≤ (st.hdr a).size →
        st'.hdr a = ⟨0, false, some (a + META_SIZE)⟩ ∧
        st'.hdr (a + META_SIZE) = ⟨(st.hdr a).size - META_SIZE, true, (st.hdr a).next⟩ ∧
        ∀ x, x ≠ a → x ≠ a + META_SIZE → st'.hdr x = st.hdr x) ∧
      ((st.hdr a).size < META_SIZE + 8 → st' = st) ∧
      (∀ b0 bs, WF st b0 bs → a ∈ addrs bs → WF st' b0 (splitL 0 a bs)) := by
  have hM := META_SIZE_eq
  have hW := WORD_eq
  have h32 : (0 + META_SIZE + 8) % WORD = META_SIZE + 8 := by
    rw [Nat.zero_add]
    exact Nat.mod_eq_of_lt (by omega)
  obtain ⟨f1, f2, f3, f4⟩ := split_block_frame st a 0
  refine ⟨split_block st a 0, my_realloc_zero cfg fuel st a, f1, f2, f3, f4, ?_, ?_, ?_, ?_⟩
  · by_cases hc : META_SIZE + 8 ≤ (st.hdr a).size
    · rw [split_block_hdr st a 0 (by rw [h32]; exact hc)]
      simp [upd, hfree]
    · rw [split_block_hdr_no st a 0 (by rw [h32]; exact hc)]
      exact hfree
  · intro hc
    have hne : a + META_SIZE ≠ a := by omega
    have hs : sub64 (sub64 (st.hdr a).size 0) META_SIZE = (st.hdr a).size - META_SIZE := by
      rw [sub64_eq _ 0 hw (Nat.zero_le _), Nat.sub_zero, sub64_eq _ _ hw (by omega)]
    rw [split_block_hdr st a 0 (by rw [h32]; exact hc), hs]
    refine ⟨?_, ?_, ?_⟩
    · simp [upd, hfree]
    · simp [upd, hne]
    · intro x hx1 hx2
      simp [upd, hx1, hx2]
  · intro hc
    exact split_block_hdr_no st a 0 (by rw [h32]; omega)
  · intro b0 bs hwf ha
    obtain ⟨b, hb, hba⟩ := mem_addrs.1 ha
    exact split_WF st b0 a 0 bs b hwf hb hba (Nat.zero_le _)

/-- C20, a run: first fit, `my_realloc(4120, 0)` on the block of 100 bytes
left by `my_malloc(100)`. -/
theorem resize_zero_witness :
    ((ex_one.hdr 4096).free = false ∧ (ex_one.hdr 4096).size < WORD) ∧
    ∃ st', my_realloc (ex_cfg 1) 2 ex_one (some (4096 + META_SIZE)) 0
        = some (st', some (4096 + META_SIZE)) ∧
      st'.global_base = ex_one.global_base ∧ st'.last_alloc = ex_one.last_alloc ∧
      st'.brk = ex_one.brk ∧ st'.mem = ex_one.mem ∧ (st'.hdr 4096).free = false ∧
      (META_SIZE + 8 ≤ (ex_one.hdr 4096).size →
        st'.hdr 4096 = ⟨0, false, some (4096 + META_SIZE)⟩ ∧
        st'.hdr (4096 + META_SIZE)
          = ⟨(ex_one.hdr 4096).size - META_SIZE, true, (ex_one.hdr 4096).next⟩ ∧
        ∀ x, x ≠ 4096 → x ≠ 4096 + META_SIZE → st'.hdr x = ex_one.hdr x) ∧
      ((ex_one.hdr 4096).size < META_SIZE + 8 → st' = ex_one) ∧
      (∀ b0 bs, WF ex_one b0 bs → 4096 ∈ addrs bs → WF st' b0 (splitL 0 4096 bs)) :=
  ⟨⟨by rfl, by rw [show (ex_one.hdr 4096).size = 100 from by rfl]; decide⟩,
    resize_zero (ex_cfg 1) 2 ex_one 4096 (by rfl)
      (by rw [show (ex_one.hdr 4096).size = 100 from by rfl]; decide)⟩

/-- A chain that tiles `[lo, hi)` accounts for exactly `hi - lo` bytes. -/
theorem Tiled_footprint : ∀ (bs : List Blk) (lo hi : Nat), Tiled lo bs hi →
    lo + footprint bs = hi := by
  intro bs
  induction bs with
  | nil => intro lo hi h; simpa [footprint, Tiled] using h
  | cons b bs ih =>
    intro lo hi h
    have := ih _ _ h.2
    simp only [footprint, List.map_cons, List.sum_cons] at this ⊢
    omega

/-- One more block adds its header and its payload to the bytes of a chain. -/
theorem footprint_append (bs : List Blk) (b : Blk) :
    footprint (bs ++ [b]) = footprint bs + (META_SIZE + b.size) := by
  simp [footprint]

/-- A granted extension behind the tail, whatever the size: the chain becomes
the old one followed by the new block. -/
theorem extend_Rep (st st' : State) (b0 n : Nat) (bs : List Blk) (l : Option Nat)
    (hwf : WF st b0 bs) (hl : l = lastAddr bs st.global_base)
    (hg : st'.global_base = (match st.global_base with
            | none => some st.brk
            | some g => some g))
    (hh : st'.hdr = extHdr st.hdr st.brk n (match st.global_base with
            | none => none
            | some _ => l)) :
    Rep st'.hdr (bs ++ [⟨st.brk, n, false⟩]) st'.global_base := by
  obtain ⟨hr, ht, _⟩ := hwf
  have hnd := Tiled_nodup bs _ _ ht
  have hM := META_SIZE_eq
  have hk : st.brk ∉ addrs bs := by
    intro hin
    obtain ⟨y, hy, hya⟩ := mem_addrs.1 hin
    have := (Tiled_mem _ _ _ ht y hy).2
    omega
  cases bs with
  | nil =>
    simp only [Rep] at hr
    rw [hr] at hg hh
    simp only at hg hh
    rw [hg, hh]
    simp only [extHdr, List.nil_append]
    exact ⟨rfl, by simp, by simp, by simp [Rep]⟩
  | cons b bs =>
    have hgb : st.global_base = some b.addr := hr.1
    rw [hgb] at hg hh hl
    simp only at hg hh
    rw [hg, hh]
    obtain ⟨l2, q1, _⟩ := lastAddr_mem (b :: bs) (some b.addr) (by simp)
    rw [hl, q1]
    simp only [extHdr]
    rw [hgb] at hr
    exact Rep_extend st.brk n (b :: bs) _ (some b.addr) l2 hnd hk hr q1 (by simp)

/-- C19 as stated fails under first fit: after `my_malloc(100)` the call
`my_malloc(2^64 - 24)` succeeds with an increment of 0, so the chain has two
blocks whose headers and payloads add up to `2^64 + 124` bytes while 124
bytes have been obtained from the system. -/
theorem footprint_counterexample :
    Reach AnySize (ex_cfg 1) 4096 ex_huge [4244, 4120] ∧
    Rep ex_huge.hdr [⟨4096, 100, false⟩, ⟨4220, WORD - META_SIZE, false⟩]
      ex_huge.global_base ∧
    footprint [⟨4096, 100, false⟩, ⟨4220, WORD - META_SIZE, false⟩] = WORD + 124 ∧
    ex_huge.brk - 4096 = 124 := by
  have r0 : Reach AnySize (ex_cfg 1) 4096 ex_init [] := Reach.start ex_hdr ex_mem (by decide)
  have r1 : Reach AnySize (ex_cfg 1) 4096 ex_one [4120] :=
    Reach.allocate 1 100 ex_one (some 4120) r0 trivial (by rfl)
  have r2 : Reach AnySize (ex_cfg 1) 4096 ex_huge [4244, 4120] :=
    Reach.allocate 2 (WORD - META_SIZE) ex_huge (some 4244) r1 trivial (by rfl)
  exact ⟨r2, ⟨by rfl, by rfl, by rfl, by rfl, by rfl, by rfl, by rfl⟩, by decide, by rfl⟩

/-- C19 (as amended): with first fit or best fit, on every chain state
(the chain from `global_base` tiles the arena from the initial break `b0` to
the break): `split_block` on a chain block with a size no larger than the
block, and `merge_free_blocks`, each leave a chain state whose blocks add up
(header plus payload) to the same number of bytes; a call `my_malloc(n)`,
`n > 0`, whose locator misses and which returns a pointer leaves the old
chain followed by the new block, which adds up to `META_SIZE + n` more; and
in every state reached from a fresh process by calls whose sizes satisfy
`size + META_SIZE < 2^63` the blocks of the chain add up to the bytes between
the initial break and the break. -/
theorem footprint_conserved (cfg : Config) (b0 : Nat) (hs : cfg.ALLOC_STRATEGY ≠ 3) :
    (∀ (st : State) (bs : List Blk) (a n : Nat) (b : Blk), WF st b0 bs → b ∈ bs →
      b.addr = a → n ≤ b.size →
        WF (split_block st a n) b0 (splitL n a bs) ∧ footprint (splitL n a bs) = footprint bs) ∧
    (∀ (st st' : State) (bs : List Blk) (fuel : Nat), WF st b0 bs →
      merge_free_blocks fuel st = some st' →
        WF st' b0 (coalesce bs) ∧ footprint (coalesce bs) = footprint bs) ∧
    (∀ (st st1 st' : State) (bs : List Blk) (fuel n q : Nat) (l : Option Nat), WF st b0 bs →
      0 < n → find_free_block cfg fuel st st.global_base n = some (st1, none, l) →
      my_malloc cfg fuel st n = some (st', some q) →
        Rep st'.hdr (bs ++ [⟨st.brk, n, false⟩]) st'.global_base ∧
        footprint (bs ++ [⟨st.brk, n, false⟩]) = footprint bs + (META_SIZE + n)) ∧
    (∀ (st : State) (live : List Nat), Reach SizeOK cfg b0 st live →
      ∃ bs, Rep st.hdr bs st.global_base ∧ b0 ≤ st.brk ∧ footprint bs = st.brk - b0) := by
  refine ⟨?_, ?_, ?_, ?_⟩
  · intro st bs a n b hwf hb hba hn
    have hwf2 := split_WF st b0 a n bs b hwf hb hba hn
    have t1 := Tiled_footprint _ _ _ hwf.2.1
    have t2 := Tiled_footprint _ _ _ hwf2.2.1
    rw [(split_block_frame st a n).2.2.1] at t2
    exact ⟨hwf2, by omega⟩
  · intro st st' bs fuel hwf h
    obtain ⟨hwf2, _, _, hbrk, _⟩ := merge_WF st st' fuel b0 bs hwf h
    have t1 := Tiled_footprint _ _ _ hwf.2.1
    have t2 := Tiled_footprint _ _ _ hwf2.2.1
    rw [hbrk] at t2
    exact ⟨hwf2, by omega⟩
  · intro st st1 st' bs fuel n q l hwf hn hmiss h
    refine ⟨?_, footprint_append bs _⟩
    obtain ⟨s1, blk, l1, hf, hcase⟩ := my_malloc_cases cfg fuel st st' n (some q) (by omega) h
    obtain ⟨hl1, _⟩ := find_free_block_miss cfg fuel st st1 st.global_base l n bs hs hwf.1 hmiss
    rw [hmiss] at hf
    simp only [Option.some.injEq, Prod.mk.injEq] at hf
    rcases hcase with ⟨a, hb, _⟩ | ⟨_, hr, _⟩ | ⟨_, _, _, _, hg, _, hh⟩
    · rw [← hf.2.1] at hb; cases hb
    · cases hr
    · rw [← hf.2.2] at hh
      exact extend_Rep st st' b0 n bs l hwf hl1 hg hh
  · intro st live hR
    obtain ⟨bs, hwf, _, _⟩ := reach_inv cfg b0 st live hs hR
    have t1 := Tiled_footprint _ _ _ hwf.2.1
    exact ⟨bs, hwf.1, by omega, by omega⟩

/-- C19, runs of the amended claim, first fit, initial break 4096:
`split_block` at 40 bytes on the free block of 100 bytes of `ex_freed`; the
sweep on `ex_mid`, which merges the free neighbours at 4096 and 4128; the
extension by `my_malloc(40)` on the chain left by `my_malloc(100)`; and the
state reached by these two calls. -/
theorem footprint_conserved_witness :
    ((ex_cfg 1).ALLOC_STRATEGY ≠ 3 ∧
      WF ex_freed 4096 [⟨4096, 100, true⟩] ∧ 40 ≤ 100 ∧
      WF ex_mid 4096 [⟨4096, 8, true⟩, ⟨4128, 8, true⟩, ⟨4160, 8, false⟩] ∧
      merge_free_blocks 4 ex_mid = some ex_pair1 ∧
      WF ex_one 4096 [⟨4096, 100, false⟩] ∧ 0 < 40 ∧
      find_free_block (ex_cfg 1) 2 ex_one ex_one.global_base 40
        = some (ex_one, none, some 4096) ∧
      my_malloc (ex_cfg 1) 2 ex_one 40 = some (ex_two, some 4244) ∧
      Reach SizeOK (ex_cfg 1) 4096 ex_two [4244, 4120]) ∧
    (WF (split_block ex_freed 4096 40) 4096 (splitL 40 4096 [⟨4096, 100, true⟩]) ∧
      footprint (splitL 40 4096 [⟨4096, 100, true⟩]) = footprint [⟨4096, 100, true⟩]) ∧
    (WF ex_pair1 4096 (coalesce [⟨4096, 8, true⟩, ⟨4128, 8, true⟩, ⟨4160, 8, false⟩]) ∧
      footprint (coalesce [⟨4096, 8, true⟩, ⟨4128, 8, true⟩, ⟨4160, 8, false⟩])
        = footprint [⟨4096, 8, true⟩, ⟨4128, 8, true⟩, ⟨4160, 8, false⟩]) ∧
    (Rep ex_two.hdr ([⟨4096, 100, false⟩] ++ [⟨ex_one.brk, 40, false⟩]) ex_two.global_base ∧
      footprint ([⟨4096, 100, false⟩] ++ [⟨ex_one.brk, 40, false⟩])
        = footprint [⟨4096, 100, false⟩] + (META_SIZE + 40)) ∧
    (∃ bs, Rep ex_two.hdr bs ex_two.global_base ∧ 4096 ≤ ex_two.brk ∧
      footprint bs = ex_two.brk - 4096) :=
  have hw1 : WF ex_freed 4096 [⟨4096, 100, true⟩] :=
    ⟨⟨by rfl, by rfl, by rfl, by rfl⟩, ⟨rfl, by rfl⟩, by decide⟩
  have hw2 : WF ex_mid 4096 [⟨4096, 8, true⟩, ⟨4128, 8, true⟩, ⟨4160, 8, false⟩] :=
    ⟨⟨by rfl, by rfl, by rfl, by rfl, by rfl, by rfl, by rfl, by rfl, by rfl, by rfl⟩,
      ⟨rfl, rfl, rfl, by rfl⟩, by decide⟩
  have hR : Reach SizeOK (ex_cfg 1) 4096 ex_two [4244, 4120] :=
    Reach.allocate 2 40 ex_two (some 4244)
      (Reach.allocate 1 100 ex_one (some 4120) (Reach.start ex_hdr ex_mem (by decide))
        (by decide) (by rfl)) (by decide) (by rfl)
  have T := footprint_conserved (ex_cfg 1) 4096 (by decide)
  ⟨⟨by decide, hw1, by decide, hw2, by rfl, ex_one_WF.1, by decide, by rfl, by rfl, hR⟩,
    T.1 ex_freed _ 4096 40 ⟨4096, 100, true⟩ hw1 (List.mem_singleton.2 rfl) rfl (by decide),
    T.2.1 ex_mid ex_pair1 _ 4 hw2 (by rfl),
    T.2.2.1 ex_one ex_one ex_two _ 2 40 4244 (some 4096) ex_one_WF.1 (by decide) (by rfl)
      (by rfl),
    T.2.2.2 ex_two _ hR⟩

/-! ## What a call leaves alone -/

/-- No path of `my_malloc` writes payload bytes. -/
theorem my_malloc_mem (cfg : Config) (fuel : Nat) (st st' : State) (n : Nat) (r : Option Nat)
    (h : my_malloc cfg fuel st n = some (st', r)) : st'.mem = st.mem := by
  by_cases hn : n = 0
  · subst hn
    simp only [my_malloc, if_true, Option.some.injEq, Prod.mk.injEq] at h
    rw [← h.1]
  · obtain ⟨s1, blk, l, hf, hcase⟩ := my_malloc_cases cfg fuel st st' n r hn h
    obtain ⟨_, _, _, hm, _⟩ := find_free_block_res cfg fuel st s1 _ blk l n hf
    rcases hcase with ⟨a, _, hst, _⟩ | ⟨_, _, hst, _⟩ | ⟨_, _, hm2, _⟩
    · rw [hst, (split_block_frame _ a n).2.2.2]
      exact hm
    · rw [hst]
    · exact hm2

theorem setFreeL_mem_ne (a : Nat) (v : Bool) :
    ∀ (bs : List Blk) (x : Blk), x ∈ bs → x.addr ≠ a → x ∈ setFreeL a v bs := by
  intro bs
  induction bs with
  | nil => intro x hx; cases hx
  | cons b bs ih =>
    intro x hx hne
    simp only [setFreeL]
    rcases List.mem_cons.1 hx with rfl | hx
    · rw [if_neg hne]
      exact List.mem_cons_self _ _
    · split
      · exact List.mem_cons_of_mem _ hx
      · exact List.mem_cons_of_mem _ (ih x hx hne)

theorem splitL_mem_ne (n a : Nat) :
    ∀ (bs : List Blk) (x : Blk), x ∈ bs → x.addr ≠ a → x ∈ splitL n a bs := by
  intro bs
  induction bs with
  | nil => intro x hx; cases hx
  | cons b bs ih =>
    intro x hx hne
    simp only [splitL]
    rcases List.mem_cons.1 hx with rfl | hx
    · rw [if_neg hne]
      exact List.mem_cons_self _ _
    · split
      · split
        · exact List.mem_cons_of_mem _ (List.mem_cons_of_mem _ hx)
        · exact List.mem_cons_of_mem _ hx
      · exact List.mem_cons_of_mem _ (ih x hx hne)

theorem splitL_length_le (n a : Nat) :
    ∀ bs : List Blk, (splitL n a bs).length ≤ bs.length + 1 := by
  intro bs
  induction bs with
  | nil => simp [splitL]
  | cons b bs ih =>
    simp only [splitL]
    split
    · split
      · simp
      · simp
    · simp only [List.length_cons]
      omega

/-- An allocated chain block is kept as it is by the sweep. -/
theorem coalesce_alloc_mem (bs : List Blk) (x : Blk) (hx : x ∈ bs) (hf : x.free = false) :
    x ∈ coalesce bs := by
  cases bs with
  | nil => cases hx
  | cons b rest => exact coal_alloc_mem rest b x hx hf

/-- The sweep on a finite chain without repeated headers. -/
theorem merge_Rep (st st' : State) (fuel : Nat) (bs : List Blk)
    (hr : Rep st.hdr bs st.global_base) (hnd : (addrs bs).Nodup)
    (h : merge_free_blocks fuel st = some st') :
    Rep st'.hdr (coalesce bs) st'.global_base ∧ st'.mem = st.mem := by
  obtain ⟨g1, _, _, g4, _, _⟩ := merge_loop_frame fuel st st' _ h
  refine ⟨?_, g4⟩
  rw [g1]
  cases bs with
  | nil =>
    simp only [Rep] at hr
    simp only [merge_free_blocks, hr] at h
    cases fuel with
    | zero => simp [merge_loop] at h
    | succ fuel =>
      simp only [merge_loop, Option.some.injEq] at h
      subst h
      rw [hr]
      simp [coalesce, Rep]
  | cons b rest =>
    have hgb : st.global_base = some b.addr := hr.1
    simp only [merge_free_blocks, hgb] at h
    rw [hgb] at hr ⊢
    exact (merge_loop_sound rest b st st' fuel hnd hr h).1

/-- The function `my_free` on a finite chain without repeated headers. -/
theorem my_free_Rep (st st' : State) (fuel p : Nat) (bs : List Blk)
    (hr : Rep st.hdr bs st.global_base) (hnd : (addrs bs).Nodup)
    (h : my_free fuel st (some p) = some st') :
    Rep st'.hdr (coalesce (setFreeL (p - META_SIZE) true bs)) st'.global_base ∧
      st'.mem = st.mem := by
  have hr2 : Rep (st.setFree (p - META_SIZE) true).hdr (setFreeL (p - META_SIZE) true bs)
      (st.setFree (p - META_SIZE) true).global_base := by
    rw [setFree_hdr]
    exact Rep_setFree _ true bs _ hnd hr
  have hnd2 : (addrs (setFreeL (p - META_SIZE) true bs)).Nodup := by
    rw [setFreeL_addrs]; exact hnd
  exact merge_Rep (st.setFree (p - META_SIZE) true) st' fuel _ hr2 hnd2 h

/-- The function `my_free` returns on a finite chain without repeated
headers, given more fuel than the chain has blocks. -/
theorem my_free_total_Rep (st : State) (fuel : Nat) (ptr : Option Nat) (bs : List Blk)
    (hr : Rep st.hdr bs st.global_base) (hnd : (addrs bs).Nodup) (hl : bs.length < fuel) :
    ∃ st', my_free fuel st ptr = some st' := by
  cases ptr with
  | none => exact ⟨st, rfl⟩
  | some p =>
    have hr2 : Rep (st.setFree (p - META_SIZE) true).hdr (setFreeL (p - META_SIZE) true bs)
        (st.setFree (p - META_SIZE) true).global_base := by
      rw [setFree_hdr]
      exact Rep_setFree _ true bs _ hnd hr
    have hnd2 : (addrs (setFreeL (p - META_SIZE) true bs)).Nodup := by
      rw [setFreeL_addrs]; exact hnd
    have hl2 : (setFreeL (p - META_SIZE) true bs).length < fuel := by
      rw [setFreeL_length]; exact hl
    generalize hst : st.setFree (p - META_SIZE) true = s at hr2
    generalize hbs : setFreeL (p - META_SIZE) true bs = cs at hr2 hnd2 hl2
    simp only [my_free, hst]
    cases cs with
    | nil =>
      simp only [Rep] at hr2
      cases fuel with
      | zero => simp at hl2
      | succ fuel => exact ⟨s, by simp [merge_free_blocks, hr2, merge_loop]⟩
    | cons b rest =>
      have hgb : s.global_base = some b.addr := hr2.1
      simp only [merge_free_blocks, hgb]
      rw [hgb] at hr2
      exact merge_loop_total rest b s fuel hnd2 hr2
        (by simp only [List.length_cons] at hl2; omega)

/-- First fit and best fit, `my_malloc` on a chain state, whatever the size:
the state it returns with has a finite chain without repeated headers, at
most one block longer, that still holds every allocated block of the old
chain; and the `n` bytes at the returned pointer are outside the payload of
every allocated block of the old chain. -/
theorem malloc_chain (cfg : Config) (fuel : Nat) (st st' : State) (b0 n : Nat)
    (r : Option Nat) (bs : List Blk) (hs : cfg.ALLOC_STRATEGY ≠ 3) (hwf : WF st b0 bs)
    (h : my_malloc cfg fuel st n = some (st', r)) :
    ∃ bs', Rep st'.hdr bs' st'.global_base ∧ (addrs bs').Nodup ∧
      bs'.length ≤ bs.length + 1 ∧ (∀ b ∈ bs, b.free = false → b ∈ bs') ∧
      (∀ q, r = some q → ∀ b ∈ bs, b.free = false →
        b.addr + META_SIZE + b.size ≤ q ∨ q + n ≤ b.addr + META_SIZE) := by
  have hnd := Tiled_nodup bs _ _ hwf.2.1
  have same : ∀ s : State, s = st → ∃ bs', Rep s.hdr bs' s.global_base ∧ (addrs bs').Nodup ∧
      bs'.length ≤ bs.length + 1 ∧ (∀ b ∈ bs, b.free = false → b ∈ bs') := by
    intro s hs1
    subst hs1
    exact ⟨bs, hwf.1, hnd, Nat.le_succ _, fun b hb _ => hb⟩
  by_cases hn : n = 0
  · subst hn
    simp only [my_malloc, if_true, Option.some.injEq, Prod.mk.injEq] at h
    obtain ⟨bs', k1, k2, k3, k4⟩ := same st' h.1.symm
    refine ⟨bs', k1, k2, k3, k4, ?_⟩
    intro q hq
    rw [← h.2] at hq
    cases hq
  · obtain ⟨s1, blk, l, hf, hcase⟩ := my_malloc_cases cfg fuel st st' n r hn h
    obtain ⟨e1, e2, e3, _, _⟩ := find_free_block_res cfg fuel st s1 _ blk l n hf
    rcases hcase with ⟨a, hb, hst, hr⟩ | ⟨_, hr, hst, _⟩ | ⟨hb, hr, _, _, hg, _, hh⟩
    · subst hb
      obtain ⟨c, hc, hca, hfit⟩ := find_free_block_mem_fb cfg fuel st s1 _ l a n bs hs hwf.1 hf
      have hcf : c.free = true ∧ n ≤ c.size := by simpa [fits] using hfit
      have hwf2 := hit_WF s1 st b0 a n bs c hwf hc hca hcf.2 e1 e2 e3
      rw [← hst] at hwf2
      have hne : ∀ b ∈ bs, b.free = false → b.addr ≠ a := by
        intro b hbm hbf hba
        have := Tiled_addr_inj bs _ _ hwf.2.1 b c hbm hc (by rw [hba, hca])
        rw [this, hcf.1] at hbf
        cases hbf
      refine ⟨_, hwf2.1, Tiled_nodup _ _ _ hwf2.2.1, ?_, ?_, ?_⟩
      · have := splitL_length_le n a (setFreeL a false bs)
        rw [setFreeL_length] at this
        exact this
      · intro b hbm hbf
        exact splitL_mem_ne n a _ b (setFreeL_mem_ne a false bs b hbm (hne b hbm hbf))
          (hne b hbm hbf)
      · intro q hq b hbm hbf
        rw [hr] at hq
        simp only [Option.some.injEq] at hq
        have hbc : b ≠ c := by
          intro e
          rw [e, hcf.1] at hbf
          cases hbf
        have := pairwise_sep bs (Tiled_pairwise bs _ _ hwf.2.1) b c hbm hc hbc
        have h2 := hcf.2
        omega
    · obtain ⟨bs', k1, k2, k3, k4⟩ := same st' hst
      refine ⟨bs', k1, k2, k3, k4, ?_⟩
      intro q hq
      rw [hr] at hq
      cases hq
    · subst hb
      obtain ⟨hl1, _⟩ := find_free_block_miss cfg fuel st s1 st.global_base l n bs hs hwf.1 hf
      have hrep := extend_Rep st st' b0 n bs l hwf hl1 hg hh
      have hk : st.brk ∉ addrs bs := by
        intro hin
        obtain ⟨y, hy, hya⟩ := mem_addrs.1 hin
        have := (Tiled_mem _ _ _ hwf.2.1 y hy).2
        have hM := META_SIZE_eq
        omega
      refine ⟨_, hrep, ?_, by simp, fun b hbm _ => List.mem_append_left _ hbm, ?_⟩
      · have e : addrs (bs ++ [⟨st.brk, n, false⟩]) = addrs bs ++ [st.brk] := by
          simp [addrs]
        rw [e]
        exact List.Nodup.append hnd (List.nodup_singleton _)
          (by
            intro x hx1 hx2
            rw [List.mem_singleton] at hx2
            rw [hx2] at hx1
            exact hk hx1)
      · intro q hq b hbm _
        rw [hr] at hq
        simp only [Option.some.injEq] at hq
        have := (Tiled_mem _ _ _ hwf.2.1 b hbm).2
        left
        omega

/-- First fit and best fit: `my_malloc` returns on a chain state, given more
fuel than the chain has blocks. -/
theorem my_malloc_total_fb (cfg : Config) (fuel : Nat) (st : State) (n : Nat) (bs : List Blk)
    (hs : cfg.ALLOC_STRATEGY ≠ 3) (hr : Rep st.hdr bs st.global_base) (hl : bs.length < fuel) :
    ∃ st' r, my_malloc cfg fuel st n = some (st', r) :=
  my_malloc_total cfg fuel st n (find_free_block_total cfg fuel st _ n bs hs hr hl)

/-- First fit and best fit: `my_malloc` on a chain state leaves every
allocated block alone. -/
theorem malloc_untouched (cfg : Config) (fuel : Nat) (st st' : State) (b0 n : Nat)
    (r : Option Nat) (bs : List Blk) (hs : cfg.ALLOC_STRATEGY ≠ 3) (hwf : WF st b0 bs)
    (h : my_malloc cfg fuel st n = some (st', r)) :
    ∃ bs', Untouched st st' bs bs' none := by
  obtain ⟨bs', k1, _, _, k4, _⟩ := malloc_chain cfg fuel st st' b0 n r bs hs hwf h
  refine ⟨bs', k1, ?_⟩
  intro b hb hbf _
  refine ⟨k4 b hb hbf, ?_⟩
  intro i _
  rw [my_malloc_mem cfg fuel st st' n r h]

/-- First fit and best fit: `my_calloc` on a chain state leaves every
allocated block alone. -/
theorem calloc_untouched (cfg : Config) (fuel : Nat) (st st' : State) (b0 nmemb size : Nat)
    (r : Option Nat) (bs : List Blk) (hs : cfg.ALLOC_STRATEGY ≠ 3) (hwf : WF st b0 bs)
    (h : my_calloc cfg fuel st nmemb size = some (st', r)) :
    ∃ bs', Untouched st st' bs bs' none := by
  unfold my_calloc at h
  simp only at h
  cases hm : my_malloc cfg fuel st ((nmemb * size) % WORD) with
  | none => rw [hm] at h; cases h
  | some res =>
    obtain ⟨s1, r1⟩ := res
    rw [hm] at h
    cases r1 with
    | none =>
      simp only [Option.some.injEq, Prod.mk.injEq] at h
      rw [← h.1]
      exact malloc_untouched cfg fuel st s1 b0 _ none bs hs hwf hm
    | some p =>
      simp only [Option.some.injEq, Prod.mk.injEq] at h
      obtain ⟨bs', k1, _, _, k4, k5⟩ := malloc_chain cfg fuel st s1 b0 _ _ bs hs hwf hm
      have hmem := my_malloc_mem cfg fuel st s1 _ _ hm
      refine ⟨bs', ?_, ?_⟩
      · rw [← h.1]
        exact k1
      · intro b hb hbf _
        refine ⟨k4 b hb hbf, ?_⟩
        intro i hi
        rw [← h.1]
        simp only [memset_zero]
        have := k5 p rfl b hb hbf
        rw [if_neg (by omega), hmem]

/-- The function `my_free` on a chain state leaves every allocated block but
the one released alone. -/
theorem free_untouched (fuel : Nat) (st st' : State) (b0 : Nat) (ptr : Option Nat)
    (bs : List Blk) (hwf : WF st b0 bs) (h : my_free fuel st ptr = some st') :
    ∃ bs', Untouched st st' bs bs' (blockOf ptr) := by
  cases ptr with
  | none =>
    simp only [my_free, Option.some.injEq] at h
    subst h
    exact ⟨bs, hwf.1, fun b hb _ _ => ⟨hb, fun i _ => rfl⟩⟩
  | some p =>
    obtain ⟨hwf2, hmem, _, _⟩ := my_free_WF st st' fuel b0 p bs hwf h
    refine ⟨_, hwf2.1, ?_⟩
    intro b hb hbf hne
    have hba : b.addr ≠ p - META_SIZE := by
      intro e
      apply hne
      simp [blockOf, e]
    refine ⟨coalesce_alloc_mem _ b (setFreeL_mem_ne _ true bs b hb hba) hbf, ?_⟩
    intro i _
    rw [hmem]

/-- First fit and best fit: `my_realloc` on the pointer of an allocated chain
block (or on `NULL`) leaves every other allocated block alone. -/
theorem realloc_untouched (cfg : Config) (fuel : Nat) (st st' : State) (b0 n : Nat)
    (ptr r : Option Nat) (bs : List Blk) (hs : cfg.ALLOC_STRATEGY ≠ 3) (hwf : WF st b0 bs)
    (hp : ∀ p, ptr = some p → ∃ a, p = a + META_SIZE ∧ Alloc bs a)
    (h : my_realloc cfg fuel st ptr n = some (st', r)) :
    ∃ bs', Untouched st st' bs bs' (blockOf ptr) := by
  cases ptr with
  | none => exact malloc_untouched cfg fuel st st' b0 n r bs hs hwf h
  | some p =>
    obtain ⟨a, hpa, ba, hba, hbaa, hbaf⟩ := hp p rfl
    subst hpa
    have hsk : blockOf (some (a + META_SIZE)) = some a := by simp [blockOf]
    rw [hsk]
    have hsz : (st.hdr a).size = ba.size := by
      have := (Rep_mem bs _ hwf.1 ba hba).1
      rw [hbaa] at this
      exact this
    unfold my_realloc at h
    simp only [Nat.add_sub_cancel] at h
    by_cases hc : n ≤ (st.hdr a).size
    · rw [if_pos hc] at h
      simp only [Option.some.injEq, Prod.mk.injEq] at h
      rw [← h.1]
      have hwf2 := split_WF st b0 a n bs ba hwf hba hbaa (by omega)
      refine ⟨_, hwf2.1, ?_⟩
      intro b hb _ hne
      have hne2 : b.addr ≠ a := fun e => hne (by rw [e])
      refine ⟨splitL_mem_ne n a bs b hb hne2, ?_⟩
      intro i _
      rw [(split_block_frame st a n).2.2.2]
    · rw [if_neg hc] at h
      cases hm : my_malloc cfg fuel st n with
      | none => rw [hm] at h; cases h
      | some res =>
        obtain ⟨s1, r1⟩ := res
        rw [hm] at h
        obtain ⟨bs1, k1, k2, _, k4, k5⟩ := malloc_chain cfg fuel st s1 b0 n r1 bs hs hwf hm
        have hmem := my_malloc_mem cfg fuel st s1 n r1 hm
        cases r1 with
        | none =>
          simp only [Option.some.injEq, Prod.mk.injEq] at h
          rw [← h.1]
          refine ⟨bs1, k1, ?_⟩
          intro b hb hbf _
          exact ⟨k4 b hb hbf, fun i _ => by rw [hmem]⟩
        | some q =>
          simp only at h
          generalize hst2 : ({ s1 with mem := memcpy s1.mem q (a + META_SIZE) (s1.hdr a).size }
            : State) = s2 at h
          cases hfr : my_free fuel s2 (some (a + META_SIZE)) with
          | none => rw [hfr] at h; cases h
          | some s3 =>
            rw [hfr] at h
            simp only [Option.some.injEq, Prod.mk.injEq] at h
            rw [← h.1]
            have hr2 : Rep s2.hdr bs1 s2.global_base := by rw [← hst2]; exact k1
            obtain ⟨hr3, hmem3⟩ := my_free_Rep s2 s3 fuel (a + META_SIZE) bs1 hr2 k2 hfr
            rw [Nat.add_sub_cancel] at hr3
            refine ⟨_, hr3, ?_⟩
            intro b hb hbf hne
            have hne2 : b.addr ≠ a := fun e => hne (by rw [e])
            refine ⟨coalesce_alloc_mem _ b (setFreeL_mem_ne a true bs1 b (k4 b hb hbf) hne2) hbf,
              ?_⟩
            intro i hi
            have hsz1 : (s1.hdr a).size = ba.size := by
              have := (Rep_mem bs1 _ k1 ba (k4 ba hba hbaf)).1
              rw [hbaa] at this
              exact this
            have := k5 q rfl b hb hbf
            rw [hmem3, ← hst2]
            simp only [memcpy]
            rw [if_neg (by omega), hmem]

/-- First fit and best fit: `my_calloc` returns on a chain state, given more
fuel than the chain has blocks. -/
theorem my_calloc_total_fb (cfg : Config) (fuel : Nat) (st : State) (nmemb size : Nat)
    (bs : List Blk) (hs : cfg.ALLOC_STRATEGY ≠ 3) (hr : Rep st.hdr bs st.global_base)
    (hl : bs.length < fuel) : ∃ st' r, my_calloc cfg fuel st nmemb size = some (st', r) := by
  obtain ⟨s1, r1, hm⟩ := my_malloc_total_fb cfg fuel st ((nmemb * size) % WORD) bs hs hr hl
  unfold my_calloc
  simp only [hm]
  cases r1 with
  | none => exact ⟨_, _, rfl⟩
  | some p => exact ⟨_, _, rfl⟩

/-- First fit and best fit: `my_realloc` returns on a chain state, given two
units of fuel more than the chain has blocks. -/
theorem my_realloc_total_fb (cfg : Config) (fuel : Nat) (st : State) (b0 n : Nat)
    (ptr : Option Nat) (bs : List Blk) (hs : cfg.ALLOC_STRATEGY ≠ 3) (hwf : WF st b0 bs)
    (hl : bs.length + 1 < fuel) : ∃ st' r, my_realloc cfg fuel st ptr n = some (st', r) := by
  obtain ⟨s1, r1, hm⟩ := my_malloc_total_fb cfg fuel st n bs hs hwf.1 (by omega)
  cases ptr with
  | none => exact ⟨s1, r1, hm⟩
  | some p =>
    unfold my_realloc
    simp only
    by_cases hc : n ≤ (st.hdr (p - META_SIZE)).size
    · rw [if_pos hc]
      exact ⟨_, _, rfl⟩
    · rw [if_neg hc, hm]
      cases r1 with
      | none => exact ⟨_, _, rfl⟩
      | some q =>
        simp only
        obtain ⟨bs1, k1, k2, k3, _, _⟩ := malloc_chain cfg fuel st s1 b0 n (some q) bs hs hwf hm
        generalize hst2 : ({ s1 with
          mem := memcpy s1.mem q p (s1.hdr (p - META_SIZE)).size } : State) = s2
        have hr2 : Rep s2.hdr bs1 s2.global_base := by rw [← hst2]; exact k1
        obtain ⟨s3, h3⟩ := my_free_total_Rep s2 fuel (some p) bs1 hr2 k2 (by omega)
        rw [h3]
        exact ⟨_, _, rfl⟩

/-- A chain state has one chain: the list of blocks met from `global_base`
is determined by the headers. -/
theorem Rep_unique {h : Nat → block_meta} :
    ∀ (bs bs' : List Blk) (p : Option Nat), Rep h bs p → Rep h bs' p → bs = bs' := by
  intro bs
  induction bs with
  | nil =>
    intro bs' p hr hr'
    cases bs' with
    | nil => rfl
    | cons b' bs' =>
      have h1 : p = none := hr
      have h2 : p = some b'.addr := hr'.1
      rw [h1] at h2
      cases h2
  | cons b bs ih =>
    intro bs' p hr hr'
    cases bs' with
    | nil =>
      have h1 : p = none := hr'
      have h2 : p = some b.addr := hr.1
      rw [h1] at h2
      cases h2
    | cons b' bs' =>
      obtain ⟨h1, h2, h3, h4⟩ := hr
      obtain ⟨k1, k2, k3, k4⟩ := hr'
      have ha : b.addr = b'.addr := by
        rw [h1] at k1
        simpa using k1
      have hb : b = b' := by
        cases b
        cases b'
        simp only at ha h2 h3 k2 k3
        subst ha
        rw [← h2, ← h3, ← k2, ← k3]
      subst hb
      rw [ih bs' _ h4 k4]

/-- First fit and best fit, on every chain state (the chain `bs` from
`global_base` tiles the arena) and with two units of fuel more than the chain
has blocks: each of `my_malloc(n)`, `my_calloc(nmemb, size)`, `my_realloc(p,
n)` (`p` being `NULL` or the pointer of an allocated chain block) and
`my_free(p)` returns, and leaves every allocated block other than the block
of `p` alone. -/
theorem untouched_on_chain (cfg : Config) (fuel b0 : Nat) (st : State) (bs : List Blk)
    (hs : cfg.ALLOC_STRATEGY ≠ 3) (hwf : WF st b0 bs) (hl : bs.length + 1 < fuel) :
    (∀ n, ∃ st' r bs', my_malloc cfg fuel st n = some (st', r) ∧
      Untouched st st' bs bs' none) ∧
    (∀ nmemb size, ∃ st' r bs', my_calloc cfg fuel st nmemb size = some (st', r) ∧
      Untouched st st' bs bs' none) ∧
    (∀ ptr n, (∀ p, ptr = some p → ∃ a, p = a + META_SIZE ∧ Alloc bs a) →
      ∃ st' r bs', my_realloc cfg fuel st ptr n = some (st', r) ∧
        Untouched st st' bs bs' (blockOf ptr)) ∧
    (∀ ptr, ∃ st' bs', my_free fuel st ptr = some st' ∧
      Untouched st st' bs bs' (blockOf ptr)) := by
  refine ⟨?_, ?_, ?_, ?_⟩
  · intro n
    obtain ⟨st', r, h⟩ := my_malloc_total_fb cfg fuel st n bs hs hwf.1 (by omega)
    obtain ⟨bs', hu⟩ := malloc_untouched cfg fuel st st' b0 n r bs hs hwf h
    exact ⟨st', r, bs', h, hu⟩
  · intro nmemb size
    obtain ⟨st', r, h⟩ := my_calloc_total_fb cfg fuel st nmemb size bs hs hwf.1 (by omega)
    obtain ⟨bs', hu⟩ := calloc_untouched cfg fuel st st' b0 nmemb size r bs hs hwf h
    exact ⟨st', r, bs', h, hu⟩
  · intro ptr n hp
    obtain ⟨st', r, h⟩ := my_realloc_total_fb cfg fuel st b0 n ptr bs hs hwf hl
    obtain ⟨bs', hu⟩ := realloc_untouched cfg fuel st st' b0 n ptr r bs hs hwf hp h
    exact ⟨st', r, bs', h, hu⟩
  · intro ptr
    obtain ⟨st', h⟩ := my_free_total st fuel b0 ptr bs hwf (by omega)
    obtain ⟨bs', hu⟩ := free_untouched fuel st st' b0 ptr bs hwf h
    exact ⟨st', bs', h, hu⟩

/-- C18 (as amended): with first fit or best fit, in every state reached from
a fresh process by calls that respect the caller obligations and whose sizes
satisfy `size + META_SIZE < 2^63` (`bs` being the chain of that state), and
with two units of fuel more than the chain has blocks, each further call
`my_malloc(n)`, `my_calloc(nmemb, size)`, `my_realloc(p, n)` or `my_free(p)`
with such a size and a live or `NULL` pointer returns, and the state it
returns with has a chain in which every block that was allocated before the
call, the block of `p` apart, is still a block with the same address, the
same size and marked allocated, the payload bytes of that block being the
same as before. -/
theorem others_untouched (cfg : Config) (fuel b0 : Nat) (st : State) (live : List Nat)
    (bs : List Blk) (hs : cfg.ALLOC_STRATEGY ≠ 3) (hR : Reach SizeOK cfg b0 st live)
    (hwf : WF st b0 bs) (hl : bs.length + 1 < fuel) :
    (∀ n, SizeOK n → ∃ st' r bs', my_malloc cfg fuel st n = some (st', r) ∧
      Untouched st st' bs bs' none) ∧
    (∀ nmemb size, SizeOK ((nmemb * size) % WORD) →
      ∃ st' r bs', my_calloc cfg fuel st nmemb size = some (st', r) ∧
        Untouched st st' bs bs' none) ∧
    (∀ ptr n, (∀ p, ptr = some p → p ∈ live) → SizeOK n →
      ∃ st' r bs', my_realloc cfg fuel st ptr n = some (st', r) ∧
        Untouched st st' bs bs' (blockOf ptr)) ∧
    (∀ ptr, (∀ p, ptr = some p → p ∈ live) →
      ∃ st' bs', my_free fuel st ptr = some st' ∧
        Untouched st st' bs bs' (blockOf ptr)) := by
  obtain ⟨bs0, hwf0, _, hlive⟩ := reach_inv cfg b0 st live hs hR
  have hbs : bs0 = bs := Rep_unique bs0 bs _ hwf0.1 hwf.1
  subst hbs
  obtain ⟨t1, t2, t3, t4⟩ := untouched_on_chain cfg fuel b0 st bs0 hs hwf hl
  refine ⟨fun n _ => t1 n, fun nmemb size _ => t2 nmemb size, ?_, fun ptr _ => t4 ptr⟩
  intro ptr n hp _
  refine t3 ptr n ?_
  intro p hpp
  obtain ⟨a, ha, hpa⟩ := (hlive p).1 (hp p hpp)
  exact ⟨a, hpa, ha⟩

/-- C18, runs of the amended claim: first fit, the state after
`my_malloc(100)`, `my_malloc(40)` (two allocated blocks, at 4096 and 4220,
live pointers 4120 and 4244), four units of fuel, and the further calls
`my_malloc(300)`, `my_calloc(10, 4)`, `my_realloc(4120, 200)` and
`my_free(4120)`. -/
theorem others_untouched_witness :
    ((ex_cfg 1).ALLOC_STRATEGY ≠ 3 ∧ Reach SizeOK (ex_cfg 1) 4096 ex_two [4244, 4120] ∧
      WF ex_two 4096 [⟨4096, 100, false⟩, ⟨4220, 40, false⟩] ∧
      [(⟨4096, 100, false⟩ : Blk), ⟨4220, 40, false⟩].length + 1 < 4 ∧
      SizeOK 300 ∧ SizeOK ((10 * 4) % WORD) ∧
      (∀ p, some 4120 = some p → p ∈ [4244, 4120]) ∧ SizeOK 200) ∧
    (∃ st' r bs', my_malloc (ex_cfg 1) 4 ex_two 300 = some (st', r) ∧
      Untouched ex_two st' [⟨4096, 100, false⟩, ⟨4220, 40, false⟩] bs' none) ∧
    (∃ st' r bs', my_calloc (ex_cfg 1) 4 ex_two 10 4 = some (st', r) ∧
      Untouched ex_two st' [⟨4096, 100, false⟩, ⟨4220, 40, false⟩] bs' none) ∧
    (∃ st' r bs', my_realloc (ex_cfg 1) 4 ex_two (some 4120) 200 = some (st', r) ∧
      Untouched ex_two st' [⟨4096, 100, false⟩, ⟨4220, 40, false⟩] bs'
        (blockOf (some 4120))) ∧
    (∃ st' bs', my_free 4 ex_two (some 4120) = some st' ∧
      Untouched ex_two st' [⟨4096, 100, false⟩, ⟨4220, 40, false⟩] bs'
        (blockOf (some 4120))) :=
  have hR : Reach SizeOK (ex_cfg 1) 4096 ex_two [4244, 4120] :=
    Reach.allocate 2 40 ex_two (some 4244)
      (Reach.allocate 1 100 ex_one (some 4120) (Reach.start ex_hdr ex_mem (by decide))
        (by decide) (by rfl)) (by decide) (by rfl)
  have hp : ∀ p, some 4120 = some p → p ∈ [4244, 4120] := by
    intro p hp
    cases hp
    decide
  have T := others_untouched (ex_cfg 1) 4 4096 ex_two [4244, 4120]
    [⟨4096, 100, false⟩, ⟨4220, 40, false⟩] (by decide) hR ex_two_WF (by decide)
  ⟨⟨by decide, hR, ex_two_WF, by decide, by decide, by decide, hp, by decide⟩,
    T.1 300 (by decide), T.2.1 10 4 (by decide), T.2.2.1 (some 4120) 200 hp (by decide),
    T.2.2.2 (some 4120) hp⟩

/-- C18 as stated fails under first fit: after `my_malloc(100)` and
`q = my_malloc(2^64 - 24)` (answered with 4244: the increment wraps to 0 and
the break stays at 4220) the block of `q` at 4220 is allocated with size
`2^64 - 24`.  The call `my_malloc(8)` finds no free block, is handed the same
break 4220 by `sbrk`, writes its header over that of `q`, whose size becomes
8, and returns 4244 once more. -/
theorem frame_counterexample :
    Reach AnySize (ex_cfg 1) 4096 ex_huge [4244, 4120] ∧
    Rep ex_huge.hdr [⟨4096, 100, false⟩, ⟨4220, WORD - META_SIZE, false⟩]
      ex_huge.global_base ∧
    (ex_huge.hdr 4220).free = false ∧ (ex_huge.hdr 4220).size = WORD - META_SIZE ∧
    my_malloc (ex_cfg 1) 3 ex_huge 8 = some (ex_huge2, some 4244) ∧
    (ex_huge2.hdr 4220).size = 8 ∧
    (ex_huge2.hdr 4220).size ≠ (ex_huge.hdr 4220).size := by
  have r0 : Reach AnySize (ex_cfg 1) 4096 ex_init [] := Reach.start ex_hdr ex_mem (by decide)
  have r1 : Reach AnySize (ex_cfg 1) 4096 ex_one [4120] :=
    Reach.allocate 1 100 ex_one (some 4120) r0 trivial (by rfl)
  have r2 : Reach AnySize (ex_cfg 1) 4096 ex_huge [4244, 4120] :=
    Reach.allocate 2 (WORD - META_SIZE) ex_huge (some 4244) r1 trivial (by rfl)
  have e1 : (ex_huge.hdr 4220).size = WORD - META_SIZE := by rfl
  have e2 : (ex_huge2.hdr 4220).size = 8 := by rfl
  refine ⟨r2, ⟨by rfl, by rfl, by rfl, by rfl, by rfl, by rfl, by rfl⟩, by rfl, e1, by rfl, e2,
    ?_⟩
  rw [e1, e2]
  have := WORD_eq
  have := META_SIZE_eq
  omega

/-! ## The circular scan of next fit -/

/-- Where a stretch of the chain ends: at the header of the block that
follows it. -/
theorem Seg_next {h : Nat → block_meta} (ys : List Blk) (m : Option Nat) (q : Option Nat)
    (hs : Seg h ys m q) (hne : ys ≠ []) : m = ys.head?.map Blk.addr := by
  cases ys with
  | nil => exact absurd rfl hne
  | cons y ys => exact hs.1

theorem nodup_append_left (xs ys : List Blk) (h : (addrs (xs ++ ys)).Nodup) :
    (addrs xs).Nodup := by
  simp only [addrs, List.map_append] at h
  exact (List.nodup_append.1 h).1

end Allocator
